import Mathlib

/-!
Verification of the m4/m6 pair-scan Collatz engine.

This file gives a shallow embedding, over `Nat`, of the Rust sources
`pair_number.rs`, `reference.rs`, `scan.rs`, `postprocess.rs`, `packed.rs`
and the stopping-time part of `trajectory.rs`, and proves the functional
properties claimed for them.  Machine words (`u64`) are modelled as natural
numbers that are kept `< 2^64`; operations that wrap in Rust carry an
explicit `% 2^64`.  Loops are modelled by structural recursion on an
explicit fuel equal to the loop bound, so every definition is executable
by kernel reduction.
-/

set_option maxRecDepth 10000

/-! ## Bit-level helpers (semantics of packed bit streams) -/

/-- Bit `i % 64` of word `i / 64` of a packed stream, i.e. the bit of pair
index `i` in the layout used throughout the Rust code. -/
def streamBit (ws : List Nat) (i : Nat) : Bool :=
  (ws.getD (i / 64) 0).testBit (i % 64)

/-- `words[i/64] |= b << (i%64)` — the in-place bit-set used by the scan
loops (`b` is a bit value, `0` or `1`). -/
def setStreamBit (ws : List Nat) (i : Nat) (b : Nat) : List Nat :=
  ws.set (i / 64) ((ws.getD (i / 64) 0) ||| (b <<< (i % 64)))

/-- Numeric value `m6[i] + 2*m4[i]` of the two-bit pair at index `i`. -/
def pairVal (m4 m6 : List Nat) (i : Nat) : Nat :=
  (streamBit m6 i).toNat + 2 * (streamBit m4 i).toNat

/-- Value of the number represented by the first `k` pairs of the two
streams: `Σ_{i<k} (m6[i] + 2*m4[i]) * 4^i`.  This is the semantics of the
pair representation (§3 of the design: `n = Σ (2·m4[i] + m6[i]) · 4^i`). -/
def streamsVal (m4 m6 : List Nat) : Nat → Nat
  | 0 => 0
  | k + 1 => streamsVal m4 m6 k + pairVal m4 m6 k * 4 ^ k

/-- Fuelled helper for the trailing-zero count of a natural number. -/
def ctzGo : Nat → Nat → Nat
  | 0, _ => 0
  | f + 1, m => if m % 2 = 1 then 0 else ctzGo f (m / 2) + 1

/-- Number of trailing zero bits of `m` (for `m = 0` this returns `0`;
it is only ever used on positive numbers). -/
def ctzNat (m : Nat) : Nat := ctzGo m m

/-- Fuelled helper for the binary length of a natural number. -/
def bitLenGo : Nat → Nat → Nat
  | 0, _ => 0
  | f + 1, m => if m = 0 then 0 else bitLenGo f (m / 2) + 1

/-- Binary bit-length of `m` (`= Nat.size m`), executable by kernel
reduction; models `BigUint::bits()` and `64 - leading_zeros()`. -/
def bitLen (m : Nat) : Nat := bitLenGo m m

/-- Number of set bits of `v` among bit positions `< n`. -/
def bitCountBelow (v : Nat) : Nat → Nat
  | 0 => 0
  | n + 1 => bitCountBelow v n + (v.testBit n).toNat

/-- `u64::count_ones`: population count of a 64-bit word. -/
def u64_count_ones (v : Nat) : Nat := bitCountBelow v 64

/-- `u64::trailing_zeros`: 64 for the zero word, else the index of the
lowest set bit. -/
def u64_trailing_zeros (v : Nat) : Nat := if v = 0 then 64 else ctzNat v

/-! ## `pair_number.rs` — the PairNumber representation -/

/-- 2-bit-pair decomposition of a natural number: packed `m4`/`m6` bit
streams (LSB pair first, 64 pairs per word) and the pair count. -/
structure PairNumber where
  m4_words : List Nat
  m6_words : List Nat
  pair_count : Nat
deriving DecidableEq, Repr

/-- Fuelled helper assembling one 64-bit word of a packed stream from a
bit-valued function on pair indices (bits at stream index `≥ count` are
left zero, as in the guarded loops of the Rust constructors). -/
def wordFromBitsGo (f : Nat → Bool) (base count : Nat) : Nat → Nat
  | 0 => 0
  | j + 1 =>
    wordFromBitsGo f base count j +
      (if base + j < count ∧ f (base + j) then 2 ^ j else 0)

/-- Assemble the `(count+63)/64` packed words of a stream whose bit at
pair index `i < count` is `f i`. -/
def buildWords (f : Nat → Bool) (count : Nat) : List Nat :=
  (List.range ((count + 63) / 64)).map (fun w => wordFromBitsGo f (64 * w) count 64)

/-- `PairNumber::from_biguint`: pad the binary expansion of `n` to an even
bit length `2k` and zip it into `k` pairs; bit `2i` goes to `m6[i]`, bit
`2i+1` to `m4[i]`.  (The Rust code reads the bits out of the little-endian
byte array of `n`; `(bytes[p/8] >> (p%8)) & 1` is exactly `n.testBit p`.) -/
def PairNumber.from_biguint (n : Nat) : PairNumber :=
  if n = 0 then ⟨[0], [0], 1⟩ else
  let bit_len := bitLen n
  let padded_bit_len := if bit_len % 2 ≠ 0 then bit_len + 1 else bit_len
  let pair_count := padded_bit_len / 2
  ⟨buildWords (fun i => n.testBit (2 * i + 1)) pair_count,
   buildWords (fun i => n.testBit (2 * i)) pair_count,
   pair_count⟩

/-- `PairNumber::to_biguint`: reassemble the number from the fastener view
(bit `2i` = `m6[i]`, bit `2i+1` = `m4[i]`); the byte array the Rust code
builds has exactly the value `Σ_{i<k} (m6[i] + 2·m4[i]) · 4^i`. -/
def PairNumber.to_biguint (pn : PairNumber) : Nat :=
  if pn.pair_count = 0 then 0
  else streamsVal pn.m4_words pn.m6_words pn.pair_count

/-- `PairNumber::pair_count`. -/
def PairNumber.pairCount (pn : PairNumber) : Nat := pn.pair_count

/-- `PairNumber::get_m4` (signed index; out of range reads 0). -/
def PairNumber.get_m4 (pn : PairNumber) (i : Int) : Nat :=
  if i < 0 ∨ (pn.pair_count : Int) ≤ i then 0
  else
    let idx := i.toNat
    ((pn.m4_words.getD (idx / 64) 0) >>> (idx % 64)) &&& 1

/-- `PairNumber::get_m6` (signed index; out of range reads 0). -/
def PairNumber.get_m6 (pn : PairNumber) (i : Int) : Nat :=
  if i < 0 ∨ (pn.pair_count : Int) ≤ i then 0
  else
    let idx := i.toNat
    ((pn.m6_words.getD (idx / 64) 0) >>> (idx % 64)) &&& 1

/-- `PairNumber::is_one`: `k = 1`, `m4_words[0] = 0`, `m6_words[0] = 1`. -/
def PairNumber.is_one (pn : PairNumber) : Bool :=
  (pn.pair_count == 1) && (pn.m4_words.getD 0 0 == 0) && (pn.m6_words.getD 0 0 == 1)

/-- `PairNumber::from_packed` (assume-correct constructor). -/
def PairNumber.from_packed (m4_words m6_words : List Nat) (pair_count : Nat) :
    PairNumber :=
  ⟨m4_words, m6_words, pair_count⟩

/-- Word scan of `Ord for PairNumber`: walk the words from the most
significant down; at the first differing word decide at the highest
differing bit, `m4` taking precedence over `m6`. -/
def cmpWordsGo (a b : PairNumber) : Nat → Ordering
  | 0 => .eq
  | w + 1 =>
    let a4 := a.m4_words.getD w 0
    let b4 := b.m4_words.getD w 0
    let a6 := a.m6_words.getD w 0
    let b6 := b.m6_words.getD w 0
    let diff_any := (a4 ^^^ b4) ||| (a6 ^^^ b6)
    if diff_any = 0 then cmpWordsGo a b w
    else
      let mask := 1 <<< (bitLen diff_any - 1)
      if a4 &&& mask ≠ b4 &&& mask then
        (if a4 &&& mask ≠ 0 then .gt else .lt)
      else if a6 &&& mask ≠ b6 &&& mask then
        (if a6 &&& mask ≠ 0 then .gt else .lt)
      else .eq

/-- `Ord::cmp for PairNumber`: compare pair counts first, then scan words
from the most significant end.  (`63 - leading_zeros(v)` is `bitLen v - 1`
for a nonzero word `v`.) -/
def PairNumber.cmp (a b : PairNumber) : Ordering :=
  match compare a.pair_count b.pair_count with
  | .eq => cmpWordsGo a b a.m4_words.length
  | ord => ord

/-- `a < b` for pair-numbers, via `Ord::cmp`. -/
def PairNumber.blt (a b : PairNumber) : Bool := a.cmp b == Ordering.lt

/-- `mask_top` (shared shape of `postprocess::mask_top` and
`packed::mask_top_bits`): zero the unused high bits of the last word. -/
def mask_top (words : List Nat) (pair_count : Nat) : List Nat :=
  if words.isEmpty then words
  else if pair_count % 64 = 0 then words
  else
    words.set (words.length - 1)
      ((words.getD (words.length - 1) 0) &&& ((1 <<< (pair_count % 64)) - 1))

/-- The MSB-side `(0,0)` trimming loop of `PairNumber::from_bits_lsb`. -/
def trimBitsGo (m4 m6 : List Nat) : Nat → Nat → Nat
  | 0, k => k
  | f + 1, k =>
    if k ≤ 1 then k
    else if streamBit m4 (k - 1) = false ∧ streamBit m6 (k - 1) = false then
      trimBitsGo m4 m6 f (k - 1)
    else k

/-- The padded bit list of `PairNumber::from_bits_lsb` (one `false`
appended when the length is odd). -/
def fromBitsPadded (bits : List Bool) : List Bool :=
  if bits.length % 2 ≠ 0 then bits ++ [false] else bits

/-- The untrimmed pair count of `from_bits_lsb` (half the padded length). -/
def fromBitsK0 (bits : List Bool) : Nat := (fromBitsPadded bits).length / 2

/-- The untrimmed `m4` word vector of `from_bits_lsb` (odd fastener bits). -/
def fromBitsM4 (bits : List Bool) : List Nat :=
  buildWords (fun i => (fromBitsPadded bits).getD (2 * i + 1) false)
    (fromBitsK0 bits)

/-- The untrimmed `m6` word vector of `from_bits_lsb` (even fastener bits). -/
def fromBitsM6 (bits : List Bool) : List Nat :=
  buildWords (fun i => (fromBitsPadded bits).getD (2 * i) false)
    (fromBitsK0 bits)

/-- The trimmed pair count of `from_bits_lsb`. -/
def fromBitsK (bits : List Bool) : Nat :=
  trimBitsGo (fromBitsM4 bits) (fromBitsM6 bits) (fromBitsK0 bits)
    (fromBitsK0 bits)

/-- `PairNumber::from_bits_lsb`: build a pair-number from an LSB-first
fastener bit list (even positions are `m6` bits, odd positions `m4`
bits), pad to even length, trim the MSB-side zero pairs, truncate the
word vectors and mask the top word. -/
def PairNumber.from_bits_lsb (bits : List Bool) : PairNumber :=
  if bits.length = 0 then ⟨[0], [0], 1⟩ else
  ⟨mask_top ((fromBitsM4 bits).take ((fromBitsK bits + 63) / 64)) (fromBitsK bits),
   mask_top ((fromBitsM6 bits).take ((fromBitsK bits + 63) / 64)) (fromBitsK bits),
   fromBitsK bits⟩

/-! ## Well-formedness and canonical form of a pair-number -/

/-- Well-formedness of a packed stream of `count` pairs: exactly
`⌈count/64⌉` words, each a 64-bit quantity, with all bits at pair indices
`≥ count` zero. -/
def StreamWF (ws : List Nat) (count : Nat) : Prop :=
  ws.length = (count + 63) / 64 ∧
  (∀ j < ws.length, ws.getD j 0 < 2 ^ 64) ∧
  (∀ i < 64 * ws.length, count ≤ i → streamBit ws i = false)

instance (ws : List Nat) (count : Nat) : Decidable (StreamWF ws count) := by
  unfold StreamWF; infer_instance

/-- Representation invariant of `PairNumber` (§3): well-formed streams,
`k ≥ 1`, and a trimmed top pair when `k > 1`. -/
def PairNumber.Canonical (pn : PairNumber) : Prop :=
  StreamWF pn.m4_words pn.pair_count ∧ StreamWF pn.m6_words pn.pair_count ∧
  1 ≤ pn.pair_count ∧
  (1 < pn.pair_count → pairVal pn.m4_words pn.m6_words (pn.pair_count - 1) ≠ 0)

instance (pn : PairNumber) : Decidable pn.Canonical := by
  unfold PairNumber.Canonical; infer_instance

/-- The numeric value of a pair-number. -/
def PairNumber.val (pn : PairNumber) : Nat :=
  streamsVal pn.m4_words pn.m6_words pn.pair_count

/-! ## `reference.rs` — the reference pattern -/

/-- `s = log2(x-1)` for a valid `x` (`x - 1` a power of two), computed as
the trailing-zero count of `x - 1` as in `RefPattern::new`. -/
def sOf (x : Nat) : Nat := ctzNat (x - 1)

/-- Validity precondition on the multiplier: `x ≥ 3` and `x - 1` a power
of two (stated through `sOf` so that it is decidable). -/
def ValidX (x : Nat) : Prop := 3 ≤ x ∧ x - 1 = 2 ^ sOf x

instance (x : Nat) : Decidable (ValidX x) := by unfold ValidX; infer_instance

/-- `RefPattern { s, t, s_is_even }`. -/
structure RefPattern where
  s : Nat
  t : Nat
  s_is_even : Bool

/-- `RefPattern::new` (precondition `ValidX x`). -/
def RefPattern.new (x : Nat) : RefPattern :=
  let s := ctzNat (x - 1)
  { s := s, t := s / 2, s_is_even := s % 2 = 0 }

/-- `RefPattern::ref_r`: the m6-stage reference bit pair at pair index `i`. -/
def RefPattern.ref_r (rp : RefPattern) (n : PairNumber) (i : Int) (bi : Nat) :
    Nat × Nat :=
  if rp.s_is_even then (n.get_m6 (i - rp.t), bi)
  else (n.get_m4 (i - rp.t - 1), bi)

/-- `RefPattern::ref_l`: the m4-stage reference bit pair at pair index `i`. -/
def RefPattern.ref_l (rp : RefPattern) (n : PairNumber) (i : Int) (ai : Nat) :
    Nat × Nat :=
  if rp.s_is_even then (n.get_m4 (i - rp.t), ai)
  else (n.get_m6 (i - rp.t), ai)

/-! ## `scan.rs` — sequential scan -/

/-- GPK carry classification of a pair position. -/
inductive Gpk where
  | Kill
  | Propagate
  | Generate
deriving DecidableEq, Repr

/-- `GpkInfo`: packed G/P masks, counts, and the max carry chain. -/
structure GpkInfo where
  g_masks : List Nat
  p_masks : List Nat
  active_pairs : Nat
  g_count : Nat
  p_count : Nat
  k_count : Nat
  max_carry_chain : Nat
deriving DecidableEq, Repr

/-- `GpkInfo::new`. -/
def GpkInfo.new (pair_count : Nat) : GpkInfo :=
  { g_masks := List.replicate ((pair_count + 63) / 64) 0
    p_masks := List.replicate ((pair_count + 63) / 64) 0
    active_pairs := pair_count
    g_count := 0, p_count := 0, k_count := 0, max_carry_chain := 0 }

/-- `GpkInfo::set_gpk`. -/
def GpkInfo.set_gpk (info : GpkInfo) (i : Nat) (gpk : Gpk) : GpkInfo :=
  match gpk with
  | .Generate =>
    { info with g_count := info.g_count + 1,
                g_masks := setStreamBit info.g_masks i 1 }
  | .Propagate =>
    { info with p_count := info.p_count + 1,
                p_masks := setStreamBit info.p_masks i 1 }
  | .Kill => { info with k_count := info.k_count + 1 }

/-- The carry-chain sweep of `GpkInfo::finalize`: walk the pairs from 0,
lengthening the chain at every Generate and at every Propagate while the
carry is alive, resetting at every Kill; the initial carry is alive. -/
def gpkSweepGo (g_masks p_masks : List Nat) :
    Nat → Nat → Nat → Nat → Bool → Nat
  | 0, _, chain, max_chain, _ => if chain > max_chain then chain else max_chain
  | f + 1, i, chain, max_chain, carry =>
    if streamBit g_masks i then
      gpkSweepGo g_masks p_masks f (i + 1) (chain + 1) max_chain true
    else if streamBit p_masks i then
      gpkSweepGo g_masks p_masks f (i + 1) (if carry then chain + 1 else chain)
        max_chain carry
    else
      gpkSweepGo g_masks p_masks f (i + 1) 0
        (if chain > max_chain then chain else max_chain) false

/-- `GpkInfo::finalize`. -/
def GpkInfo.finalize (info : GpkInfo) : GpkInfo :=
  { info with max_carry_chain :=
      gpkSweepGo info.g_masks info.p_masks info.active_pairs 0 0 0 true }

/-- `StepResult` of the sequential scan. -/
structure StepResult where
  next : PairNumber
  d : Nat
  exchanged : Bool
  gpk : GpkInfo
  raw_m4 : List Nat
  raw_m6 : List Nat
  raw_pair_count : Nat
deriving DecidableEq, Repr

/-- `GpkStats` (aggregate statistics; used by the stopping-time loops). -/
structure GpkStats where
  total_g : Nat
  total_p : Nat
  total_k : Nat
  total_pairs : Nat
  total_steps : Nat
  carry_chain_hist : List Nat
deriving DecidableEq, Repr

/-- `GpkStats::new`. -/
def GpkStats.new : GpkStats :=
  { total_g := 0, total_p := 0, total_k := 0, total_pairs := 0,
    total_steps := 0, carry_chain_hist := List.replicate 128 0 }

/-- `pair_gpk`: the two-stage (m6 then m4) G/P/K composition of a pair. -/
def pair_gpk (p_r q_r p_l q_l : Nat) : Gpk :=
  let g_mid := p_r &&& q_r
  let p_mid := p_r ^^^ q_r
  let g_out := p_l &&& q_l
  let p_out := p_l ^^^ q_l
  let g_i := g_out ||| (p_out &&& g_mid)
  let p_i := p_out &&& p_mid
  if g_i ≠ 0 then .Generate
  else if p_i ≠ 0 then .Propagate
  else .Kill

/-- Loop bound of `collatz_step`: `max_i = k + (s+1)/2` (integer, i.e.
floor, division — exactly the Rust expression `k + ((s as usize) + 1) / 2`). -/
def collatzScanMaxI (k s : Nat) : Nat := k + (s + 1) / 2

/-- Early-exit horizon of `collatz_step`:
`k + (s.saturating_sub(1)) / 2`. -/
def collatzScanSafeEnd (k s : Nat) : Nat := k + (s - 1) / 2

/-- Mutable state of the `collatz_step` loop. -/
structure ScanState where
  new_m4 : List Nat
  new_m6 : List Nat
  gpk : GpkInfo
  c : Nat
  actual_pairs : Nat
deriving Repr

/-- One iteration of the `collatz_step` loop body (without the early-exit
test). -/
def scanBody (n : PairNumber) (rp : RefPattern) (k i : Nat) (st : ScanState) :
    ScanState :=
  let ii : Int := (i : Int)
  let ai := n.get_m4 ii
  let bi := n.get_m6 ii
  let rr := rp.ref_r n ii bi
  let rl := rp.ref_l n ii ai
  let p_r := rr.1
  let q_r := rr.2
  let p_l := rl.1
  let q_l := rl.2
  let gpk' := if i < k then st.gpk.set_gpk i (pair_gpk p_r q_r p_l q_l) else st.gpk
  let sum_r := p_r + q_r + st.c
  let m6_bit := sum_r % 2
  let c_mid := sum_r / 2
  let sum_l := p_l + q_l + c_mid
  let m4_bit := sum_l % 2
  let c := sum_l / 2
  { new_m4 := setStreamBit st.new_m4 i m4_bit
    new_m6 := setStreamBit st.new_m6 i m6_bit
    gpk := gpk', c := c, actual_pairs := i + 1 }

/-- The `for i in 0..=max_i` loop of `collatz_step`, with the early exit
`c = 0 && i >= safe_end`; fuel is `max_i + 1 - i`. -/
def scanLoopGo (n : PairNumber) (rp : RefPattern) (k safe_end : Nat) :
    Nat → Nat → ScanState → ScanState
  | 0, _, st => st
  | f + 1, i, st =>
    let st' := scanBody n rp k i st
    if st'.c = 0 ∧ safe_end ≤ i then st'
    else scanLoopGo n rp k safe_end f (i + 1) st'

/-! ## `postprocess.rs` -/

/-- Result of `postprocess`. -/
structure PostprocessResult where
  next : PairNumber
  d : Nat
  exchanged : Bool
deriving DecidableEq, Repr

/-- The `while k > 1` loop of `trim_pair_count` (with the
`word_idx >= m4.len()` guard of the source); fuel is the initial `k`. -/
def trimPairGo (m4 m6 : List Nat) : Nat → Nat → Nat
  | 0, k => k
  | f + 1, k =>
    if k ≤ 1 then k
    else if m4.length ≤ (k - 1) / 64 then trimPairGo m4 m6 f (k - 1)
    else if streamBit m4 (k - 1) = false ∧ streamBit m6 (k - 1) = false then
      trimPairGo m4 m6 f (k - 1)
    else k

/-- `trim_pair_count`: the pair count after removing the MSB-side `(0,0)`
pairs (keeping `k ≥ 1`). -/
def trim_pair_count (m4 m6 : List Nat) (pair_count : Nat) : Nat :=
  if pair_count = 0 then 0 else trimPairGo m4 m6 pair_count pair_count

/-- Word loop of `count_trailing_zeros_packed`: an all-zero word
contributes 128 fastener zeros; the first nonzero word contributes
`2 * trailing_zeros(m4|m6)` plus one more if the boundary pair's `m6` bit
is zero. -/
def ctzPackedGo (m4 m6 : List Nat) : Nat → Nat → Nat → Nat
  | 0, _, d => d
  | f + 1, w, d =>
    let m4w := m4.getD w 0
    let m6w := m6.getD w 0
    let or_word := m4w ||| m6w
    if or_word = 0 then ctzPackedGo m4 m6 f (w + 1) (d + 128)
    else
      let tz := u64_trailing_zeros or_word
      let d := d + tz * 2
      if (m6w >>> tz) &&& 1 = 0 then d + 1 else d

/-- `count_trailing_zeros_packed`: trailing zero count of the fastener bit
sequence (bit `2i` = `m6[i]`, bit `2i+1` = `m4[i]`). -/
def count_trailing_zeros_packed (m4 m6 : List Nat) (pair_count : Nat) : Nat :=
  ctzPackedGo m4 m6 ((pair_count + 63) / 64) 0 0

/-- Pair count of the shifted output of `shift_right_bits` before the
final re-trim: `k` when `d = 0`, else `⌈(2k - d)/2⌉`
(`remaining_bits.div_ceil(2)` in the source). -/
def shiftPreTrimCount (pair_count : Nat) (d : Nat) : Nat :=
  if d = 0 then pair_count else (2 * pair_count - d + 1) / 2

/-- The bit-copy loop of `shift_right_bits`: for each output fastener bit
position `out_bit < remaining_bits`, copy input fastener bit
`out_bit + d`; fuel is `remaining_bits - out_bit`. -/
def shiftCopyGo (m4 m6 : List Nat) (pair_count d : Nat) :
    Nat → Nat → List Nat × List Nat → List Nat × List Nat
  | 0, _, st => st
  | f + 1, out_bit, st =>
    let src_bit := out_bit + d
    let src_pair := src_bit / 2
    let src_is_m4 := src_bit % 2 = 1
    let bit_val :=
      if src_pair < pair_count then
        if src_is_m4 then ((m4.getD (src_pair / 64) 0) >>> (src_pair % 64)) &&& 1
        else ((m6.getD (src_pair / 64) 0) >>> (src_pair % 64)) &&& 1
      else 0
    let out_pair := out_bit / 2
    let out_is_m4 := out_bit % 2 = 1
    let st' :=
      if out_is_m4 then (setStreamBit st.1 out_pair bit_val, st.2)
      else (st.1, setStreamBit st.2 out_pair bit_val)
    shiftCopyGo m4 m6 pair_count d f (out_bit + 1) st'

/-- The MSB trim at the end of `shift_right_bits` (no length guard:
the freshly built words always cover `k` pairs). -/
def shiftTrimGo (m4 m6 : List Nat) : Nat → Nat → Nat
  | 0, k => k
  | f + 1, k =>
    if k ≤ 1 then k
    else if streamBit m4 (k - 1) = false ∧ streamBit m6 (k - 1) = false then
      shiftTrimGo m4 m6 f (k - 1)
    else k

/-- The word pair built by the copy loop of `shift_right_bits` (the
freshly allocated `new_m4`/`new_m6` after the `for out_bit` loop). -/
def shiftBuilt (m4 m6 : List Nat) (pair_count d : Nat) : List Nat × List Nat :=
  shiftCopyGo m4 m6 pair_count d (2 * pair_count - d) 0
    (List.replicate ((shiftPreTrimCount pair_count d + 63) / 64) 0,
     List.replicate ((shiftPreTrimCount pair_count d + 63) / 64) 0)

/-- The final pair count of `shift_right_bits` for `d > 0`: the MSB trim
applied to the copied words. -/
def shiftFinalK (m4 m6 : List Nat) (pair_count d : Nat) : Nat :=
  shiftTrimGo (shiftBuilt m4 m6 pair_count d).1 (shiftBuilt m4 m6 pair_count d).2
    (shiftPreTrimCount pair_count d) (shiftPreTrimCount pair_count d)

/-- `shift_right_bits`: right-shift the fastener view by `d` bits and
re-pair; an odd `d` exchanges the roles of `m4` and `m6`. -/
def shift_right_bits (m4 m6 : List Nat) (pair_count d : Nat) :
    List Nat × List Nat × Nat :=
  if d = 0 then
    (mask_top (m4.take ((pair_count + 63) / 64)) pair_count,
     mask_top (m6.take ((pair_count + 63) / 64)) pair_count, pair_count)
  else if 2 * pair_count - d = 0 then ([0], [0], 1)
  else if shiftPreTrimCount pair_count d = 0 then ([0], [0], 1)
  else
    (mask_top ((shiftBuilt m4 m6 pair_count d).1.take
        ((shiftFinalK m4 m6 pair_count d + 63) / 64)) (shiftFinalK m4 m6 pair_count d),
     mask_top ((shiftBuilt m4 m6 pair_count d).2.take
        ((shiftFinalK m4 m6 pair_count d + 63) / 64)) (shiftFinalK m4 m6 pair_count d),
     shiftFinalK m4 m6 pair_count d)

/-- `postprocess`: MSB trim, trailing-zero count `d`, right shift by `d`
with re-pairing; `exchanged` reports `d` odd. -/
def postprocess (new_m4 new_m6 : List Nat) (raw_pair_count : Nat) :
    PostprocessResult :=
  if trim_pair_count new_m4 new_m6 raw_pair_count = 0 then
    { next := PairNumber.from_packed [0] [0] 1, d := 0, exchanged := false }
  else
    { next := PairNumber.from_packed
        (shift_right_bits new_m4 new_m6
          (trim_pair_count new_m4 new_m6 raw_pair_count)
          (count_trailing_zeros_packed new_m4 new_m6
            (trim_pair_count new_m4 new_m6 raw_pair_count))).1
        (shift_right_bits new_m4 new_m6
          (trim_pair_count new_m4 new_m6 raw_pair_count)
          (count_trailing_zeros_packed new_m4 new_m6
            (trim_pair_count new_m4 new_m6 raw_pair_count))).2.1
        (shift_right_bits new_m4 new_m6
          (trim_pair_count new_m4 new_m6 raw_pair_count)
          (count_trailing_zeros_packed new_m4 new_m6
            (trim_pair_count new_m4 new_m6 raw_pair_count))).2.2
      d := count_trailing_zeros_packed new_m4 new_m6
        (trim_pair_count new_m4 new_m6 raw_pair_count)
      exchanged := count_trailing_zeros_packed new_m4 new_m6
        (trim_pair_count new_m4 new_m6 raw_pair_count) % 2 = 1 }

/-- The scan-loop stage of `collatz_step`: the final `ScanState` after
the `for i in 0..=max_i` loop (initial carry 1, zeroed output words of
`(max_i + 1 + 63) / 64` words each). -/
def scanStreams (n : PairNumber) (x : Nat) : ScanState :=
  scanLoopGo n (RefPattern.new x) n.pair_count
    (collatzScanSafeEnd n.pair_count (RefPattern.new x).s)
    (collatzScanMaxI n.pair_count (RefPattern.new x).s + 1) 0
    { new_m4 := List.replicate
        ((collatzScanMaxI n.pair_count (RefPattern.new x).s + 1 + 63) / 64) 0
      new_m6 := List.replicate
        ((collatzScanMaxI n.pair_count (RefPattern.new x).s + 1 + 63) / 64) 0
      gpk := GpkInfo.new n.pair_count, c := 1, actual_pairs := 0 }

/-- `collatz_step`: one step of `T(n) = (xn+1)/2^d` by the sequential
two-stage ripple scan (`x` valid, `n` odd). -/
def collatz_step (n : PairNumber) (x : Nat) : StepResult :=
  { next := (postprocess (scanStreams n x).new_m4 (scanStreams n x).new_m6
      (scanStreams n x).actual_pairs).next
    d := (postprocess (scanStreams n x).new_m4 (scanStreams n x).new_m6
      (scanStreams n x).actual_pairs).d
    exchanged := (postprocess (scanStreams n x).new_m4 (scanStreams n x).new_m6
      (scanStreams n x).actual_pairs).exchanged
    gpk := (scanStreams n x).gpk.finalize
    raw_m4 := (scanStreams n x).new_m4
    raw_m6 := (scanStreams n x).new_m6
    raw_pair_count := (scanStreams n x).actual_pairs }

/-! ## `packed.rs` — word-parallel scan -/

/-- Result of a packed step. -/
structure PackedStepResult where
  new_m4 : List Nat
  new_m6 : List Nat
  new_pair_count : Nat
  d : Nat
  exchanged : Bool
  g_count : Nat
  p_count : Nat
  k_count : Nat
  max_carry_chain : Nat
  g_masks : List Nat
  p_masks : List Nat
deriving DecidableEq, Repr

/-- One Kogge–Stone round at stride `shift`: align position `i - shift`
onto position `i` by a left shift, feeding the identity `(0, 1)` into the
vacated low-order lanes (`g` gets 0 from the shift itself, `p` gets the
mask `(1 << shift) - 1` ORed in), then combine.  Left shifts of `u64`
drop the high bits, hence the `% 2^64`. -/
def ksRound (gp : Nat × Nat) (shift : Nat) : Nat × Nat :=
  (gp.1 ||| (gp.2 &&& ((gp.1 <<< shift) % 2 ^ 64)),
   gp.2 &&& (((gp.2 <<< shift) % 2 ^ 64) ||| ((1 <<< shift) - 1)))

/-- `kogge_stone_prefix`: six rounds with strides 1, 2, 4, 8, 16, 32. -/
def kogge_stone_pfx (g p : Nat) : Nat × Nat :=
  [1, 2, 4, 8, 16, 32].foldl ksRound (g, p)

/-- `extract_window`: the 64 stream bits starting at signed pair index
`start`, zero-padded below index 0 and at or above `pair_count`. -/
def extract_window (words : List Nat) (pair_count : Nat) (start : Int) : Nat :=
  if (pair_count : Int) ≤ start then 0
  else if start < 0 then
    if 64 ≤ (-start).toNat then 0
    else
      if (pair_count : Int) - start < 64 then
        if ((pair_count : Int) - start).toNat < 64 then
          (((words.getD 0 0) <<< (-start).toNat) % 2 ^ 64) &&&
            ((1 <<< ((pair_count : Int) - start).toNat) - 1)
        else ((words.getD 0 0) <<< (-start).toNat) % 2 ^ 64
      else ((words.getD 0 0) <<< (-start).toNat) % 2 ^ 64
  else
    if start.toNat % 64 = 0 then
      if start.toNat / 64 < words.length then
        if pair_count - start.toNat < 64 then
          (words.getD (start.toNat / 64) 0) &&&
            ((1 <<< (pair_count - start.toNat)) - 1)
        else words.getD (start.toNat / 64) 0
      else 0
    else
      if pair_count - start.toNat < 64 then
        (((words.getD (start.toNat / 64) 0) >>> (start.toNat % 64)) |||
          (((words.getD (start.toNat / 64 + 1) 0) <<< (64 - start.toNat % 64)) % 2 ^ 64)) &&&
          ((1 <<< (pair_count - start.toNat)) - 1)
      else
        ((words.getD (start.toNat / 64) 0) >>> (start.toNat % 64)) |||
          (((words.getD (start.toNat / 64 + 1) 0) <<< (64 - start.toNat % 64)) % 2 ^ 64)

/-- `majority(a, b, c) = (a & b) | (b & c) | (a & c)`. -/
def majority (a b c : Nat) : Nat := (a &&& b) ||| (b &&& c) ||| (a &&& c)

/-- `packed_scan_word`: resolve the 64 pair carries of one word with the
Kogge–Stone scan and produce the output words, the outgoing carry, and
the per-pair G/P classification masks. -/
def packed_scan_word (p_r q_r p_l q_l carry_in : Nat) :
    Nat × Nat × Nat × Nat × Nat :=
  let g_mid := p_r &&& q_r
  let p_mid := p_r ^^^ q_r
  let g_out := p_l &&& q_l
  let p_out := p_l ^^^ q_l
  let g_pair := g_out ||| (p_out &&& g_mid)
  let p_pair := p_out &&& p_mid
  let pfx := kogge_stone_pfx g_pair p_pair
  let g_pfx := pfx.1
  let p_pfx := pfx.2
  let carry_in_broadcast := if carry_in ≠ 0 then 2 ^ 64 - 1 else 0
  let carry_after := g_pfx ||| (p_pfx &&& carry_in_broadcast)
  let c_in_per_pair := ((carry_after <<< 1) % 2 ^ 64) ||| carry_in
  let new_m6 := p_mid ^^^ c_in_per_pair
  let c_mid := majority p_r q_r c_in_per_pair
  let new_m4 := p_out ^^^ c_mid
  let carry_out := (carry_after >>> 63) &&& 1
  (new_m4, new_m6, carry_out, g_pair, p_pair)

/-- Loop state of the packed step: output words, G/P mask words, carry. -/
structure PackedState where
  new_m4 : List Nat
  new_m6 : List Nat
  g_masks : List Nat
  p_masks : List Nat
  carry : Nat
deriving Repr

/-- The per-word loop of `packed_step_generic_opt`: word `w` reads its
four input windows, scans, stores the outputs, and threads the carry. -/
def packedLoopGo (pn : PairNumber) (t : Nat) (s_is_even : Bool)
    (collect_gpk : Bool) (gpk_word_count : Nat) :
    Nat → Nat → PackedState → PackedState
  | 0, _, st => st
  | f + 1, w, st =>
    let k := pn.pair_count
    let m4 := pn.m4_words
    let m6 := pn.m6_words
    let base : Int := (64 * w : Nat)
    let a_cur := extract_window m4 k base
    let b_cur := extract_window m6 k base
    let inp :=
      if s_is_even then
        (extract_window m6 k (base - t), b_cur, extract_window m4 k (base - t), a_cur)
      else
        (extract_window m4 k (base - t - 1), b_cur, extract_window m6 k (base - t), a_cur)
    let r := packed_scan_word inp.1 inp.2.1 inp.2.2.1 inp.2.2.2 st.carry
    let st' : PackedState :=
      { new_m4 := st.new_m4.set w r.1
        new_m6 := st.new_m6.set w r.2.1
        g_masks :=
          if collect_gpk ∧ w < gpk_word_count then st.g_masks.set w r.2.2.2.1
          else st.g_masks
        p_masks :=
          if collect_gpk ∧ w < gpk_word_count then st.p_masks.set w r.2.2.2.2
          else st.p_masks
        carry := r.2.2.1 }
    packedLoopGo pn t s_is_even collect_gpk gpk_word_count f (w + 1) st'

/-- `compute_gpk_counts`: popcount totals over the mask words;
`k_count = pair_count - g_count - p_count`. -/
def compute_gpk_counts (g_masks p_masks : List Nat) (pair_count : Nat) :
    Nat × Nat × Nat :=
  ((g_masks.map u64_count_ones).sum, (p_masks.map u64_count_ones).sum,
   pair_count - (g_masks.map u64_count_ones).sum - (p_masks.map u64_count_ones).sum)

/-- The sequential carry-chain sweep of `compute_gpk_stats` (identical in
shape to the sweep of `GpkInfo::finalize`). -/
def statsSweepGo (g_masks p_masks : List Nat) :
    Nat → Nat → Nat → Nat → Bool → Nat
  | 0, _, chain, max_chain, _ => if chain > max_chain then chain else max_chain
  | f + 1, i, chain, max_chain, carry =>
    if streamBit g_masks i then
      statsSweepGo g_masks p_masks f (i + 1) (chain + 1) max_chain true
    else if streamBit p_masks i then
      statsSweepGo g_masks p_masks f (i + 1) (if carry then chain + 1 else chain)
        max_chain carry
    else
      statsSweepGo g_masks p_masks f (i + 1) 0
        (if chain > max_chain then chain else max_chain) false

/-- `compute_gpk_stats`: counts plus the max carry chain. -/
def compute_gpk_stats (g_masks p_masks : List Nat) (pair_count : Nat) :
    Nat × Nat × Nat × Nat :=
  ((compute_gpk_counts g_masks p_masks pair_count).1,
   (compute_gpk_counts g_masks p_masks pair_count).2.1,
   (compute_gpk_counts g_masks p_masks pair_count).2.2,
   statsSweepGo g_masks p_masks pair_count 0 0 0 true)

/-- Common tail of the packed step functions: mask the outputs, compute
the GPK statistics, postprocess. -/
def packedFinish (st : PackedState) (out_pairs k : Nat) (collect_gpk : Bool) :
    PackedStepResult :=
  { new_m4 := (postprocess (mask_top st.new_m4 out_pairs)
      (mask_top st.new_m6 out_pairs) out_pairs).next.m4_words
    new_m6 := (postprocess (mask_top st.new_m4 out_pairs)
      (mask_top st.new_m6 out_pairs) out_pairs).next.m6_words
    new_pair_count := (postprocess (mask_top st.new_m4 out_pairs)
      (mask_top st.new_m6 out_pairs) out_pairs).next.pair_count
    d := (postprocess (mask_top st.new_m4 out_pairs)
      (mask_top st.new_m6 out_pairs) out_pairs).d
    exchanged := (postprocess (mask_top st.new_m4 out_pairs)
      (mask_top st.new_m6 out_pairs) out_pairs).exchanged
    g_count := if collect_gpk then
      (compute_gpk_stats (mask_top st.g_masks k) (mask_top st.p_masks k) k).1 else 0
    p_count := if collect_gpk then
      (compute_gpk_stats (mask_top st.g_masks k) (mask_top st.p_masks k) k).2.1 else 0
    k_count := if collect_gpk then
      (compute_gpk_stats (mask_top st.g_masks k) (mask_top st.p_masks k) k).2.2.1 else 0
    max_carry_chain := if collect_gpk then
      (compute_gpk_stats (mask_top st.g_masks k) (mask_top st.p_masks k) k).2.2.2 else 0
    g_masks := if collect_gpk then mask_top st.g_masks k else st.g_masks
    p_masks := if collect_gpk then mask_top st.p_masks k else st.p_masks }

/-- Number of G/P mask words collected (`(k+63)/64` when collecting). -/
def packedGwc (pn : PairNumber) (collect_gpk : Bool) : Nat :=
  if collect_gpk then (pn.pair_count + 63) / 64 else 0

/-- The word loop of `packed_step_generic_opt` run from the zeroed state
(initial carry 1). -/
def packedRunGeneric (pn : PairNumber) (x : Nat) (collect_gpk : Bool) :
    PackedState :=
  packedLoopGo pn (ctzNat (x - 1) / 2) (ctzNat (x - 1) % 2 = 0) collect_gpk
    (packedGwc pn collect_gpk)
    ((pn.pair_count + ((ctzNat (x - 1) + 1) / 2 + 1) + 63) / 64) 0
    { new_m4 := List.replicate
        ((pn.pair_count + ((ctzNat (x - 1) + 1) / 2 + 1) + 63) / 64) 0
      new_m6 := List.replicate
        ((pn.pair_count + ((ctzNat (x - 1) + 1) / 2 + 1) + 63) / 64) 0
      g_masks := List.replicate (packedGwc pn collect_gpk) 0
      p_masks := List.replicate (packedGwc pn collect_gpk) 0
      carry := 1 }

/-- `packed_step_generic_opt` (precondition `ValidX x`):
`extra_pairs = (s+1)/2 + 1`, `out_pairs = k + extra_pairs`. -/
def packed_step_generic_opt (pn : PairNumber) (x : Nat) (collect_gpk : Bool) :
    PackedStepResult :=
  packedFinish (packedRunGeneric pn x collect_gpk)
    (pn.pair_count + ((ctzNat (x - 1) + 1) / 2 + 1)) pn.pair_count collect_gpk

/-- `packed_step_generic`. -/
def packed_step_generic (pn : PairNumber) (x : Nat) : PackedStepResult :=
  packed_step_generic_opt pn x true

/-- The per-word loop of `packed_step_3n1_opt`
(`ref_R(i) = (a[i-1], b[i])`, `ref_L(i) = (b[i], a[i])`). -/
def packedLoop3n1Go (pn : PairNumber) (collect_gpk : Bool) (gpk_word_count : Nat) :
    Nat → Nat → PackedState → PackedState
  | 0, _, st => st
  | f + 1, w, st =>
    let k := pn.pair_count
    let m4 := pn.m4_words
    let m6 := pn.m6_words
    let base : Int := (64 * w : Nat)
    let a_cur := extract_window m4 k base
    let b_cur := extract_window m6 k base
    let a_prev := extract_window m4 k (base - 1)
    let r := packed_scan_word a_prev b_cur b_cur a_cur st.carry
    let st' : PackedState :=
      { new_m4 := st.new_m4.set w r.1
        new_m6 := st.new_m6.set w r.2.1
        g_masks :=
          if collect_gpk ∧ w < gpk_word_count then st.g_masks.set w r.2.2.2.1
          else st.g_masks
        p_masks :=
          if collect_gpk ∧ w < gpk_word_count then st.p_masks.set w r.2.2.2.2
          else st.p_masks
        carry := r.2.2.1 }
    packedLoop3n1Go pn collect_gpk gpk_word_count f (w + 1) st'

/-- The word loop of `packed_step_3n1_opt` run from the zeroed state. -/
def packedRun3n1 (pn : PairNumber) (collect_gpk : Bool) : PackedState :=
  packedLoop3n1Go pn collect_gpk (packedGwc pn collect_gpk)
    ((pn.pair_count + 2 + 63) / 64) 0
    { new_m4 := List.replicate ((pn.pair_count + 2 + 63) / 64) 0
      new_m6 := List.replicate ((pn.pair_count + 2 + 63) / 64) 0
      g_masks := List.replicate (packedGwc pn collect_gpk) 0
      p_masks := List.replicate (packedGwc pn collect_gpk) 0
      carry := 1 }

/-- `packed_step_3n1_opt` (`out_pairs = k + 2`). -/
def packed_step_3n1_opt (pn : PairNumber) (collect_gpk : Bool) :
    PackedStepResult :=
  packedFinish (packedRun3n1 pn collect_gpk) (pn.pair_count + 2) pn.pair_count
    collect_gpk

/-- The per-word loop of `packed_step_5n1_opt`
(`ref_R(i) = (b[i-1], b[i])`, `ref_L(i) = (a[i-1], a[i])`). -/
def packedLoop5n1Go (pn : PairNumber) (collect_gpk : Bool) (gpk_word_count : Nat) :
    Nat → Nat → PackedState → PackedState
  | 0, _, st => st
  | f + 1, w, st =>
    let k := pn.pair_count
    let m4 := pn.m4_words
    let m6 := pn.m6_words
    let base : Int := (64 * w : Nat)
    let a_cur := extract_window m4 k base
    let b_cur := extract_window m6 k base
    let b_prev := extract_window m6 k (base - 1)
    let a_prev := extract_window m4 k (base - 1)
    let r := packed_scan_word b_prev b_cur a_prev a_cur st.carry
    let st' : PackedState :=
      { new_m4 := st.new_m4.set w r.1
        new_m6 := st.new_m6.set w r.2.1
        g_masks :=
          if collect_gpk ∧ w < gpk_word_count then st.g_masks.set w r.2.2.2.1
          else st.g_masks
        p_masks :=
          if collect_gpk ∧ w < gpk_word_count then st.p_masks.set w r.2.2.2.2
          else st.p_masks
        carry := r.2.2.1 }
    packedLoop5n1Go pn collect_gpk gpk_word_count f (w + 1) st'

/-- The word loop of `packed_step_5n1_opt` run from the zeroed state. -/
def packedRun5n1 (pn : PairNumber) (collect_gpk : Bool) : PackedState :=
  packedLoop5n1Go pn collect_gpk (packedGwc pn collect_gpk)
    ((pn.pair_count + 2 + 63) / 64) 0
    { new_m4 := List.replicate ((pn.pair_count + 2 + 63) / 64) 0
      new_m6 := List.replicate ((pn.pair_count + 2 + 63) / 64) 0
      g_masks := List.replicate (packedGwc pn collect_gpk) 0
      p_masks := List.replicate (packedGwc pn collect_gpk) 0
      carry := 1 }

/-- `packed_step_5n1_opt` (`out_pairs = k + 2`). -/
def packed_step_5n1_opt (pn : PairNumber) (collect_gpk : Bool) :
    PackedStepResult :=
  packedFinish (packedRun5n1 pn collect_gpk) (pn.pair_count + 2) pn.pair_count
    collect_gpk

/-! ## `trajectory.rs` — stopping times -/

/-- `MAX_PAIR_COUNT`: pair-count cap treated as divergence. -/
def MAX_PAIR_COUNT : Nat := 10000

/-- The `x`-dispatch used by the stopping-time loops: specialized packed
steps for `x = 3` and `x = 5`, the generic packed step otherwise. -/
def packedDispatch (pn : PairNumber) (x : Nat) (collect_gpk : Bool) :
    PackedStepResult :=
  if x = 3 then packed_step_3n1_opt pn collect_gpk
  else if x = 5 then packed_step_5n1_opt pn collect_gpk
  else packed_step_generic_opt pn x collect_gpk

/-- The stats update performed per step by the stopping-time loops when a
`GpkStats` record is supplied. -/
def GpkStats.addStep (stats : GpkStats) (r : PackedStepResult)
    (pair_count : Nat) : GpkStats :=
  let idx := min r.max_carry_chain 127
  { stats with
    total_g := stats.total_g + r.g_count
    total_p := stats.total_p + r.p_count
    total_k := stats.total_k + r.k_count
    total_pairs := stats.total_pairs + pair_count
    total_steps := stats.total_steps + 1
    carry_chain_hist :=
      stats.carry_chain_hist.set idx (stats.carry_chain_hist.getD idx 0 + 1) }

/-- Optional-stats update (`if let Some(ref mut stats) = gpk_stats`). -/
def statsUpd (stats : Option GpkStats) (r : PackedStepResult)
    (pair_count : Nat) : Option GpkStats :=
  match stats with
  | some st => some (st.addStep r pair_count)
  | none => none

/-- The `while steps < max_steps` loop of `stopping_time_with_gpk`:
step with the packed scan; return `steps+1` when the next value is 1 or
(with the stopping-time predicate) below the start; bail out with no
value when the pair count exceeds `MAX_PAIR_COUNT`.  Fuel is
`max_steps - steps`. -/
def stoppingLoopGo (x : Nat) (collect_gpk : Bool) (initial_pn : PairNumber)
    (use_stopping_time : Bool) :
    Nat → PairNumber → Nat → Option GpkStats → Option Nat × Option GpkStats
  | 0, _, _, stats => (none, stats)
  | f + 1, pn, steps, stats =>
    let result := packedDispatch pn x collect_gpk
    let stats' := statsUpd stats result pn.pair_count
    let next := PairNumber.from_packed result.new_m4 result.new_m6
      result.new_pair_count
    let steps' := steps + 1
    if next.is_one then (some steps', stats')
    else if use_stopping_time && next.blt initial_pn then (some steps', stats')
    else if MAX_PAIR_COUNT < next.pair_count then (none, stats')
    else stoppingLoopGo x collect_gpk initial_pn use_stopping_time f next
      steps' stats'

/-- `stopping_time_with_gpk` (the mutable `&mut GpkStats` argument is
modelled by threading the record through and returning it). -/
def stopping_time_with_gpk (n x max_steps : Nat) (gpk_stats : Option GpkStats)
    (use_stopping_time : Bool) : Option Nat × Option GpkStats :=
  if n = 1 then (some 0, gpk_stats)
  else
    let collect_gpk := gpk_stats.isSome
    let initial_pn := PairNumber.from_biguint n
    stoppingLoopGo x collect_gpk initial_pn use_stopping_time max_steps
      initial_pn 0 gpk_stats

/-- `stopping_time`. -/
def stopping_time (n x max_steps : Nat) : Option Nat :=
  (stopping_time_with_gpk n x max_steps none true).1

/-! ### The `u64` fast path (`stopping_time_u64_fast` and `U256`) -/

/-- `U256`: four little-endian 64-bit limbs. -/
structure U256 where
  a0 : Nat
  a1 : Nat
  a2 : Nat
  a3 : Nat
deriving DecidableEq, Repr

/-- `U256::from_u128`. -/
def U256.from_u128 (v : Nat) : U256 :=
  ⟨v % 2 ^ 64, (v >>> 64) % 2 ^ 64, 0, 0⟩

/-- `U256::mul_small_checked`: multiply by a small constant with a 128-bit
carry chain; `none` on overflow of the top limb. -/
def U256.mul_small_checked (u : U256) (x : Nat) : Option U256 :=
  let p0 := u.a0 * x
  let r0 := p0 % 2 ^ 64
  let c0 := p0 / 2 ^ 64
  let p1 := u.a1 * x + c0
  let r1 := p1 % 2 ^ 64
  let c1 := p1 / 2 ^ 64
  let p2 := u.a2 * x + c1
  let r2 := p2 % 2 ^ 64
  let c2 := p2 / 2 ^ 64
  let p3 := u.a3 * x + c2
  let r3 := p3 % 2 ^ 64
  let c3 := p3 / 2 ^ 64
  if c3 ≠ 0 then none else some ⟨r0, r1, r2, r3⟩

/-- `U256::add_one` (limb-wise add with carry; a full 256-bit overflow
wraps, as the `overflowing_add` chain does). -/
def U256.add_one (u : U256) : U256 :=
  if u.a0 + 1 < 2 ^ 64 then ⟨u.a0 + 1, u.a1, u.a2, u.a3⟩
  else if u.a1 + 1 < 2 ^ 64 then ⟨0, u.a1 + 1, u.a2, u.a3⟩
  else if u.a2 + 1 < 2 ^ 64 then ⟨0, 0, u.a2 + 1, u.a3⟩
  else if u.a3 + 1 < 2 ^ 64 then ⟨0, 0, 0, u.a3 + 1⟩
  else ⟨0, 0, 0, 0⟩

/-- `U256::trailing_zeros`. -/
def U256.trailing_zeros (u : U256) : Nat :=
  if u.a0 ≠ 0 then u64_trailing_zeros u.a0
  else if u.a1 ≠ 0 then 64 + u64_trailing_zeros u.a1
  else if u.a2 ≠ 0 then 128 + u64_trailing_zeros u.a2
  else if u.a3 ≠ 0 then 192 + u64_trailing_zeros u.a3
  else 256

/-- The numeric value of a `U256`. -/
def U256.val (u : U256) : Nat :=
  u.a0 + u.a1 * 2 ^ 64 + u.a2 * 2 ^ 128 + u.a3 * 2 ^ 192

/-- Limb `i` of a `U256` (0 for `i ≥ 4`). -/
def U256.limb (u : U256) : Nat → Nat
  | 0 => u.a0
  | 1 => u.a1
  | 2 => u.a2
  | 3 => u.a3
  | _ => 0

/-- `U256::shr` (logical right shift by `d` bits; per-limb loop of the
source, with the `u64` left shift wrapping). -/
def U256.shr (u : U256) (d : Nat) : U256 :=
  if d = 0 then u
  else if 256 ≤ d then ⟨0, 0, 0, 0⟩
  else
    let word_shift := d / 64
    let bit_shift := d % 64
    let get : Nat → Nat := fun i =>
      if i + word_shift < 4 then
        (u.limb (i + word_shift)) >>> bit_shift |||
          (if 0 < bit_shift ∧ i + word_shift + 1 < 4 then
            ((u.limb (i + word_shift + 1)) <<< (64 - bit_shift)) % 2 ^ 64
          else 0)
      else 0
    ⟨get 0, get 1, get 2, get 3⟩

/-- `U256::is_one`. -/
def U256.is_one (u : U256) : Bool :=
  (u.a0 == 1) && (u.a1 == 0) && (u.a2 == 0) && (u.a3 == 0)

/-- `U256::lt_u128`. -/
def U256.lt_u128 (u : U256) (v : Nat) : Bool :=
  if u.a3 ≠ 0 ∨ u.a2 ≠ 0 then false
  else decide (u.a0 + u.a1 * 2 ^ 64 < v)

/-- `U256::to_biguint`. -/
def U256.to_biguint (u : U256) : Nat := u.val

/-- Phase 2 of `stopping_time_u64_fast` (identical loop shape to
`stopping_time_with_gpk`, started from the escalated current value). -/
def fastPhase2 (x : Nat) (collect_gpk : Bool) (initial_pn : PairNumber)
    (use_stopping_time : Bool) (fuel : Nat) (pn : PairNumber) (steps : Nat)
    (stats : Option GpkStats) : Option Nat × Option GpkStats :=
  stoppingLoopGo x collect_gpk initial_pn use_stopping_time fuel pn steps stats

/-- Per-step scalar GPK accumulation from the bits of the current fixed
width value (`accumulate_gpk_u128` / `accumulate_gpk_u256`, which differ
only in how a bit is fetched): a direct per-pair walk with the two-stage
classification and the carry-chain sweep fused into one pass. -/
def accumulateGpkScalar (nv x : Nat) (stats : GpkStats) : GpkStats :=
  if nv = 0 then stats
  else
    let bit_len := bitLen nv
    let pair_count := (bit_len + 1) / 2
    let s := ctzNat (x - 1)
    let t := s / 2
    let s_is_even := s % 2 = 0
    let getBitA : Int → Nat := fun i =>
      if i < 0 ∨ (pair_count : Int) ≤ i then 0
      else (nv.testBit (2 * i.toNat + 1)).toNat
    let getBitB : Int → Nat := fun i =>
      if i < 0 ∨ (pair_count : Int) ≤ i then 0
      else (nv.testBit (2 * i.toNat)).toNat
    let rec go (f i g_count p_count k_count chain max_chain : Nat)
        (carry : Bool) : Nat × Nat × Nat × Nat :=
      match f with
      | 0 =>
        (g_count, p_count, k_count,
         if chain > max_chain then chain else max_chain)
      | f + 1 =>
        let ii : Int := (i : Nat)
        let ai := getBitA ii
        let bi := getBitB ii
        let inp :=
          if s_is_even then (getBitB (ii - t), bi, getBitA (ii - t), ai)
          else (getBitA (ii - t - 1), bi, getBitB (ii - t), ai)
        match pair_gpk inp.1 inp.2.1 inp.2.2.1 inp.2.2.2 with
        | .Generate => go f (i + 1) (g_count + 1) p_count k_count (chain + 1)
            max_chain true
        | .Propagate => go f (i + 1) g_count (p_count + 1) k_count
            (if carry then chain + 1 else chain) max_chain carry
        | .Kill => go f (i + 1) g_count p_count (k_count + 1) 0
            (if chain > max_chain then chain else max_chain) false
    let r := go pair_count 0 0 0 0 0 0 true
    let idx := min r.2.2.2 127
    { stats with
      total_g := stats.total_g + r.1
      total_p := stats.total_p + r.2.1
      total_k := stats.total_k + r.2.2.1
      total_pairs := stats.total_pairs + pair_count
      total_steps := stats.total_steps + 1
      carry_chain_hist :=
        stats.carry_chain_hist.set idx (stats.carry_chain_hist.getD idx 0 + 1) }

/-- Optional scalar accumulation. -/
def statsUpdScalar (stats : Option GpkStats) (nv x : Nat) : Option GpkStats :=
  match stats with
  | some st => some (accumulateGpkScalar nv x st)
  | none => none

/-- Phase 1.5 of `stopping_time_u64_fast`: the 256-bit loop, escalating to
Phase 2 (packed scan) on `U256` overflow.  Fuel is `max_steps - steps`. -/
def fastPhase15 (n128 x max_steps : Nat) (collect_gpk : Bool)
    (use_stopping_time : Bool) :
    Nat → U256 → Nat → Option GpkStats → Option Nat × Option GpkStats
  | 0, _, _, stats => (none, stats)
  | f + 1, cur, steps, stats =>
    let stats' := statsUpdScalar stats cur.val x
    match (cur.mul_small_checked x).map U256.add_one with
    | none =>
      let big_current := cur.to_biguint
      let initial_pn := PairNumber.from_biguint n128
      let pn := PairNumber.from_biguint big_current
      fastPhase2 x collect_gpk initial_pn use_stopping_time (f + 1) pn steps
        stats'
    | some xn1 =>
      let d := xn1.trailing_zeros
      let cur' := xn1.shr d
      let steps' := steps + 1
      if cur'.is_one then (some steps', stats')
      else if use_stopping_time && cur'.lt_u128 n128 then (some steps', stats')
      else fastPhase15 n128 x max_steps collect_gpk use_stopping_time f cur'
        steps' stats'

/-- Phase 1 of `stopping_time_u64_fast`: the 128-bit loop.  Fuel is
`max_steps - steps`; when the running value would overflow `(xn+1)` in
`u128` the loop stops and the caller escalates. -/
def fastPhase1 (n128 x overflow_limit : Nat) (use_stopping_time : Bool) :
    Nat → Nat → Nat → Option GpkStats →
    (Option Nat × Option GpkStats) ⊕ (Nat × Nat × Option GpkStats)
  | 0, current, steps, stats => Sum.inr (current, steps, stats)
  | f + 1, current, steps, stats =>
    if current ≤ overflow_limit then
      let stats' := statsUpdScalar stats current x
      let xn1 := current * x + 1
      let d := ctzNat xn1
      let current' := xn1 >>> d
      let steps' := steps + 1
      if current' = 1 then Sum.inl (some steps', stats')
      else if use_stopping_time && decide (current' < n128) then
        Sum.inl (some steps', stats')
      else fastPhase1 n128 x overflow_limit use_stopping_time f current'
        steps' stats'
    else Sum.inr (current, steps, stats)

/-- `stopping_time_u64_fast`: Phase 1 in 128-bit arithmetic, Phase 1.5 in
256-bit arithmetic, Phase 2 with the packed scan. -/
def stopping_time_u64_fast (n x max_steps : Nat) (gpk_stats : Option GpkStats)
    (use_phase1 use_stopping_time : Bool) : Option Nat × Option GpkStats :=
  if n = 1 then (some 0, gpk_stats)
  else
    let overflow_limit := (2 ^ 128 - 1 - 1) / x
    if use_phase1 then
      match fastPhase1 n x overflow_limit use_stopping_time max_steps n 0
        gpk_stats with
      | Sum.inl r => r
      | Sum.inr (current, steps, stats) =>
        if steps < max_steps then
          fastPhase15 n x max_steps stats.isSome use_stopping_time
            (max_steps - steps) (U256.from_u128 current) steps stats
        else (none, stats)
    else
      let collect_gpk := gpk_stats.isSome
      if 0 < max_steps then
        let initial_pn := PairNumber.from_biguint n
        let pn := PairNumber.from_biguint n
        stoppingLoopGo x collect_gpk initial_pn use_stopping_time max_steps pn 0
          gpk_stats
      else (none, gpk_stats)

/-! ## Specification-side definitions

These define the mathematical objects the claims compare the code
against: the two-stage ripple adder on the bits of `A` and `B = A·2^s`
(so that the scan computes `A + B + 1 = xA + 1`), the per-pair G/P/K
classification, and the fold semantics of the Kogge–Stone scan. -/

/-- Carry into pair `i` of the two-stage ripple addition `A + B + 1`
(the `+1` enters as the initial carry). -/
def adderC (A B : Nat) : Nat → Nat
  | 0 => 1
  | i + 1 =>
    ((A.testBit (2 * i + 1)).toNat + (B.testBit (2 * i + 1)).toNat +
      ((A.testBit (2 * i)).toNat + (B.testBit (2 * i)).toNat + adderC A B i) / 2) / 2

/-- Low (m6) output bit of pair `i` of the ripple addition. -/
def adderOutR (A B i : Nat) : Nat :=
  ((A.testBit (2 * i)).toNat + (B.testBit (2 * i)).toNat + adderC A B i) % 2

/-- High (m4) output bit of pair `i` of the ripple addition. -/
def adderOutL (A B i : Nat) : Nat :=
  ((A.testBit (2 * i + 1)).toNat + (B.testBit (2 * i + 1)).toNat +
    ((A.testBit (2 * i)).toNat + (B.testBit (2 * i)).toNat + adderC A B i) / 2) % 2

/-- Value of the output pairs `0..m` of the ripple addition. -/
def adderSum (A B : Nat) : Nat → Nat
  | 0 => 0
  | m + 1 => adderSum A B m + (adderOutR A B m + 2 * adderOutL A B m) * 4 ^ m

/-- G/P/K classification of pair `i` when adding `A` and `B = A·2^s`:
the same `pair_gpk` composition applied to the reference bits, which are
exactly the bits of `B` and `A` at positions `2i` and `2i+1`. -/
def specGpk (A B : Nat) (i : Nat) : Gpk :=
  pair_gpk (B.testBit (2 * i)).toNat (A.testBit (2 * i)).toNat
    (B.testBit (2 * i + 1)).toNat (A.testBit (2 * i + 1)).toNat

/-- Number of pairs among `0..m` classified Generate. -/
def countG (A B : Nat) : Nat → Nat
  | 0 => 0
  | m + 1 => countG A B m + (if specGpk A B m = .Generate then 1 else 0)

/-- Number of pairs among `0..m` classified Propagate. -/
def countP (A B : Nat) : Nat → Nat
  | 0 => 0
  | m + 1 => countP A B m + (if specGpk A B m = .Propagate then 1 else 0)

/-- Number of pairs among `0..m` classified Kill. -/
def countK (A B : Nat) : Nat → Nat
  | 0 => 0
  | m + 1 => countK A B m + (if specGpk A B m = .Kill then 1 else 0)

/-- The carry operator of the claim: `(g_hi, p_hi) ∘ (g_lo, p_lo) =
(g_hi ∨ p_hi·g_lo, p_hi·p_lo)`. -/
def combineGP (hi lo : Bool × Bool) : Bool × Bool :=
  (hi.1 || (hi.2 && lo.1), hi.2 && lo.2)

/-- Fold of the per-position `(G, P)` pairs of the mask words `g`, `p`
over positions `0..=i`, combined with `combineGP` (higher positions on
the left). -/
def ksFold (g p : Nat) : Nat → Bool × Bool
  | 0 => (g.testBit 0, p.testBit 0)
  | i + 1 => combineGP (g.testBit (i + 1), p.testBit (i + 1)) (ksFold g p i)

/-- Windowed fold: positions `i, i-1, …` over a window of width `w`
(clamped at position 0), with the identity `(false, true)` for `w = 0`. -/
def wfoldGP (g p : Nat) : Nat → Nat → Bool × Bool
  | _, 0 => (false, true)
  | i, w + 1 =>
    combineGP (g.testBit i, p.testBit i)
      (if i = 0 then (false, true) else wfoldGP g p (i - 1) w)

/-- The step function iterated by `stopping_time` (the packed dispatch
without GPK collection, re-packed into a `PairNumber`). -/
def stepPN (x : Nat) (pn : PairNumber) : PairNumber :=
  let r := packedDispatch pn x false
  PairNumber.from_packed r.new_m4 r.new_m6 r.new_pair_count

/-- The `j`-th iterate of the stopping-time loop's step function,
starting from `from_biguint n`. -/
def stoppingIter (n x j : Nat) : PairNumber :=
  (stepPN x)^[j] (PairNumber.from_biguint n)

/-- Fastener-view bit `b` of a pair stream: even positions read `m6`,
odd positions `m4` (bit `2i` = `m6[i]`, bit `2i+1` = `m4[i]`). -/
def fastBit (m4 m6 : List Nat) (b : Nat) : Bool :=
  if b % 2 = 0 then streamBit m6 (b / 2) else streamBit m4 (b / 2)

/-- Generate bit of pair `m` of the addition `A + B`: the two-stage
(m6 then m4) G/P/K composition generates a carry. -/
def gBit (A B m : Nat) : Bool :=
  (B.testBit (2 * m + 1) && A.testBit (2 * m + 1)) ||
    (((B.testBit (2 * m + 1)).xor (A.testBit (2 * m + 1))) &&
      (B.testBit (2 * m) && A.testBit (2 * m)))

/-- Propagate bit of pair `m` of the addition `A + B`. -/
def pBit (A B m : Nat) : Bool :=
  ((B.testBit (2 * m + 1)).xor (A.testBit (2 * m + 1))) &&
    ((B.testBit (2 * m)).xor (A.testBit (2 * m)))

/-- Number of indices `j < m` with `f j = true`. -/
def countTrue (f : Nat → Bool) : Nat → Nat
  | 0 => 0
  | m + 1 => countTrue f m + (f m).toNat

/-! ## Basic bit arithmetic lemmas -/

theorem testBit_false_of_lt {a n i : Nat} (ha : a < 2 ^ n) (hi : n ≤ i) :
    a.testBit i = false :=
  Nat.testBit_lt_two_pow (lt_of_lt_of_le ha (Nat.pow_le_pow_right (by norm_num) hi))

theorem lt_two_pow_of_testBit_eq_false {a n : Nat}
    (h : ∀ i, n ≤ i → a.testBit i = false) : a < 2 ^ n := by
  have : a % 2 ^ n = a := by
    apply Nat.eq_of_testBit_eq
    intro i
    rw [Nat.testBit_mod_two_pow]
    rcases Nat.lt_or_ge i n with hi | hi
    · simp [hi]
    · simp [Nat.not_lt.mpr hi, h i hi]
  calc a = a % 2 ^ n := this.symm
    _ < 2 ^ n := Nat.mod_lt _ (Nat.pos_pow_of_pos _ (by norm_num))

theorem lor_lt_two_pow {a b n : Nat} (ha : a < 2 ^ n) (hb : b < 2 ^ n) :
    a ||| b < 2 ^ n := by
  apply lt_two_pow_of_testBit_eq_false
  intro i hi
  rw [Nat.testBit_lor, testBit_false_of_lt ha hi, testBit_false_of_lt hb hi]
  rfl

theorem land_lt_two_pow {a n : Nat} (b : Nat) (ha : a < 2 ^ n) :
    a &&& b < 2 ^ n := by
  apply lt_two_pow_of_testBit_eq_false
  intro i hi
  rw [Nat.testBit_land, testBit_false_of_lt ha hi]
  rfl

theorem xor_lt_two_pow {a b n : Nat} (ha : a < 2 ^ n) (hb : b < 2 ^ n) :
    a ^^^ b < 2 ^ n := by
  apply lt_two_pow_of_testBit_eq_false
  intro i hi
  rw [Nat.testBit_xor, testBit_false_of_lt ha hi, testBit_false_of_lt hb hi]
  rfl

theorem testBit_mul_pow_add (a : Nat) {b i : Nat} (hb : b < 2 ^ i) (j : Nat) :
    (a * 2 ^ i + b).testBit j = if j < i then b.testBit j else a.testBit (j - i) := by
  rcases Nat.lt_or_ge j i with hj | hj
  · simp only [if_pos hj]
    rw [Nat.testBit_to_div_mod, Nat.testBit_to_div_mod, decide_eq_decide]
    have h2 : (2 : Nat) ^ i = 2 ^ (i - j - 1) * 2 * 2 ^ j := by
      rw [Nat.mul_assoc, ← Nat.pow_succ']
      rw [← Nat.pow_add]
      congr 1
      omega
    have hsplit : a * 2 ^ i + b = b + a * (2 ^ (i - j - 1) * 2) * 2 ^ j := by
      rw [h2]; ring
    rw [hsplit, Nat.add_mul_div_right _ _ (Nat.pos_pow_of_pos j (by norm_num))]
    have heven : a * (2 ^ (i - j - 1) * 2) = 2 * (a * 2 ^ (i - j - 1)) := by ring
    rw [heven]
    omega
  · simp only [if_neg (Nat.not_lt.mpr hj)]
    rw [Nat.testBit_to_div_mod, Nat.testBit_to_div_mod]
    have h2 : (2 : Nat) ^ j = 2 ^ i * 2 ^ (j - i) := by
      rw [← Nat.pow_add]; congr 1; omega
    rw [h2, ← Nat.div_div_eq_div_mul, Nat.mul_comm a (2 ^ i),
      Nat.mul_add_div (Nat.pos_pow_of_pos i (by norm_num)),
      Nat.div_eq_of_lt hb, Nat.add_zero]

theorem four_pow (m : Nat) : (4 : Nat) ^ m = 2 ^ (2 * m) := by
  rw [Nat.pow_mul]

theorem two_bit_testBit (b0 b1 : Bool) (j : Nat) :
    (b0.toNat + 2 * b1.toNat).testBit j =
      if j = 0 then b0 else if j = 1 then b1 else false := by
  match j with
  | 0 => cases b0 <;> cases b1 <;> decide
  | 1 => cases b0 <;> cases b1 <;> decide
  | j + 2 =>
    simp only [if_neg (by omega : ¬ j + 2 = 0), if_neg (by omega : ¬ j + 2 = 1)]
    apply testBit_false_of_lt (n := 2)
    · cases b0 <;> cases b1 <;> decide
    · omega

theorem chunk4_eq (U m : Nat) :
    U / 4 ^ m % 4 = (U.testBit (2 * m)).toNat + 2 * (U.testBit (2 * m + 1)).toNat := by
  rw [Nat.toNat_testBit, Nat.toNat_testBit]
  have h4 : (4 : Nat) = 2 * 2 := by norm_num
  have hmod : U / 4 ^ m % 4 = U / 4 ^ m % 2 + 2 * (U / 4 ^ m / 2 % 2) := by
    conv_lhs => rw [h4, Nat.mod_mul]
  rw [hmod, four_pow]
  congr 2
  rw [Nat.div_div_eq_div_mul, ← Nat.pow_succ]

theorem mod_four_pow_succ (U m : Nat) :
    U % 4 ^ (m + 1) =
      U % 4 ^ m + ((U.testBit (2 * m)).toNat + 2 * (U.testBit (2 * m + 1)).toNat) * 4 ^ m := by
  rw [← chunk4_eq, Nat.pow_succ, Nat.mod_mul, Nat.mul_comm (4 ^ m) (U / 4 ^ m % 4)]

/-! ## Correctness of the fuelled helpers `ctzNat` and `bitLen` -/

theorem ctzGo_spec : ∀ f m, 0 < m → m ≤ f →
    m.testBit (ctzGo f m) = true ∧ ∀ j < ctzGo f m, m.testBit j = false := by
  intro f
  induction f with
  | zero => intro m hm hf; omega
  | succ f ih =>
    intro m hm hf
    by_cases hodd : m % 2 = 1
    · simp [ctzGo, hodd, Nat.testBit_zero]
    · have hm2 : 0 < m / 2 := by omega
      have hle : m / 2 ≤ f := by omega
      obtain ⟨h1, h2⟩ := ih (m / 2) hm2 hle
      have hstep : ctzGo (f + 1) m = ctzGo f (m / 2) + 1 := by
        simp [ctzGo, hodd]
      refine ⟨?_, ?_⟩
      · rw [hstep, ← Nat.testBit_div_two]; exact h1
      · intro j hj
        rw [hstep] at hj
        match j with
        | 0 => simp [Nat.testBit_zero]; omega
        | j + 1 =>
          rw [← Nat.testBit_div_two]
          exact h2 j (by omega)

theorem ctzNat_spec {m : Nat} (hm : 0 < m) :
    m.testBit (ctzNat m) = true ∧ ∀ j < ctzNat m, m.testBit j = false :=
  ctzGo_spec m m hm (Nat.le_refl m)

theorem ctzNat_unique {m j : Nat} (hm : 0 < m) (hbit : m.testBit j = true)
    (hlow : ∀ j0 < j, m.testBit j0 = false) : ctzNat m = j := by
  obtain ⟨h1, h2⟩ := ctzNat_spec hm
  rcases Nat.lt_trichotomy (ctzNat m) j with h | h | h
  · rw [hlow _ h] at h1; exact absurd h1 (by simp)
  · exact h
  · rw [h2 _ h] at hbit; exact absurd hbit (by simp)

theorem ctzNat_two_pow (j : Nat) : ctzNat (2 ^ j) = j := by
  apply ctzNat_unique (Nat.pos_pow_of_pos j (by norm_num))
  · rw [Nat.testBit_two_pow]; simp
  · intro j0 hj0
    rw [Nat.testBit_two_pow]
    simp
    omega

theorem two_pow_le_of_testBit {m j : Nat} (hbit : m.testBit j = true) :
    2 ^ j ≤ m := by
  by_contra hlt
  rw [Nat.testBit_lt_two_pow (by omega)] at hbit
  exact absurd hbit (by simp)

theorem ctzNat_lt_of_lt {m n : Nat} (hm : 0 < m) (h : m < 2 ^ n) :
    ctzNat m < n := by
  have h1 := (ctzNat_spec hm).1
  have h2 := two_pow_le_of_testBit h1
  by_contra hc
  have : (2 : Nat) ^ n ≤ 2 ^ ctzNat m := Nat.pow_le_pow_right (by norm_num) (by omega)
  omega

theorem bitLenGo_zero : ∀ f, bitLenGo f 0 = 0 := by
  intro f
  match f with
  | 0 => rfl
  | f + 1 => simp [bitLenGo]

theorem bitLenGo_pos : ∀ f m, 0 < m → m ≤ f → 1 ≤ bitLenGo f m := by
  intro f m hm hf
  match f with
  | 0 => omega
  | f + 1 =>
    have : m ≠ 0 := by omega
    simp [bitLenGo, this]

theorem bitLenGo_spec : ∀ f m, m ≤ f →
    m < 2 ^ bitLenGo f m ∧ (0 < m → 2 ^ (bitLenGo f m - 1) ≤ m) := by
  intro f
  induction f with
  | zero =>
    intro m hf
    have : m = 0 := by omega
    subst this
    simp [bitLenGo]
  | succ f ih =>
    intro m hf
    by_cases hm : m = 0
    · subst hm; simp [bitLenGo]
    · have hstep : bitLenGo (f + 1) m = bitLenGo f (m / 2) + 1 := by
        simp [bitLenGo, hm]
      have hle : m / 2 ≤ f := by omega
      obtain ⟨h1, h2⟩ := ih (m / 2) hle
      rw [hstep]
      constructor
      · have : 2 ^ (bitLenGo f (m / 2) + 1) = 2 * 2 ^ bitLenGo f (m / 2) := by
          rw [Nat.pow_succ]; ring
        rw [this]
        omega
      · intro _
        by_cases hm2 : m / 2 = 0
        · rw [hm2, bitLenGo_zero]
          simp
          omega
        · have hp := bitLenGo_pos f (m / 2) (by omega) hle
          have h2' := h2 (by omega)
          have heq : bitLenGo f (m / 2) + 1 - 1 = (bitLenGo f (m / 2) - 1) + 1 := by
            omega
          rw [heq, Nat.pow_succ]
          omega

theorem bitLen_lt (m : Nat) : m < 2 ^ bitLen m :=
  (bitLenGo_spec m m (Nat.le_refl m)).1

theorem bitLen_le {m : Nat} (hm : 0 < m) : 2 ^ (bitLen m - 1) ≤ m :=
  (bitLenGo_spec m m (Nat.le_refl m)).2 hm

theorem bitLen_pos {m : Nat} (hm : 0 < m) : 1 ≤ bitLen m :=
  bitLenGo_pos m m hm (Nat.le_refl m)

theorem bitLen_zero : bitLen 0 = 0 := rfl

theorem bitLen_unique {m a : Nat} (ha1 : 1 ≤ a) (ha2 : 2 ^ (a - 1) ≤ m)
    (ha3 : m < 2 ^ a) : bitLen m = a := by
  have hm : 0 < m := lt_of_lt_of_le (Nat.pos_pow_of_pos _ (by norm_num)) ha2
  have hb1 := bitLen_pos hm
  have hb2 := bitLen_le hm
  have hb3 := bitLen_lt m
  rcases Nat.lt_trichotomy (bitLen m) a with h | h | h
  · exfalso
    have : (2 : Nat) ^ (a - 1) ≤ 2 ^ (a - 1) := Nat.le_refl _
    have hle : bitLen m ≤ a - 1 := by omega
    have : (2 : Nat) ^ bitLen m ≤ 2 ^ (a - 1) :=
      Nat.pow_le_pow_right (by norm_num) hle
    omega
  · exact h
  · exfalso
    have hle : a ≤ bitLen m - 1 := by omega
    have : (2 : Nat) ^ a ≤ 2 ^ (bitLen m - 1) :=
      Nat.pow_le_pow_right (by norm_num) hle
    omega

theorem bitLen_two_pow_sub_one (j : Nat) : bitLen (2 ^ j - 1) = j := by
  match j with
  | 0 => simp [bitLen_zero]
  | j + 1 =>
    apply bitLen_unique (by omega)
    · simp only [Nat.add_sub_cancel]
      have h1 : (2 : Nat) ^ j < 2 ^ (j + 1) := by
        rw [Nat.pow_succ]
        have := Nat.pos_pow_of_pos j (show 0 < 2 by norm_num)
        omega
      omega
    · have := Nat.pos_pow_of_pos (j + 1) (show 0 < 2 by norm_num)
      omega

theorem testBit_bitLen_top {v : Nat} (hv : 0 < v) :
    v.testBit (bitLen v - 1) = true := by
  have h1 := bitLen_le hv
  have h2 := bitLen_lt v
  have hp := bitLen_pos hv
  rw [Nat.testBit_to_div_mod]
  have hge : 1 ≤ v / 2 ^ (bitLen v - 1) := (Nat.one_le_div_iff (Nat.pos_pow_of_pos _ (by norm_num))).mpr h1
  have hlt : v / 2 ^ (bitLen v - 1) < 2 := by
    apply Nat.div_lt_of_lt_mul
    have : 2 ^ (bitLen v - 1) * 2 = 2 ^ bitLen v := by
      rw [← Nat.pow_succ]
      congr 1
      omega
    omega
  have : v / 2 ^ (bitLen v - 1) = 1 := by omega
  simp [this]

theorem testBit_ge_bitLen {v j : Nat} (hj : bitLen v ≤ j) :
    v.testBit j = false :=
  testBit_false_of_lt (bitLen_lt v) hj

/-! ## List access lemmas -/

theorem listGetD_set (ws : List Nat) (n v m : Nat) :
    (ws.set n v).getD m 0 = if n = m ∧ n < ws.length then v else ws.getD m 0 := by
  rw [List.getD_eq_getElem?_getD, List.getD_eq_getElem?_getD, List.getElem?_set]
  by_cases h1 : n = m
  · subst h1
    by_cases h2 : n < ws.length
    · simp [h2]
    · rw [if_pos rfl, if_neg h2, if_neg (fun hc => h2 hc.2),
        List.getElem?_eq_none (Nat.le_of_not_lt h2)]
  · simp [h1]

theorem listGetD_take (ws : List Nat) (t m : Nat) :
    (ws.take t).getD m 0 = if m < t then ws.getD m 0 else 0 := by
  rw [List.getD_eq_getElem?_getD, List.getD_eq_getElem?_getD, List.getElem?_take]
  by_cases h : m < t <;> simp [h]

theorem listGetD_replicate (n m : Nat) :
    (List.replicate n (0 : Nat)).getD m 0 = 0 := by
  rw [List.getD_eq_getElem?_getD]
  rcases Nat.lt_or_ge m n with h | h
  · simp [List.getElem?_replicate, h]
  · rw [List.getElem?_eq_none (by simpa using h)]
    rfl

/-! ## Stream bit and value lemmas -/

theorem streamBit_replicate (n i : Nat) :
    streamBit (List.replicate n (0 : Nat)) i = false := by
  unfold streamBit
  rw [listGetD_replicate]
  exact Nat.zero_testBit _

theorem pairVal_le (m4 m6 : List Nat) (i : Nat) : pairVal m4 m6 i ≤ 3 := by
  unfold pairVal
  cases streamBit m6 i <;> cases streamBit m4 i <;> decide

theorem streamsVal_lt (m4 m6 : List Nat) (k : Nat) :
    streamsVal m4 m6 k < 4 ^ k := by
  induction k with
  | zero => simp [streamsVal]
  | succ k ih =>
    have hp := pairVal_le m4 m6 k
    have h4 : (4 : Nat) ^ (k + 1) = 4 ^ k + 3 * 4 ^ k := by ring
    have hle : pairVal m4 m6 k * 4 ^ k ≤ 3 * 4 ^ k :=
      Nat.mul_le_mul_right _ hp
    simp only [streamsVal]
    omega

theorem testBit_streamsVal (m4 m6 : List Nat) (k j : Nat) :
    (streamsVal m4 m6 k).testBit j =
      if j < 2 * k then
        (if j % 2 = 0 then streamBit m6 (j / 2) else streamBit m4 (j / 2))
      else false := by
  induction k generalizing j with
  | zero =>
    simp [streamsVal, Nat.zero_testBit]
  | succ k ih =>
    have hb : streamsVal m4 m6 k < 2 ^ (2 * k) := by
      rw [← four_pow]; exact streamsVal_lt m4 m6 k
    have hv : streamsVal m4 m6 (k + 1) =
        pairVal m4 m6 k * 2 ^ (2 * k) + streamsVal m4 m6 k := by
      simp only [streamsVal, four_pow]
      ring
    rw [hv, testBit_mul_pow_add _ hb]
    rcases Nat.lt_or_ge j (2 * k) with hj | hj
    · rw [if_pos hj, ih, if_pos hj, if_pos (show j < 2 * (k + 1) by omega)]
    · rw [if_neg (Nat.not_lt.mpr hj)]
      unfold pairVal
      rw [two_bit_testBit]
      rcases Nat.lt_trichotomy j (2 * k + 1) with hj2 | hj2 | hj2
      · have hjeq : j = 2 * k := by omega
        subst hjeq
        rw [if_pos (show 2 * k - 2 * k = 0 by omega),
          if_pos (show 2 * k < 2 * (k + 1) by omega),
          if_pos (show 2 * k % 2 = 0 by omega),
          show 2 * k / 2 = k by omega]
      · subst hj2
        rw [if_neg (show ¬ (2 * k + 1 - 2 * k = 0) by omega),
          if_pos (show 2 * k + 1 - 2 * k = 1 by omega),
          if_pos (show 2 * k + 1 < 2 * (k + 1) by omega),
          if_neg (show ¬ ((2 * k + 1) % 2 = 0) by omega),
          show (2 * k + 1) / 2 = k by omega]
      · rw [if_neg (show ¬ (j - 2 * k = 0) by omega),
          if_neg (show ¬ (j - 2 * k = 1) by omega),
          if_neg (show ¬ (j < 2 * (k + 1)) by omega)]

theorem streamsVal_congr {m4 m6 m4' m6' : List Nat} (k : Nat)
    (h : ∀ i < k, streamBit m4 i = streamBit m4' i ∧ streamBit m6 i = streamBit m6' i) :
    streamsVal m4 m6 k = streamsVal m4' m6' k := by
  induction k with
  | zero => rfl
  | succ k ih =>
    obtain ⟨h4, h6⟩ := h k (by omega)
    simp only [streamsVal, pairVal, h4, h6]
    rw [ih (fun i hi => h i (by omega))]

theorem streamsVal_extend (m4 m6 : List Nat) {k K : Nat} (h : k ≤ K)
    (hz : ∀ i, k ≤ i → i < K → pairVal m4 m6 i = 0) :
    streamsVal m4 m6 K = streamsVal m4 m6 k := by
  induction K with
  | zero =>
    have : k = 0 := by omega
    subst this; rfl
  | succ K ih =>
    rcases Nat.lt_or_ge k (K + 1) with hk | hk
    · have hzK := hz K (by omega) (by omega)
      simp only [streamsVal, hzK, Nat.zero_mul, Nat.add_zero]
      exact ih (by omega) (fun i h1 h2 => hz i h1 (by omega))
    · have : k = K + 1 := by omega
      subst this; rfl

theorem streamsVal_ge_top (m4 m6 : List Nat) {k : Nat} (hk : 1 ≤ k)
    (h : pairVal m4 m6 (k - 1) ≠ 0) : 4 ^ (k - 1) ≤ streamsVal m4 m6 k := by
  have hrw : k = (k - 1) + 1 := by omega
  rw [hrw]
  simp only [streamsVal, Nat.add_sub_cancel]
  have h1 : 1 ≤ pairVal m4 m6 (k - 1) := by omega
  have h2 := Nat.mul_le_mul_right (4 ^ (k - 1)) h1
  omega

theorem streamsVal_pos (m4 m6 : List Nat) {k i : Nat} (hik : i < k)
    (h : pairVal m4 m6 i ≠ 0) : 0 < streamsVal m4 m6 k := by
  have h1 : (streamsVal m4 m6 k).testBit (2 * i) = streamBit m6 i ∧
      (streamsVal m4 m6 k).testBit (2 * i + 1) = streamBit m4 i := by
    rw [testBit_streamsVal, testBit_streamsVal]
    constructor
    · rw [if_pos (by omega), if_pos (by omega)]
      congr 1
      omega
    · rw [if_pos (by omega), if_neg (by omega)]
      congr 1
      omega
  by_contra hz
  have hz0 : streamsVal m4 m6 k = 0 := by omega
  unfold pairVal at h
  rw [hz0] at h1
  simp [Nat.zero_testBit] at h1
  obtain ⟨h6, h4⟩ := h1
  rw [h6, h4] at h
  simp at h

theorem bit_testBit {b : Nat} (hb : b ≤ 1) (t : Nat) :
    b.testBit t = (decide (t = 0) && decide (b = 1)) := by
  interval_cases b
  · simp [Nat.zero_testBit]
  · match t with
    | 0 => simp
    | t + 1 =>
      rw [testBit_false_of_lt (n := 1) (by norm_num) (by omega)]
      simp

theorem shiftRight_and_one (w b : Nat) : (w >>> b) &&& 1 = (w.testBit b).toNat := by
  rw [Nat.and_one_is_mod, Nat.toNat_testBit, Nat.shiftRight_eq_div_pow]

theorem streamBit_setStreamBit (ws : List Nat) (i b j : Nat) (hb : b ≤ 1)
    (hlen : i / 64 < ws.length) :
    streamBit (setStreamBit ws i b) j =
      (streamBit ws j || (decide (j = i) && decide (b = 1))) := by
  unfold streamBit setStreamBit
  rw [listGetD_set]
  by_cases hw : i / 64 = j / 64
  · rw [if_pos ⟨hw, hlen⟩, Nat.testBit_lor, Nat.testBit_shiftLeft, bit_testBit hb, hw]
    by_cases hij : j = i
    · subst hij
      simp
    · have hmod : ¬ j % 64 = i % 64 := by
        intro heq
        exact hij (by omega)
      by_cases h1 : i % 64 ≤ j % 64
      · simp [h1, hij, show ¬ (j % 64 - i % 64 = 0) from by omega]
      · simp [h1, hij]
  · rw [if_neg (fun hc => hw hc.1)]
    have hne : ¬ j = i := fun hc => hw (by rw [hc])
    simp [hne]

theorem setStreamBit_length (ws : List Nat) (i b : Nat) :
    (setStreamBit ws i b).length = ws.length := List.length_set ws _ _

theorem setStreamBit_getD_lt (ws : List Nat) (i b : Nat) (hb : b ≤ 1)
    (hw : ∀ j, ws.getD j 0 < 2 ^ 64) (hi : i % 64 < 64) :
    ∀ j, (setStreamBit ws i b).getD j 0 < 2 ^ 64 := by
  intro j
  unfold setStreamBit
  rw [listGetD_set]
  by_cases hc : i / 64 = j ∧ i / 64 < ws.length
  · rw [if_pos hc]
    apply lor_lt_two_pow (hw _)
    have h1 : b <<< (i % 64) = b * 2 ^ (i % 64) := Nat.shiftLeft_eq b _
    have h2 : b * 2 ^ (i % 64) ≤ 2 ^ (i % 64) := by
      calc b * 2 ^ (i % 64) ≤ 1 * 2 ^ (i % 64) := Nat.mul_le_mul_right _ hb
        _ = 2 ^ (i % 64) := Nat.one_mul _
    have h3 : (2 : Nat) ^ (i % 64) < 2 ^ 64 :=
      Nat.pow_lt_pow_right (by norm_num) hi
    omega
  · rw [if_neg hc]
    exact hw j

/-! ## StreamWF consequences -/

theorem StreamWF.getD_lt {ws : List Nat} {count : Nat} (h : StreamWF ws count) :
    ∀ j, ws.getD j 0 < 2 ^ 64 := by
  intro j
  rcases Nat.lt_or_ge j ws.length with hj | hj
  · exact h.2.1 j hj
  · rw [List.getD_eq_default _ _ hj]
    exact Nat.pos_pow_of_pos _ (by norm_num)

theorem StreamWF.bit_false {ws : List Nat} {count : Nat} (h : StreamWF ws count)
    {i : Nat} (hi : count ≤ i) : streamBit ws i = false := by
  rcases Nat.lt_or_ge i (64 * ws.length) with hlt | hge
  · exact h.2.2 i hlt hi
  · unfold streamBit
    have : ws.length ≤ i / 64 := by omega
    rw [List.getD_eq_default _ _ this]
    exact Nat.zero_testBit _

/-! ## `get_m4` / `get_m6` as bits of the value -/

theorem get_m6_spec (pn : PairNumber) (i : Nat) :
    pn.get_m6 (i : Int) = (pn.val.testBit (2 * i)).toNat := by
  unfold PairNumber.get_m6 PairNumber.val
  rcases Nat.lt_or_ge i pn.pair_count with hik | hik
  · rw [if_neg (by push_cast; omega)]
    rw [shiftRight_and_one]
    rw [testBit_streamsVal, if_pos (by omega), if_pos (by omega)]
    have : 2 * i / 2 = i := by omega
    rw [this]
    simp [streamBit, Int.toNat_ofNat]
  · rw [if_pos (by right; push_cast; omega)]
    have hv : streamsVal pn.m4_words pn.m6_words pn.pair_count < 2 ^ (2 * i) := by
      have h1 := streamsVal_lt pn.m4_words pn.m6_words pn.pair_count
      have h2 : (4 : Nat) ^ pn.pair_count ≤ 2 ^ (2 * i) := by
        rw [four_pow]
        exact Nat.pow_le_pow_right (by norm_num) (by omega)
      omega
    rw [testBit_false_of_lt hv (Nat.le_refl _)]
    rfl

theorem get_m4_spec (pn : PairNumber) (i : Nat) :
    pn.get_m4 (i : Int) = (pn.val.testBit (2 * i + 1)).toNat := by
  unfold PairNumber.get_m4 PairNumber.val
  rcases Nat.lt_or_ge i pn.pair_count with hik | hik
  · rw [if_neg (by push_cast; omega)]
    rw [shiftRight_and_one]
    rw [testBit_streamsVal, if_pos (by omega), if_neg (by omega)]
    have : (2 * i + 1) / 2 = i := by omega
    rw [this]
    simp [streamBit, Int.toNat_ofNat]
  · rw [if_pos (by right; push_cast; omega)]
    have hv : streamsVal pn.m4_words pn.m6_words pn.pair_count < 2 ^ (2 * i + 1) := by
      have h1 := streamsVal_lt pn.m4_words pn.m6_words pn.pair_count
      have h2 : (4 : Nat) ^ pn.pair_count ≤ 2 ^ (2 * i + 1) := by
        rw [four_pow]
        exact Nat.pow_le_pow_right (by norm_num) (by omega)
      omega
    rw [testBit_false_of_lt hv (Nat.le_refl _)]
    rfl

theorem get_m6_neg (pn : PairNumber) {i : Int} (hi : i < 0) : pn.get_m6 i = 0 := by
  unfold PairNumber.get_m6
  rw [if_pos (Or.inl hi)]

theorem get_m4_neg (pn : PairNumber) {i : Int} (hi : i < 0) : pn.get_m4 i = 0 := by
  unfold PairNumber.get_m4
  rw [if_pos (Or.inl hi)]

theorem get_m6_le_one (pn : PairNumber) (i : Int) : pn.get_m6 i ≤ 1 := by
  unfold PairNumber.get_m6
  split
  · omega
  · rw [shiftRight_and_one]
    cases Nat.testBit (pn.m6_words.getD (i.toNat / 64) 0) (i.toNat % 64) <;> simp

theorem get_m4_le_one (pn : PairNumber) (i : Int) : pn.get_m4 i ≤ 1 := by
  unfold PairNumber.get_m4
  split
  · omega
  · rw [shiftRight_and_one]
    cases Nat.testBit (pn.m4_words.getD (i.toNat / 64) 0) (i.toNat % 64) <;> simp

/-! ## `buildWords` and `from_biguint` -/

theorem wordFromBitsGo_lt (f : Nat → Bool) (base count : Nat) :
    ∀ J, wordFromBitsGo f base count J < 2 ^ J := by
  intro J
  induction J with
  | zero => simp [wordFromBitsGo]
  | succ J ih =>
    unfold wordFromBitsGo
    have h2 : (2 : Nat) ^ (J + 1) = 2 ^ J + 2 ^ J := by ring
    split <;> omega

theorem testBit_wordFromBitsGo (f : Nat → Bool) (base count : Nat) :
    ∀ J b, (wordFromBitsGo f base count J).testBit b =
      if b < J ∧ base + b < count then f (base + b) else false := by
  intro J
  induction J with
  | zero =>
    intro b
    rw [if_neg (by omega)]
    exact Nat.zero_testBit b
  | succ J ih =>
    intro b
    unfold wordFromBitsGo
    have hlt := wordFromBitsGo_lt f base count J
    by_cases hc : base + J < count ∧ f (base + J)
    · rw [if_pos hc]
      have hrw : wordFromBitsGo f base count J + 2 ^ J =
          1 * 2 ^ J + wordFromBitsGo f base count J := by ring
      rw [hrw, testBit_mul_pow_add _ hlt]
      rcases Nat.lt_trichotomy b J with hb | hb | hb
      · rw [if_pos hb, ih]
        by_cases hx : base + b < count
        · rw [if_pos ⟨hb, hx⟩, if_pos ⟨by omega, hx⟩]
        · rw [if_neg (fun h => hx h.2), if_neg (fun h => hx h.2)]
      · subst hb
        rw [if_neg (by omega), Nat.sub_self]
        rw [if_pos ⟨by omega, hc.1⟩, hc.2]
        decide
      · rw [if_neg (by omega), if_neg (by omega)]
        apply testBit_false_of_lt (n := 1)
        · norm_num
        · omega
    · rw [if_neg hc, Nat.add_zero, ih]
      rcases Nat.lt_trichotomy b J with hb | hb | hb
      · by_cases hx : base + b < count
        · rw [if_pos ⟨hb, hx⟩, if_pos ⟨by omega, hx⟩]
        · rw [if_neg (fun h => hx h.2), if_neg (fun h => hx h.2)]
      · subst hb
        rw [if_neg (by omega)]
        by_cases hx : base + b < count
        · have hf : f (base + b) = false := by
            by_contra hff
            exact hc ⟨hx, by revert hff; cases f (base + b) <;> simp⟩
          rw [if_pos ⟨by omega, hx⟩, hf]
        · rw [if_neg (fun h => hx h.2)]
      · rw [if_neg (by omega), if_neg (by omega)]

theorem buildWords_length (f : Nat → Bool) (count : Nat) :
    (buildWords f count).length = (count + 63) / 64 := by
  unfold buildWords
  rw [List.length_map, List.length_range]

theorem buildWords_getD (f : Nat → Bool) (count w : Nat) :
    (buildWords f count).getD w 0 =
      if w < (count + 63) / 64 then wordFromBitsGo f (64 * w) count 64 else 0 := by
  unfold buildWords
  by_cases h : w < (count + 63) / 64
  · rw [if_pos h, List.getD_eq_getElem _ _ (by
      rw [List.length_map, List.length_range]; exact h)]
    rw [List.getElem_map, List.getElem_range]
  · rw [if_neg h, List.getD_eq_default]
    rw [List.length_map, List.length_range]
    omega

theorem streamBit_buildWords (f : Nat → Bool) (count i : Nat) :
    streamBit (buildWords f count) i = if i < count then f i else false := by
  unfold streamBit
  rw [buildWords_getD]
  by_cases hw : i / 64 < (count + 63) / 64
  · rw [if_pos hw, testBit_wordFromBitsGo]
    have heq : 64 * (i / 64) + i % 64 = i := by omega
    rw [heq]
    by_cases hx : i < count
    · rw [if_pos ⟨by omega, hx⟩, if_pos hx]
    · rw [if_neg (fun h => hx h.2), if_neg hx]
  · rw [if_neg hw, Nat.zero_testBit, if_neg]
    omega

theorem buildWords_WF (f : Nat → Bool) (count : Nat) :
    StreamWF (buildWords f count) count := by
  refine ⟨buildWords_length f count, ?_, ?_⟩
  · intro j _
    rw [buildWords_getD]
    split
    · exact wordFromBitsGo_lt f _ count 64
    · exact Nat.pos_pow_of_pos _ (by norm_num)
  · intro i _ hi
    rw [streamBit_buildWords, if_neg (by omega)]

theorem pairVal_ne_zero_iff (m4 m6 : List Nat) (i : Nat) :
    pairVal m4 m6 i ≠ 0 ↔ (streamBit m4 i = true ∨ streamBit m6 i = true) := by
  unfold pairVal
  cases streamBit m4 i <;> cases streamBit m6 i <;> simp

theorem from_biguint_pair_count {n : Nat} (hn : n ≠ 0) :
    (PairNumber.from_biguint n).pair_count = (bitLen n + 1) / 2 := by
  unfold PairNumber.from_biguint
  rw [if_neg hn]
  simp only
  by_cases h : bitLen n % 2 ≠ 0
  · rw [if_pos h]
  · rw [if_neg h]
    omega

theorem from_biguint_m6_bit {n : Nat} (hn : n ≠ 0) (i : Nat) :
    streamBit (PairNumber.from_biguint n).m6_words i =
      if i < (bitLen n + 1) / 2 then n.testBit (2 * i) else false := by
  have hk := from_biguint_pair_count hn
  unfold PairNumber.from_biguint at hk ⊢
  rw [if_neg hn] at hk ⊢
  simp only at hk ⊢
  rw [streamBit_buildWords, hk]

theorem from_biguint_m4_bit {n : Nat} (hn : n ≠ 0) (i : Nat) :
    streamBit (PairNumber.from_biguint n).m4_words i =
      if i < (bitLen n + 1) / 2 then n.testBit (2 * i + 1) else false := by
  have hk := from_biguint_pair_count hn
  unfold PairNumber.from_biguint at hk ⊢
  rw [if_neg hn] at hk ⊢
  simp only at hk ⊢
  rw [streamBit_buildWords, hk]

theorem from_biguint_zero : PairNumber.from_biguint 0 = ⟨[0], [0], 1⟩ := rfl

theorem zero_pn_canonical : (PairNumber.from_packed [0] [0] 1).Canonical := by
  decide

theorem zero_pn_val : (PairNumber.from_packed [0] [0] 1).val = 0 := by decide

theorem from_biguint_val (n : Nat) : (PairNumber.from_biguint n).val = n := by
  by_cases hn : n = 0
  · subst hn
    decide
  · have hk := from_biguint_pair_count hn
    have h2k : bitLen n ≤ 2 * ((bitLen n + 1) / 2) := by omega
    unfold PairNumber.val
    apply Nat.eq_of_testBit_eq
    intro j
    rw [testBit_streamsVal]
    by_cases hj : j < 2 * (PairNumber.from_biguint n).pair_count
    · rw [if_pos hj]
      by_cases hpar : j % 2 = 0
      · rw [if_pos hpar, from_biguint_m6_bit hn, ← hk,
          if_pos (by omega), show 2 * (j / 2) = j by omega]
      · rw [if_neg hpar, from_biguint_m4_bit hn, ← hk,
          if_pos (by omega), show 2 * (j / 2) + 1 = j by omega]
    · rw [if_neg hj]
      have : bitLen n ≤ j := by
        rw [hk] at hj
        omega
      exact (testBit_ge_bitLen this).symm

theorem from_biguint_canonical (n : Nat) : (PairNumber.from_biguint n).Canonical := by
  by_cases hn : n = 0
  · subst hn
    exact zero_pn_canonical
  · have hk := from_biguint_pair_count hn
    have hpos : 0 < n := by omega
    have hL := bitLen_pos hpos
    constructor
    · unfold PairNumber.from_biguint
      rw [if_neg hn]
      simp only
      rw [show (if bitLen n % 2 ≠ 0 then bitLen n + 1 else bitLen n) / 2 =
        (bitLen n + 1) / 2 from by split <;> omega]
      exact buildWords_WF _ _
    constructor
    · unfold PairNumber.from_biguint
      rw [if_neg hn]
      simp only
      rw [show (if bitLen n % 2 ≠ 0 then bitLen n + 1 else bitLen n) / 2 =
        (bitLen n + 1) / 2 from by split <;> omega]
      exact buildWords_WF _ _
    constructor
    · rw [hk]; omega
    · intro hk1
      rw [hk] at hk1 ⊢
      rw [pairVal_ne_zero_iff]
      set L := bitLen n with hLdef
      set k := (L + 1) / 2 with hkdef
      have htop : n.testBit (L - 1) = true := testBit_bitLen_top hpos
      have hrange : 2 * (k - 1) ≤ L - 1 ∧ L - 1 ≤ 2 * (k - 1) + 1 := by omega
      by_cases hpar : (L - 1) % 2 = 0
      · right
        rw [from_biguint_m6_bit hn, ← hkdef, if_pos (by omega)]
        rw [show 2 * (k - 1) = L - 1 from by omega]
        exact htop
      · left
        rw [from_biguint_m4_bit hn, ← hkdef, if_pos (by omega)]
        rw [show 2 * (k - 1) + 1 = L - 1 from by omega]
        exact htop

theorem to_biguint_eq_val (pn : PairNumber) : pn.to_biguint = pn.val := by
  unfold PairNumber.to_biguint PairNumber.val
  by_cases h : pn.pair_count = 0
  · rw [if_pos h, h]
    rfl
  · rw [if_neg h]

theorem canonical_k_eq {p q : PairNumber} (hp : p.Canonical) (hq : q.Canonical)
    (hv : p.val = q.val) : p.pair_count = q.pair_count := by
  by_contra hne
  have key : ∀ a b : PairNumber, a.Canonical → b.Canonical →
      a.pair_count < b.pair_count → a.val < b.val := by
    intro a b ha hb hlt
    have hb1 : 1 < b.pair_count := by
      have := ha.2.2.1
      omega
    have h1 : a.val < 4 ^ a.pair_count := streamsVal_lt _ _ _
    have h2 : 4 ^ (b.pair_count - 1) ≤ b.val :=
      streamsVal_ge_top _ _ (by omega) (hb.2.2.2 hb1)
    have h3 : (4 : Nat) ^ a.pair_count ≤ 4 ^ (b.pair_count - 1) :=
      Nat.pow_le_pow_right (by norm_num) (by omega)
    omega
  rcases Nat.lt_or_ge p.pair_count q.pair_count with h | h
  · have := key p q hp hq h
    omega
  · have := key q p hq hp (by omega)
    omega

theorem canonical_val_inj {p q : PairNumber} (hp : p.Canonical) (hq : q.Canonical)
    (hv : p.val = q.val) : p = q := by
  have hk := canonical_k_eq hp hq hv
  have hbit4 : ∀ i, streamBit p.m4_words i = streamBit q.m4_words i := by
    intro i
    rcases Nat.lt_or_ge i p.pair_count with hi | hi
    · have h1 : p.val.testBit (2 * i + 1) = streamBit p.m4_words i := by
        unfold PairNumber.val
        rw [testBit_streamsVal, if_pos (by omega), if_neg (by omega),
          show (2 * i + 1) / 2 = i from by omega]
      have h2 : q.val.testBit (2 * i + 1) = streamBit q.m4_words i := by
        unfold PairNumber.val
        rw [testBit_streamsVal, if_pos (by omega), if_neg (by omega),
          show (2 * i + 1) / 2 = i from by omega]
      rw [← h1, ← h2, hv]
    · rw [hp.1.bit_false hi, hq.1.bit_false (by omega)]
  have hbit6 : ∀ i, streamBit p.m6_words i = streamBit q.m6_words i := by
    intro i
    rcases Nat.lt_or_ge i p.pair_count with hi | hi
    · have h1 : p.val.testBit (2 * i) = streamBit p.m6_words i := by
        unfold PairNumber.val
        rw [testBit_streamsVal, if_pos (by omega), if_pos (by omega),
          show 2 * i / 2 = i from by omega]
      have h2 : q.val.testBit (2 * i) = streamBit q.m6_words i := by
        unfold PairNumber.val
        rw [testBit_streamsVal, if_pos (by omega), if_pos (by omega),
          show 2 * i / 2 = i from by omega]
      rw [← h1, ← h2, hv]
    · rw [hp.2.1.bit_false hi, hq.2.1.bit_false (by omega)]
  have hwords : ∀ (ws1 ws2 : List Nat),
      ws1.length = ws2.length →
      (∀ j < ws1.length, ws1.getD j 0 < 2 ^ 64) →
      (∀ j < ws2.length, ws2.getD j 0 < 2 ^ 64) →
      (∀ i, streamBit ws1 i = streamBit ws2 i) → ws1 = ws2 := by
    intro ws1 ws2 hlen h1 h2 hb
    apply List.ext_getElem hlen
    intro w hw1 hw2
    rw [← List.getD_eq_getElem ws1 0 hw1, ← List.getD_eq_getElem ws2 0 hw2]
    apply Nat.eq_of_testBit_eq
    intro b
    rcases Nat.lt_or_ge b 64 with hb64 | hb64
    · have := hb (64 * w + b)
      unfold streamBit at this
      rw [show (64 * w + b) / 64 = w from by omega,
        show (64 * w + b) % 64 = b from by omega] at this
      exact this
    · rw [testBit_false_of_lt (h1 w hw1) hb64, testBit_false_of_lt (h2 w hw2) hb64]
  have h4 : p.m4_words = q.m4_words := by
    apply hwords _ _ (by rw [hp.1.1, hq.1.1, hk]) (fun j hj => hp.1.2.1 j hj)
      (fun j hj => hq.1.2.1 j hj) hbit4
  have h6 : p.m6_words = q.m6_words := by
    apply hwords _ _ (by rw [hp.2.1.1, hq.2.1.1, hk]) (fun j hj => hp.2.1.2.1 j hj)
      (fun j hj => hq.2.1.2.1 j hj) hbit6
  cases p
  cases q
  simp only at hk h4 h6
  rw [hk, h4, h6]

theorem is_one_iff {pn : PairNumber} (h : pn.Canonical) :
    pn.is_one = true ↔ pn.val = 1 := by
  constructor
  · intro h1
    unfold PairNumber.is_one at h1
    simp only [Bool.and_eq_true, beq_iff_eq] at h1
    obtain ⟨⟨hk, h4⟩, h6⟩ := h1
    unfold PairNumber.val
    rw [hk]
    simp only [streamsVal, pairVal, streamBit]
    rw [show (0 : Nat) / 64 = 0 from rfl, show (0 : Nat) % 64 = 0 from rfl, h4, h6]
    decide
  · intro hv
    have h1 : PairNumber.from_biguint 1 = ⟨[0], [1], 1⟩ := by decide
    have h2 := canonical_val_inj h (from_biguint_canonical 1)
      (by rw [hv, from_biguint_val])
    rw [h2, h1]
    decide

/-! ## Ordering: `cmp` agrees with numeric comparison -/

theorem canonical_val_lt_of_k_lt {a b : PairNumber} (ha : a.Canonical)
    (hb : b.Canonical) (hlt : a.pair_count < b.pair_count) : a.val < b.val := by
  have hb1 : 1 < b.pair_count := by
    have := ha.2.2.1
    omega
  have h1 : a.val < 4 ^ a.pair_count := streamsVal_lt _ _ _
  have h2 : 4 ^ (b.pair_count - 1) ≤ b.val :=
    streamsVal_ge_top _ _ (by omega) (hb.2.2.2 hb1)
  have h3 : (4 : Nat) ^ a.pair_count ≤ 4 ^ (b.pair_count - 1) :=
    Nat.pow_le_pow_right (by norm_num) (by omega)
  omega

theorem nat_compare_congr {a b c d : Nat} (h : a + d = b + c) :
    compare a b = compare c d := by
  rcases Nat.lt_trichotomy a b with hl | hl | hl
  · rw [Nat.compare_eq_lt.mpr hl, Nat.compare_eq_lt.mpr (show c < d by omega)]
  · rw [Nat.compare_eq_eq.mpr hl, Nat.compare_eq_eq.mpr (show c = d by omega)]
  · rw [Nat.compare_eq_gt.mpr hl, Nat.compare_eq_gt.mpr (show d < c by omega)]

theorem streamsVal_add_congr {m4p m6p m4q m6q : List Nat} {M : Nat} :
    ∀ {N : Nat}, M ≤ N →
    (∀ i, M ≤ i → i < N → pairVal m4p m6p i = pairVal m4q m6q i) →
    streamsVal m4p m6p N + streamsVal m4q m6q M =
      streamsVal m4q m6q N + streamsVal m4p m6p M := by
  intro N
  induction N with
  | zero =>
    intro h _
    have hM : M = 0 := by omega
    rw [hM]
    omega
  | succ N ih =>
    intro h heq
    rcases Nat.lt_or_ge M (N + 1) with hM | hM
    · have hN := ih (by omega) (fun i h1 h2 => heq i h1 (by omega))
      simp only [streamsVal]
      rw [heq N (by omega) (by omega)]
      omega
    · have hM2 : M = N + 1 := by omega
      rw [hM2]
      omega

theorem compare_decided_at_pair {m4p m6p m4q m6q : List Nat} {N I : Nat}
    (hI : I < N)
    (hhigh : ∀ i, I < i → i < N → pairVal m4p m6p i = pairVal m4q m6q i)
    (hgt : pairVal m4q m6q I < pairVal m4p m6p I) :
    streamsVal m4q m6q N < streamsVal m4p m6p N := by
  have hadd := streamsVal_add_congr (M := I + 1) (N := N) (by omega) hhigh
  have hp : streamsVal m4p m6p (I + 1) =
      streamsVal m4p m6p I + pairVal m4p m6p I * 4 ^ I := rfl
  have hq : streamsVal m4q m6q (I + 1) =
      streamsVal m4q m6q I + pairVal m4q m6q I * 4 ^ I := rfl
  have hbp : streamsVal m4p m6p I < 4 ^ I := streamsVal_lt _ _ _
  have hbq : streamsVal m4q m6q I < 4 ^ I := streamsVal_lt _ _ _
  have hmul : pairVal m4q m6q I * 4 ^ I + 4 ^ I ≤ pairVal m4p m6p I * 4 ^ I := by
    have h1 : pairVal m4q m6q I + 1 ≤ pairVal m4p m6p I := by omega
    have h2 := Nat.mul_le_mul_right (4 ^ I) h1
    rw [Nat.add_mul, Nat.one_mul] at h2
    exact h2
  omega

theorem streamBit_word (ws : List Nat) (W b : Nat) (hb : b < 64) :
    streamBit ws (64 * W + b) = (ws.getD W 0).testBit b := by
  unfold streamBit
  rw [show (64 * W + b) / 64 = W from by omega, show (64 * W + b) % 64 = b from by omega]

theorem and_mask_ne_iff (x y t : Nat) :
    (x &&& (1 <<< t) ≠ y &&& (1 <<< t)) ↔ x.testBit t ≠ y.testBit t := by
  rw [Nat.shiftLeft_eq, Nat.one_mul, Nat.and_two_pow, Nat.and_two_pow]
  have h2t : (0 : Nat) < 2 ^ t := Nat.pos_pow_of_pos _ (by norm_num)
  cases x.testBit t <;> cases y.testBit t <;> simp <;> omega

theorem and_mask_ne_zero_iff (x t : Nat) :
    (x &&& (1 <<< t) ≠ 0) ↔ x.testBit t = true := by
  rw [Nat.shiftLeft_eq, Nat.one_mul, Nat.and_two_pow]
  have h2t : (0 : Nat) < 2 ^ t := Nat.pos_pow_of_pos _ (by norm_num)
  cases x.testBit t <;> simp <;> omega

theorem lor_eq_zero_iff_nat (a b : Nat) : a ||| b = 0 ↔ a = 0 ∧ b = 0 := by
  constructor
  · intro h
    constructor
    · apply Nat.eq_of_testBit_eq
      intro i
      have hb : (a ||| b).testBit i = false := by rw [h]; exact Nat.zero_testBit i
      rw [Nat.testBit_lor] at hb
      rw [Nat.zero_testBit]
      exact (Bool.or_eq_false_iff.mp hb).1
    · apply Nat.eq_of_testBit_eq
      intro i
      have hb : (a ||| b).testBit i = false := by rw [h]; exact Nat.zero_testBit i
      rw [Nat.testBit_lor] at hb
      rw [Nat.zero_testBit]
      exact (Bool.or_eq_false_iff.mp hb).2
  · intro ⟨h1, h2⟩
    rw [h1, h2]
    decide

theorem cmpWordsGo_succ (p q : PairNumber) (W : Nat) :
    cmpWordsGo p q (W + 1) =
      (if (p.m4_words.getD W 0 ^^^ q.m4_words.getD W 0) |||
          (p.m6_words.getD W 0 ^^^ q.m6_words.getD W 0) = 0 then
        cmpWordsGo p q W
      else
        if p.m4_words.getD W 0 &&&
            (1 <<< (bitLen ((p.m4_words.getD W 0 ^^^ q.m4_words.getD W 0) |||
              (p.m6_words.getD W 0 ^^^ q.m6_words.getD W 0)) - 1)) ≠
           q.m4_words.getD W 0 &&&
            (1 <<< (bitLen ((p.m4_words.getD W 0 ^^^ q.m4_words.getD W 0) |||
              (p.m6_words.getD W 0 ^^^ q.m6_words.getD W 0)) - 1)) then
          (if p.m4_words.getD W 0 &&&
              (1 <<< (bitLen ((p.m4_words.getD W 0 ^^^ q.m4_words.getD W 0) |||
                (p.m6_words.getD W 0 ^^^ q.m6_words.getD W 0)) - 1)) ≠ 0 then
            Ordering.gt
          else Ordering.lt)
        else if p.m6_words.getD W 0 &&&
            (1 <<< (bitLen ((p.m4_words.getD W 0 ^^^ q.m4_words.getD W 0) |||
              (p.m6_words.getD W 0 ^^^ q.m6_words.getD W 0)) - 1)) ≠
           q.m6_words.getD W 0 &&&
            (1 <<< (bitLen ((p.m4_words.getD W 0 ^^^ q.m4_words.getD W 0) |||
              (p.m6_words.getD W 0 ^^^ q.m6_words.getD W 0)) - 1)) then
          (if p.m6_words.getD W 0 &&&
              (1 <<< (bitLen ((p.m4_words.getD W 0 ^^^ q.m4_words.getD W 0) |||
                (p.m6_words.getD W 0 ^^^ q.m6_words.getD W 0)) - 1)) ≠ 0 then
            Ordering.gt
          else Ordering.lt)
        else Ordering.eq) := rfl

theorem cmpWordsGo_spec {p q : PairNumber}
    (hwp : ∀ j, p.m4_words.getD j 0 < 2 ^ 64 ∧ p.m6_words.getD j 0 < 2 ^ 64)
    (hwq : ∀ j, q.m4_words.getD j 0 < 2 ^ 64 ∧ q.m6_words.getD j 0 < 2 ^ 64) :
    ∀ W,
    (∀ i, 64 * W ≤ i → streamBit p.m4_words i = streamBit q.m4_words i ∧
      streamBit p.m6_words i = streamBit q.m6_words i) →
    cmpWordsGo p q W =
      compare (streamsVal p.m4_words p.m6_words (64 * W))
        (streamsVal q.m4_words q.m6_words (64 * W)) := by
  intro W
  induction W with
  | zero =>
    intro _
    simp only [cmpWordsGo, Nat.mul_zero, streamsVal]
    decide
  | succ W ih =>
    intro heq
    rw [cmpWordsGo_succ]
    set a4 := p.m4_words.getD W 0 with ha4
    set b4 := q.m4_words.getD W 0 with hb4
    set a6 := p.m6_words.getD W 0 with ha6
    set b6 := q.m6_words.getD W 0 with hb6
    by_cases hdiff : (a4 ^^^ b4) ||| (a6 ^^^ b6) = 0
    · rw [if_pos hdiff]
      obtain ⟨hx4, hx6⟩ := (lor_eq_zero_iff_nat _ _).mp hdiff
      have h44 : a4 = b4 := Nat.xor_eq_zero.mp hx4
      have h66 : a6 = b6 := Nat.xor_eq_zero.mp hx6
      have heq' : ∀ i, 64 * W ≤ i →
          streamBit p.m4_words i = streamBit q.m4_words i ∧
          streamBit p.m6_words i = streamBit q.m6_words i := by
        intro i hi
        rcases Nat.lt_or_ge i (64 * (W + 1)) with hilt | hige
        · have hb : i - 64 * W < 64 := by omega
          have hieq : i = 64 * W + (i - 64 * W) := by omega
          rw [hieq, streamBit_word _ _ _ hb, streamBit_word _ _ _ hb,
            streamBit_word _ _ _ hb, streamBit_word _ _ _ hb, ← ha4, ← hb4,
            ← ha6, ← hb6, h44, h66]
          exact ⟨rfl, rfl⟩
        · exact heq i (by omega)
      have hval : streamsVal p.m4_words p.m6_words (64 * (W + 1)) +
          streamsVal q.m4_words q.m6_words (64 * W) =
          streamsVal q.m4_words q.m6_words (64 * (W + 1)) +
          streamsVal p.m4_words p.m6_words (64 * W) := by
        apply streamsVal_add_congr (by omega)
        intro i h1 h2
        obtain ⟨e4, e6⟩ := heq' i h1
        unfold pairVal
        rw [e4, e6]
      rw [ih (fun i hi => heq' i (by omega))]
      exact (nat_compare_congr hval).symm
    · rw [if_neg hdiff]
      have hd4 : a4 < 2 ^ 64 := (hwp W).1
      have hd6 : a6 < 2 ^ 64 := (hwp W).2
      have he4 : b4 < 2 ^ 64 := (hwq W).1
      have he6 : b6 < 2 ^ 64 := (hwq W).2
      set diff := (a4 ^^^ b4) ||| (a6 ^^^ b6) with hdiffdef
      have hdlt : diff < 2 ^ 64 :=
        lor_lt_two_pow (xor_lt_two_pow hd4 he4) (xor_lt_two_pow hd6 he6)
      have hdpos : 0 < diff := by omega
      set t := bitLen diff - 1 with htdef
      have ht64 : t < 64 := by
        have h1 := bitLen_pos hdpos
        have h2 : bitLen diff ≤ 64 := by
          by_contra hc
          have h3 := bitLen_le hdpos
          have h4 : (2 : Nat) ^ 64 ≤ 2 ^ (bitLen diff - 1) :=
            Nat.pow_le_pow_right (by norm_num) (by omega)
          omega
        omega
      have htop : diff.testBit t = true := testBit_bitLen_top hdpos
      have hhigh : ∀ b, t < b → a4.testBit b = b4.testBit b ∧
          a6.testBit b = b6.testBit b := by
        intro b hb
        have hfb : diff.testBit b = false := by
          apply testBit_ge_bitLen
          omega
        rw [hdiffdef, Nat.testBit_lor, Nat.testBit_xor, Nat.testBit_xor] at hfb
        obtain ⟨hf1, hf2⟩ := Bool.or_eq_false_iff.mp hfb
        constructor
        · revert hf1
          cases a4.testBit b <;> cases b4.testBit b <;> simp
        · revert hf2
          cases a6.testBit b <;> cases b6.testBit b <;> simp
      have hpair_high : ∀ i, 64 * W + t < i → i < 64 * (W + 1) →
          pairVal p.m4_words p.m6_words i = pairVal q.m4_words q.m6_words i := by
        intro i h1 h2
        have hb : i - 64 * W < 64 := by omega
        have hieq : i = 64 * W + (i - 64 * W) := by omega
        obtain ⟨x4, x6⟩ := hhigh (i - 64 * W) (by omega)
        unfold pairVal
        rw [hieq, streamBit_word _ _ _ hb, streamBit_word _ _ _ hb,
          streamBit_word _ _ _ hb, streamBit_word _ _ _ hb, ← ha4, ← hb4,
          ← ha6, ← hb6, x4, x6]
      have hdb : a4.testBit t ≠ b4.testBit t ∨ a6.testBit t ≠ b6.testBit t := by
        rw [hdiffdef, Nat.testBit_lor, Nat.testBit_xor, Nat.testBit_xor] at htop
        by_contra hc
        push_neg at hc
        rw [hc.1, hc.2] at htop
        simp at htop
      by_cases hm4 : a4.testBit t ≠ b4.testBit t
      · rw [if_pos ((and_mask_ne_iff a4 b4 t).mpr hm4)]
        by_cases ha4t : a4.testBit t = true
        · have hb4t : b4.testBit t = false := by
            revert hm4
            rw [ha4t]
            cases b4.testBit t <;> simp
          rw [if_pos ((and_mask_ne_zero_iff a4 t).mpr ha4t)]
          have hgt : pairVal q.m4_words q.m6_words (64 * W + t) <
              pairVal p.m4_words p.m6_words (64 * W + t) := by
            unfold pairVal
            rw [streamBit_word _ _ _ ht64, streamBit_word _ _ _ ht64,
              streamBit_word _ _ _ ht64, streamBit_word _ _ _ ht64,
              ← ha4, ← hb4, ← ha6, ← hb6, ha4t, hb4t]
            cases b6.testBit t <;> cases a6.testBit t <;> decide
          have hcd := compare_decided_at_pair (N := 64 * (W + 1))
            (I := 64 * W + t) (by omega) (fun i h1 h2 => hpair_high i h1 h2) hgt
          rw [Nat.compare_eq_gt.mpr hcd]
        · have ha4f : a4.testBit t = false := by
            revert ha4t
            cases a4.testBit t <;> simp
          have hb4t : b4.testBit t = true := by
            revert hm4
            rw [ha4f]
            cases b4.testBit t <;> simp
          rw [if_neg (by rw [not_not, Nat.shiftLeft_eq, Nat.one_mul,
            Nat.and_two_pow, ha4f]; simp)]
          have hgt : pairVal p.m4_words p.m6_words (64 * W + t) <
              pairVal q.m4_words q.m6_words (64 * W + t) := by
            unfold pairVal
            rw [streamBit_word _ _ _ ht64, streamBit_word _ _ _ ht64,
              streamBit_word _ _ _ ht64, streamBit_word _ _ _ ht64,
              ← ha4, ← hb4, ← ha6, ← hb6, ha4f, hb4t]
            cases b6.testBit t <;> cases a6.testBit t <;> decide
          have hcd := compare_decided_at_pair (N := 64 * (W + 1))
            (I := 64 * W + t) (by omega)
            (fun i h1 h2 => (hpair_high i h1 h2).symm) hgt
          rw [Nat.compare_eq_lt.mpr hcd]
      · push_neg at hm4
        rw [if_neg (by rw [not_not, Nat.shiftLeft_eq, Nat.one_mul,
          Nat.and_two_pow, Nat.and_two_pow, hm4])]
        have hm6 : a6.testBit t ≠ b6.testBit t := by
          rcases hdb with h | h
          · exact absurd hm4 h
          · exact h
        rw [if_pos ((and_mask_ne_iff a6 b6 t).mpr hm6)]
        by_cases ha6t : a6.testBit t = true
        · have hb6t : b6.testBit t = false := by
            revert hm6
            rw [ha6t]
            cases b6.testBit t <;> simp
          rw [if_pos ((and_mask_ne_zero_iff a6 t).mpr ha6t)]
          have hgt : pairVal q.m4_words q.m6_words (64 * W + t) <
              pairVal p.m4_words p.m6_words (64 * W + t) := by
            unfold pairVal
            rw [streamBit_word _ _ _ ht64, streamBit_word _ _ _ ht64,
              streamBit_word _ _ _ ht64, streamBit_word _ _ _ ht64,
              ← ha4, ← hb4, ← ha6, ← hb6, ha6t, hb6t, hm4]
            cases b4.testBit t <;> decide
          have hcd := compare_decided_at_pair (N := 64 * (W + 1))
            (I := 64 * W + t) (by omega) (fun i h1 h2 => hpair_high i h1 h2) hgt
          rw [Nat.compare_eq_gt.mpr hcd]
        · have ha6f : a6.testBit t = false := by
            revert ha6t
            cases a6.testBit t <;> simp
          have hb6t : b6.testBit t = true := by
            revert hm6
            rw [ha6f]
            cases b6.testBit t <;> simp
          rw [if_neg (by rw [not_not, Nat.shiftLeft_eq, Nat.one_mul,
            Nat.and_two_pow, ha6f]; simp)]
          have hgt : pairVal p.m4_words p.m6_words (64 * W + t) <
              pairVal q.m4_words q.m6_words (64 * W + t) := by
            unfold pairVal
            rw [streamBit_word _ _ _ ht64, streamBit_word _ _ _ ht64,
              streamBit_word _ _ _ ht64, streamBit_word _ _ _ ht64,
              ← ha4, ← hb4, ← ha6, ← hb6, ha6f, hb6t, hm4]
            cases b4.testBit t <;> decide
          have hcd := compare_decided_at_pair (N := 64 * (W + 1))
            (I := 64 * W + t) (by omega)
            (fun i h1 h2 => (hpair_high i h1 h2).symm) hgt
          rw [Nat.compare_eq_lt.mpr hcd]

theorem pairVal_eq_zero_of_bits_false {m4 m6 : List Nat} {i : Nat}
    (h4 : streamBit m4 i = false) (h6 : streamBit m6 i = false) :
    pairVal m4 m6 i = 0 := by
  unfold pairVal
  rw [h4, h6]
  rfl

theorem pn_cmp_eq_compare {p q : PairNumber} (hp : p.Canonical) (hq : q.Canonical) :
    p.cmp q = compare p.val q.val := by
  unfold PairNumber.cmp
  rcases Nat.lt_trichotomy p.pair_count q.pair_count with hk | hk | hk
  · rw [Nat.compare_eq_lt.mpr hk,
      Nat.compare_eq_lt.mpr (canonical_val_lt_of_k_lt hp hq hk)]
  · rw [Nat.compare_eq_eq.mpr hk]
    simp only
    have hwp : ∀ j, p.m4_words.getD j 0 < 2 ^ 64 ∧ p.m6_words.getD j 0 < 2 ^ 64 :=
      fun j => ⟨hp.1.getD_lt j, hp.2.1.getD_lt j⟩
    have hwq : ∀ j, q.m4_words.getD j 0 < 2 ^ 64 ∧ q.m6_words.getD j 0 < 2 ^ 64 :=
      fun j => ⟨hq.1.getD_lt j, hq.2.1.getD_lt j⟩
    have hlen : p.m4_words.length = (p.pair_count + 63) / 64 := hp.1.1
    have hcover : p.pair_count ≤ 64 * p.m4_words.length := by
      rw [hlen]; omega
    have hbits : ∀ i, 64 * p.m4_words.length ≤ i →
        streamBit p.m4_words i = streamBit q.m4_words i ∧
        streamBit p.m6_words i = streamBit q.m6_words i := by
      intro i hi
      rw [hp.1.bit_false (by omega), hq.1.bit_false (by omega),
        hp.2.1.bit_false (by omega), hq.2.1.bit_false (by rw [← hk]; omega)]
      exact ⟨rfl, rfl⟩
    rw [cmpWordsGo_spec hwp hwq p.m4_words.length hbits]
    have hvp : streamsVal p.m4_words p.m6_words (64 * p.m4_words.length) = p.val := by
      unfold PairNumber.val
      exact streamsVal_extend _ _ hcover (fun i h1 h2 =>
        pairVal_eq_zero_of_bits_false (hp.1.bit_false h1) (hp.2.1.bit_false h1))
    have hvq : streamsVal q.m4_words q.m6_words (64 * p.m4_words.length) = q.val := by
      unfold PairNumber.val
      have hcover' : q.pair_count ≤ 64 * p.m4_words.length := by rw [← hk]; omega
      exact streamsVal_extend _ _ hcover' (fun i h1 h2 =>
        pairVal_eq_zero_of_bits_false (hq.1.bit_false h1) (hq.2.1.bit_false h1))
    rw [hvp, hvq]
  · rw [Nat.compare_eq_gt.mpr hk,
      Nat.compare_eq_gt.mpr (canonical_val_lt_of_k_lt hq hp hk)]

theorem blt_iff_val_lt {p q : PairNumber} (hp : p.Canonical) (hq : q.Canonical) :
    p.blt q = true ↔ p.val < q.val := by
  unfold PairNumber.blt
  rw [pn_cmp_eq_compare hp hq]
  rcases Nat.lt_trichotomy p.val q.val with h | h | h
  · rw [Nat.compare_eq_lt.mpr h]
    exact ⟨fun _ => h, fun _ => rfl⟩
  · rw [Nat.compare_eq_eq.mpr h]
    exact ⟨fun hc => absurd hc (by decide), fun hc => by omega⟩
  · rw [Nat.compare_eq_gt.mpr h]
    exact ⟨fun hc => absurd hc (by decide), fun hc => by omega⟩

/-! ## Postprocess: MSB trim -/

theorem shiftTrimGo_spec (m4 m6 : List Nat) :
    ∀ f k, 1 ≤ k → k ≤ f + 1 →
    (1 ≤ shiftTrimGo m4 m6 f k ∧ shiftTrimGo m4 m6 f k ≤ k ∧
     (∀ i, shiftTrimGo m4 m6 f k ≤ i → i < k → pairVal m4 m6 i = 0) ∧
     (1 < shiftTrimGo m4 m6 f k →
       pairVal m4 m6 (shiftTrimGo m4 m6 f k - 1) ≠ 0)) := by
  intro f
  induction f with
  | zero =>
    intro k h1 h2
    have hk : k = 1 := by omega
    subst hk
    simp only [shiftTrimGo]
    refine ⟨by omega, by omega, by omega, by omega⟩
  | succ f ih =>
    intro k h1 h2
    by_cases hk1 : k ≤ 1
    · have hk : k = 1 := by omega
      subst hk
      simp only [shiftTrimGo, if_pos (by omega : (1 : Nat) ≤ 1)]
      refine ⟨by omega, by omega, by omega, by omega⟩
    · simp only [shiftTrimGo, if_neg hk1]
      by_cases hz : streamBit m4 (k - 1) = false ∧ streamBit m6 (k - 1) = false
      · rw [if_pos hz]
        obtain ⟨ih1, ih2, ih3, ih4⟩ := ih (k - 1) (by omega) (by omega)
        refine ⟨ih1, by omega, ?_, ih4⟩
        intro i hi1 hi2
        rcases Nat.lt_or_ge i (k - 1) with h | h
        · exact ih3 i hi1 h
        · have : i = k - 1 := by omega
          subst this
          exact pairVal_eq_zero_of_bits_false hz.1 hz.2
      · rw [if_neg hz]
        refine ⟨by omega, by omega, by omega, ?_⟩
        intro _
        rw [pairVal_ne_zero_iff]
        rcases Bool.eq_false_or_eq_true (streamBit m4 (k - 1)) with h4 | h4
        · exact Or.inl h4
        · rcases Bool.eq_false_or_eq_true (streamBit m6 (k - 1)) with h6 | h6
          · exact Or.inr h6
          · exact absurd ⟨h4, h6⟩ hz

theorem trimPairGo_eq_shiftTrimGo (m4 m6 : List Nat) :
    ∀ f k, k ≤ 64 * m4.length →
    trimPairGo m4 m6 f k = shiftTrimGo m4 m6 f k := by
  intro f
  induction f with
  | zero => intro k _; rfl
  | succ f ih =>
    intro k hk
    simp only [trimPairGo, shiftTrimGo]
    by_cases hk1 : k ≤ 1
    · rw [if_pos hk1, if_pos hk1]
    · rw [if_neg hk1, if_neg hk1]
      have hguard : ¬ m4.length ≤ (k - 1) / 64 := by omega
      rw [if_neg hguard]
      by_cases hz : streamBit m4 (k - 1) = false ∧ streamBit m6 (k - 1) = false
      · rw [if_pos hz, if_pos hz, ih (k - 1) (by omega)]
      · rw [if_neg hz, if_neg hz]

theorem trimBitsGo_eq_shiftTrimGo (m4 m6 : List Nat) :
    ∀ f k, trimBitsGo m4 m6 f k = shiftTrimGo m4 m6 f k := by
  intro f
  induction f with
  | zero => intro k; rfl
  | succ f ih =>
    intro k
    simp only [trimBitsGo, shiftTrimGo]
    by_cases hk1 : k ≤ 1
    · rw [if_pos hk1, if_pos hk1]
    · rw [if_neg hk1, if_neg hk1]
      by_cases hz : streamBit m4 (k - 1) = false ∧ streamBit m6 (k - 1) = false
      · rw [if_pos hz, if_pos hz, ih (k - 1)]
      · rw [if_neg hz, if_neg hz]

theorem trim_pair_count_spec (m4 m6 : List Nat) {count : Nat} (h1 : 1 ≤ count)
    (hcov : count ≤ 64 * m4.length) :
    (1 ≤ trim_pair_count m4 m6 count ∧ trim_pair_count m4 m6 count ≤ count ∧
     (∀ i, trim_pair_count m4 m6 count ≤ i → i < count → pairVal m4 m6 i = 0) ∧
     (1 < trim_pair_count m4 m6 count →
       pairVal m4 m6 (trim_pair_count m4 m6 count - 1) ≠ 0)) := by
  unfold trim_pair_count
  rw [if_neg (by omega), trimPairGo_eq_shiftTrimGo m4 m6 count count hcov]
  exact shiftTrimGo_spec m4 m6 count count h1 (by omega)

/-! ## Postprocess: trailing-zero count -/

theorem fastBit_streamsVal (m4 m6 : List Nat) (k j : Nat) :
    (streamsVal m4 m6 k).testBit j =
      (decide (j < 2 * k) && fastBit m4 m6 j) := by
  rw [testBit_streamsVal]
  unfold fastBit
  by_cases hj : j < 2 * k
  · rw [if_pos hj]
    simp [hj]
  · rw [if_neg hj]
    simp [hj]

theorem streamsVal_eq_zero (m4 m6 : List Nat) {k : Nat}
    (h : ∀ i < k, pairVal m4 m6 i = 0) : streamsVal m4 m6 k = 0 := by
  have := streamsVal_extend m4 m6 (Nat.zero_le k) (fun i _ h2 => h i h2)
  rw [this]
  rfl

theorem ctzPackedGo_spec (m4 m6 : List Nat) (P : Nat)
    (hw4 : ∀ j, m4.getD j 0 < 2 ^ 64) (hw6 : ∀ j, m6.getD j 0 < 2 ^ 64)
    (hP : pairVal m4 m6 P ≠ 0) (hmin : ∀ i < P, pairVal m4 m6 i = 0) :
    ∀ f w, (∀ i < 64 * w, pairVal m4 m6 i = 0) → P < 64 * (w + f) →
    ctzPackedGo m4 m6 f w (128 * w) =
      2 * P + (if streamBit m6 P then 0 else 1) := by
  intro f
  induction f with
  | zero =>
    intro w hz hPf
    have hge : 64 * w ≤ P := by
      by_contra hc
      exact hP (hz P (by omega))
    omega
  | succ f ih =>
    intro w hz hPf
    have hge : 64 * w ≤ P := by
      by_contra hc
      exact hP (hz P (by omega))
    simp only [ctzPackedGo]
    by_cases hor : m4.getD w 0 ||| m6.getD w 0 = 0
    · rw [if_pos hor]
      have hz' : ∀ i < 64 * (w + 1), pairVal m4 m6 i = 0 := by
        intro i hi
        rcases Nat.lt_or_ge i (64 * w) with h | h
        · exact hz i h
        · have hb : i - 64 * w < 64 := by omega
          have hieq : i = 64 * w + (i - 64 * w) := by omega
          obtain ⟨h40, h60⟩ := (lor_eq_zero_iff_nat _ _).mp hor
          apply pairVal_eq_zero_of_bits_false
          · rw [hieq, streamBit_word _ _ _ hb, h40]
            exact Nat.zero_testBit _
          · rw [hieq, streamBit_word _ _ _ hb, h60]
            exact Nat.zero_testBit _
      have hPub : P < 64 * ((w + 1) + f) := by omega
      have := ih (w + 1) hz' hPub
      rw [show 128 * w + 128 = 128 * (w + 1) from by ring]
      exact this
    · rw [if_neg hor]
      have horpos : 0 < m4.getD w 0 ||| m6.getD w 0 := by omega
      have horlt : m4.getD w 0 ||| m6.getD w 0 < 2 ^ 64 :=
        lor_lt_two_pow (hw4 w) (hw6 w)
      set tz := u64_trailing_zeros (m4.getD w 0 ||| m6.getD w 0) with htzdef
      have htzeq : tz = ctzNat (m4.getD w 0 ||| m6.getD w 0) := by
        rw [htzdef]
        unfold u64_trailing_zeros
        rw [if_neg (by omega)]
      have htz64 : tz < 64 := by
        rw [htzeq]
        exact ctzNat_lt_of_lt horpos horlt
      obtain ⟨hbit, hlow⟩ := ctzNat_spec horpos
      rw [← htzeq] at hbit hlow
      have horbit : ∀ b, (m4.getD w 0 ||| m6.getD w 0).testBit b =
          (streamBit m4 (64 * w + b) || streamBit m6 (64 * w + b)) ∨ 64 ≤ b := by
        intro b
        rcases Nat.lt_or_ge b 64 with hb | hb
        · left
          rw [Nat.testBit_lor, streamBit_word _ _ _ hb, streamBit_word _ _ _ hb]
        · right; exact hb
      have hPeq : P = 64 * w + tz := by
        have h1 : pairVal m4 m6 (64 * w + tz) ≠ 0 := by
          rw [pairVal_ne_zero_iff]
          rcases horbit tz with h | h
          · rw [h] at hbit
            rcases Bool.or_eq_true_iff.mp hbit with hx | hx
            · exact Or.inl hx
            · exact Or.inr hx
          · omega
        have h2 : ∀ i, 64 * w ≤ i → i < 64 * w + tz → pairVal m4 m6 i = 0 := by
          intro i hi1 hi2
          have hb : i - 64 * w < 64 := by omega
          have hlo := hlow (i - 64 * w) (by omega)
          rcases horbit (i - 64 * w) with h | h
          · rw [h] at hlo
            obtain ⟨hx4, hx6⟩ := Bool.or_eq_false_iff.mp hlo
            apply pairVal_eq_zero_of_bits_false
            · rw [show i = 64 * w + (i - 64 * w) from by omega]
              exact hx4
            · rw [show i = 64 * w + (i - 64 * w) from by omega]
              exact hx6
          · omega
        rcases Nat.lt_trichotomy P (64 * w + tz) with h | h | h
        · rcases Nat.lt_or_ge P (64 * w) with hh | hh
          · exact absurd (hz P (by omega)) hP
          · exact absurd (h2 P hh h) hP
        · exact h
        · exact absurd (hmin _ h) h1
      have hbound : (m6.getD w 0 >>> tz) &&& 1 = (streamBit m6 P).toNat := by
        rw [shiftRight_and_one, hPeq, streamBit_word _ _ _ htz64]
      by_cases hm6 : streamBit m6 P
      · rw [if_neg (by rw [hbound, hm6]; simp), if_pos hm6, hPeq]
        ring
      · rw [if_pos (by rw [hbound]; revert hm6; cases streamBit m6 P <;> simp),
          if_neg hm6, hPeq]
        ring

theorem ctz_packed_spec (m4 m6 : List Nat) {count : Nat}
    (hw4 : ∀ j, m4.getD j 0 < 2 ^ 64) (hw6 : ∀ j, m6.getD j 0 < 2 ^ 64)
    (h4 : ∀ i, count ≤ i → streamBit m4 i = false)
    (h6 : ∀ i, count ≤ i → streamBit m6 i = false)
    (hpos : 0 < streamsVal m4 m6 count) :
    count_trailing_zeros_packed m4 m6 count = ctzNat (streamsVal m4 m6 count) := by
  have hex : ∃ i, pairVal m4 m6 i ≠ 0 := by
    by_contra hc
    push_neg at hc
    have : streamsVal m4 m6 count = 0 :=
      streamsVal_eq_zero m4 m6 (fun i _ => hc i)
    omega
  set P := Nat.find hex with hPdef
  have hP : pairVal m4 m6 P ≠ 0 := Nat.find_spec hex
  have hmin : ∀ i < P, pairVal m4 m6 i = 0 := by
    intro i hi
    by_contra hc
    exact Nat.find_min hex hi hc
  have hPcount : P < count := by
    by_contra hc
    apply hP
    apply pairVal_eq_zero_of_bits_false (h4 P (by omega)) (h6 P (by omega))
  have hctz : ctzNat (streamsVal m4 m6 count) =
      2 * P + (if streamBit m6 P then 0 else 1) := by
    apply ctzNat_unique hpos
    · by_cases hm6 : streamBit m6 P
      · rw [if_pos hm6, Nat.add_zero, fastBit_streamsVal]
        unfold fastBit
        rw [if_pos (show 2 * P % 2 = 0 by omega),
          show 2 * P / 2 = P from by omega, hm6]
        simp
        omega
      · have hm4 : streamBit m4 P = true := by
          rcases (pairVal_ne_zero_iff m4 m6 P).mp hP with h | h
          · exact h
          · exact absurd h hm6
        rw [if_neg hm6, fastBit_streamsVal]
        unfold fastBit
        rw [if_neg (show ¬ ((2 * P + 1) % 2 = 0) by omega),
          show (2 * P + 1) / 2 = P from by omega, hm4]
        simp
        omega
    · intro j hj
      rcases Nat.lt_or_ge (j / 2) P with hlt | hge
      · have hz2 := hmin (j / 2) hlt
        have hx : streamBit m4 (j / 2) = false ∧ streamBit m6 (j / 2) = false := by
          unfold pairVal at hz2
          constructor
          · revert hz2
            cases streamBit m4 (j / 2) <;> simp
          · revert hz2
            cases streamBit m6 (j / 2) <;> simp
        rw [fastBit_streamsVal]
        unfold fastBit
        split <;> simp [hx.1, hx.2]
      · have hd : (if streamBit m6 P = true then 0 else 1) ≤ 1 := by
          split <;> omega
        have hjP : j / 2 = P := by omega
        by_cases hm6 : streamBit m6 P
        · rw [if_pos hm6] at hj
          omega
        · rw [if_neg hm6] at hj
          have hje : j = 2 * P := by omega
          subst hje
          rw [fastBit_streamsVal]
          unfold fastBit
          rw [if_pos (show 2 * P % 2 = 0 by omega),
            show 2 * P / 2 = P from by omega]
          revert hm6
          cases streamBit m6 P <;> simp
  rw [hctz]
  unfold count_trailing_zeros_packed
  have := ctzPackedGo_spec m4 m6 P hw4 hw6 hP hmin ((count + 63) / 64) 0
    (by omega) (by omega)
  rw [show (128 : Nat) * 0 = 0 from rfl] at this
  exact this

/-! ## Postprocess: masking, truncation, canonicalization -/

theorem mask_top_length (ws : List Nat) (k : Nat) :
    (mask_top ws k).length = ws.length := by
  unfold mask_top
  split
  · rfl
  · split
    · rfl
    · exact List.length_set ws _ _

theorem mask_top_getD_lt (ws : List Nat) (k : Nat)
    (hw : ∀ j, ws.getD j 0 < 2 ^ 64) : ∀ j, (mask_top ws k).getD j 0 < 2 ^ 64 := by
  intro j
  unfold mask_top
  split
  · exact hw j
  · split
    · exact hw j
    · rw [listGetD_set]
      split
      · exact land_lt_two_pow _ (hw _)
      · exact hw j

theorem mask_top_bit (ws : List Nat) (k : Nat) (hL : ws.length = (k + 63) / 64)
    (hk : 1 ≤ k) (i : Nat) :
    streamBit (mask_top ws k) i = (decide (i < k) && streamBit ws i) := by
  have hLpos : 1 ≤ ws.length := by
    rw [hL]; omega
  unfold mask_top
  rw [if_neg (by
    intro hc
    rw [List.isEmpty_iff] at hc
    rw [hc] at hLpos
    simp at hLpos)]
  by_cases hr : k % 64 = 0
  · rw [if_pos hr]
    rcases Nat.lt_or_ge i k with hi | hi
    · simp [hi]
    · have hwords : k = 64 * ws.length := by
        rw [hL]
        omega
      have : ws.length ≤ i / 64 := by omega
      unfold streamBit
      rw [List.getD_eq_default _ _ this, Nat.zero_testBit]
      simp [Nat.not_lt.mpr hi]
  · rw [if_neg hr]
    have hlast : ws.length - 1 = (k - 1) / 64 := by
      rw [hL]; omega
    have hkdecomp : k = 64 * (ws.length - 1) + k % 64 := by
      rw [hL]; omega
    unfold streamBit
    rw [listGetD_set]
    by_cases hsame : ws.length - 1 = i / 64
    · rw [if_pos ⟨hsame, by omega⟩, Nat.testBit_land,
        Nat.shiftLeft_eq, Nat.one_mul, Nat.testBit_two_pow_sub_one, hsame]
      have hik : i < k ↔ i % 64 < k % 64 := by omega
      by_cases hi : i < k
      · simp [hi, hik.mp hi, Bool.and_comm]
      · have : ¬ i % 64 < k % 64 := fun hc => hi (hik.mpr hc)
        simp [hi, this]
    · rw [if_neg (fun hc => hsame hc.1)]
      rcases Nat.lt_or_ge (i / 64) (ws.length - 1) with hlt | hge
      · have : i < k := by omega
        simp [this]
      · have hge2 : ws.length ≤ i / 64 := by omega
        have : ¬ i < k := by omega
        rw [List.getD_eq_default _ _ hge2, Nat.zero_testBit]
        simp [this]

theorem take_bit (ws : List Nat) (t i : Nat) :
    streamBit (ws.take t) i = (decide (i / 64 < t) && streamBit ws i) := by
  unfold streamBit
  rw [listGetD_take]
  by_cases h : i / 64 < t
  · simp [h]
  · simp [h, Nat.zero_testBit]

theorem finalize_streams_spec (nm4 nm6 : List Nat) (npc : Nat)
    (hlen4 : (npc + 63) / 64 ≤ nm4.length) (hlen6 : (npc + 63) / 64 ≤ nm6.length)
    (hw4 : ∀ j, nm4.getD j 0 < 2 ^ 64) (hw6 : ∀ j, nm6.getD j 0 < 2 ^ 64)
    (hnpc : 1 ≤ npc) :
    StreamWF (mask_top (nm4.take ((shiftTrimGo nm4 nm6 npc npc + 63) / 64))
        (shiftTrimGo nm4 nm6 npc npc)) (shiftTrimGo nm4 nm6 npc npc) ∧
    StreamWF (mask_top (nm6.take ((shiftTrimGo nm4 nm6 npc npc + 63) / 64))
        (shiftTrimGo nm4 nm6 npc npc)) (shiftTrimGo nm4 nm6 npc npc) ∧
    1 ≤ shiftTrimGo nm4 nm6 npc npc ∧ shiftTrimGo nm4 nm6 npc npc ≤ npc ∧
    (1 < shiftTrimGo nm4 nm6 npc npc →
      pairVal (mask_top (nm4.take ((shiftTrimGo nm4 nm6 npc npc + 63) / 64))
          (shiftTrimGo nm4 nm6 npc npc))
        (mask_top (nm6.take ((shiftTrimGo nm4 nm6 npc npc + 63) / 64))
          (shiftTrimGo nm4 nm6 npc npc))
        (shiftTrimGo nm4 nm6 npc npc - 1) ≠ 0) ∧
    streamsVal (mask_top (nm4.take ((shiftTrimGo nm4 nm6 npc npc + 63) / 64))
        (shiftTrimGo nm4 nm6 npc npc))
      (mask_top (nm6.take ((shiftTrimGo nm4 nm6 npc npc + 63) / 64))
        (shiftTrimGo nm4 nm6 npc npc))
      (shiftTrimGo nm4 nm6 npc npc) = streamsVal nm4 nm6 npc := by
  obtain ⟨ht1, ht2, ht3, ht4⟩ := shiftTrimGo_spec nm4 nm6 npc npc hnpc (by omega)
  set k := shiftTrimGo nm4 nm6 npc npc with hkdef
  set fwc := (k + 63) / 64 with hfwcdef
  have hfwc4 : fwc ≤ nm4.length := by
    have : (k + 63) / 64 ≤ (npc + 63) / 64 := by omega
    omega
  have hfwc6 : fwc ≤ nm6.length := by
    have : (k + 63) / 64 ≤ (npc + 63) / 64 := by omega
    omega
  have hlen4' : (nm4.take fwc).length = (k + 63) / 64 := by
    rw [List.length_take]
    omega
  have hlen6' : (nm6.take fwc).length = (k + 63) / 64 := by
    rw [List.length_take]
    omega
  have hw4' : ∀ j, (nm4.take fwc).getD j 0 < 2 ^ 64 := by
    intro j
    rw [listGetD_take]
    split
    · exact hw4 j
    · exact Nat.pos_pow_of_pos _ (by norm_num)
  have hw6' : ∀ j, (nm6.take fwc).getD j 0 < 2 ^ 64 := by
    intro j
    rw [listGetD_take]
    split
    · exact hw6 j
    · exact Nat.pos_pow_of_pos _ (by norm_num)
  have hbit4 : ∀ i, streamBit (mask_top (nm4.take fwc) k) i =
      (decide (i < k) && streamBit nm4 i) := by
    intro i
    rw [mask_top_bit _ _ hlen4' ht1, take_bit]
    by_cases hi : i < k
    · have : i / 64 < fwc := by omega
      simp [hi, this]
    · simp [hi]
  have hbit6 : ∀ i, streamBit (mask_top (nm6.take fwc) k) i =
      (decide (i < k) && streamBit nm6 i) := by
    intro i
    rw [mask_top_bit _ _ hlen6' ht1, take_bit]
    by_cases hi : i < k
    · have : i / 64 < fwc := by omega
      simp [hi, this]
    · simp [hi]
  refine ⟨⟨by rw [mask_top_length]; exact hlen4', ?_, ?_⟩,
    ⟨by rw [mask_top_length]; exact hlen6', ?_, ?_⟩, ht1, ht2, ?_, ?_⟩
  · intro j _
    exact mask_top_getD_lt _ _ hw4' j
  · intro i _ hi
    rw [hbit4 i]
    simp [Nat.not_lt.mpr hi]
  · intro j _
    exact mask_top_getD_lt _ _ hw6' j
  · intro i _ hi
    rw [hbit6 i]
    simp [Nat.not_lt.mpr hi]
  · intro hk1
    have := ht4 hk1
    rw [pairVal_ne_zero_iff] at this ⊢
    rcases this with h | h
    · left
      rw [hbit4, h]
      simp
      omega
    · right
      rw [hbit6, h]
      simp
      omega
  · have hc : streamsVal (mask_top (nm4.take fwc) k)
        (mask_top (nm6.take fwc) k) k = streamsVal nm4 nm6 k := by
      apply streamsVal_congr
      intro i hi
      rw [hbit4, hbit6]
      simp [hi]
    rw [hc]
    exact (streamsVal_extend nm4 nm6 ht2 (fun i h1 h2 => ht3 i h1 h2)).symm

/-! ## Postprocess: the fastener right shift -/

theorem and_one_le (x : Nat) : x &&& 1 ≤ 1 := by
  rw [Nat.and_one_is_mod]
  omega

theorem fastBit_set_m4 (m4s m6s : List Nat) (op bval b : Nat) (hb : bval ≤ 1)
    (hlen : op / 64 < m4s.length) :
    fastBit (setStreamBit m4s op bval) m6s b =
      (fastBit m4s m6s b || (decide (b = 2 * op + 1) && decide (bval = 1))) := by
  unfold fastBit
  by_cases hp : b % 2 = 0
  · rw [if_pos hp, if_pos hp]
    have : ¬ b = 2 * op + 1 := by omega
    simp [this]
  · rw [if_neg hp, if_neg hp, streamBit_setStreamBit m4s op bval (b / 2) hb hlen]
    have heq : (b / 2 = op) ↔ (b = 2 * op + 1) := by omega
    by_cases hc : b / 2 = op
    · simp [hc, heq.mp hc, show (2 * op + 1) / 2 = op from by omega]
    · have hne : ¬ b = 2 * op + 1 := fun hcc => hc (heq.mpr hcc)
      simp [hc, hne]

theorem fastBit_set_m6 (m4s m6s : List Nat) (op bval b : Nat) (hb : bval ≤ 1)
    (hlen : op / 64 < m6s.length) :
    fastBit m4s (setStreamBit m6s op bval) b =
      (fastBit m4s m6s b || (decide (b = 2 * op) && decide (bval = 1))) := by
  unfold fastBit
  by_cases hp : b % 2 = 0
  · rw [if_pos hp, if_pos hp, streamBit_setStreamBit m6s op bval (b / 2) hb hlen]
    have heq : (b / 2 = op) ↔ (b = 2 * op) := by omega
    by_cases hc : b / 2 = op
    · simp [hc, heq.mp hc, show 2 * op / 2 = op from by omega]
    · have hne : ¬ b = 2 * op := fun hcc => hc (heq.mpr hcc)
      simp [hc, hne]
  · rw [if_neg hp, if_neg hp]
    have : ¬ b = 2 * op := by omega
    simp [this]

theorem window_extend (S : Nat → Bool) (o b : Nat) :
    ((decide (b < o) && S b) || (decide (b = o) && S o)) =
      (decide (b < o + 1) && S b) := by
  rcases Nat.lt_trichotomy b o with h | h | h
  · simp [h, show b < o + 1 from by omega, show ¬ b = o from by omega]
  · subst h
    simp
  · simp [show ¬ b < o from by omega, show ¬ b < o + 1 from by omega,
      show ¬ b = o from by omega]

theorem shiftCopyGo_spec (m4 m6 : List Nat) (pair_count d npc : Nat) :
    ∀ f out_bit st,
    (st : List Nat × List Nat).1.length = (npc + 63) / 64 →
    st.2.length = (npc + 63) / 64 →
    (∀ w, st.1.getD w 0 < 2 ^ 64) → (∀ w, st.2.getD w 0 < 2 ^ 64) →
    out_bit + f ≤ 2 * npc →
    (∀ b, fastBit st.1 st.2 b =
      (decide (b < out_bit) && (decide ((b + d) / 2 < pair_count) &&
        fastBit m4 m6 (b + d)))) →
    ((shiftCopyGo m4 m6 pair_count d f out_bit st).1.length = (npc + 63) / 64 ∧
     (shiftCopyGo m4 m6 pair_count d f out_bit st).2.length = (npc + 63) / 64 ∧
     (∀ w, (shiftCopyGo m4 m6 pair_count d f out_bit st).1.getD w 0 < 2 ^ 64) ∧
     (∀ w, (shiftCopyGo m4 m6 pair_count d f out_bit st).2.getD w 0 < 2 ^ 64) ∧
     (∀ b, fastBit (shiftCopyGo m4 m6 pair_count d f out_bit st).1
        (shiftCopyGo m4 m6 pair_count d f out_bit st).2 b =
      (decide (b < out_bit + f) && (decide ((b + d) / 2 < pair_count) &&
        fastBit m4 m6 (b + d))))) := by
  intro f
  induction f with
  | zero =>
    intro out_bit st h1 h2 h3 h4 h5 h6
    exact ⟨h1, h2, h3, h4, fun b => h6 b⟩
  | succ f ih =>
    intro out_bit st h1 h2 h3 h4 h5 h6
    simp only [shiftCopyGo]
    rw [show out_bit + (f + 1) = out_bit + 1 + f from by omega]
    set bv :=
      (if (out_bit + d) / 2 < pair_count then
        if (out_bit + d) % 2 = 1 then
          ((m4.getD ((out_bit + d) / 2 / 64) 0) >>> ((out_bit + d) / 2 % 64)) &&& 1
        else ((m6.getD ((out_bit + d) / 2 / 64) 0) >>> ((out_bit + d) / 2 % 64)) &&& 1
      else 0) with hbvdef
    have hbv1 : bv ≤ 1 := by
      rw [hbvdef]
      split
      · split <;> exact and_one_le _
      · omega
    have hbvval : decide (bv = 1) =
        (decide ((out_bit + d) / 2 < pair_count) && fastBit m4 m6 (out_bit + d)) := by
      rw [hbvdef]
      unfold fastBit
      by_cases hc : (out_bit + d) / 2 < pair_count
      · rw [if_pos hc, decide_eq_true hc, Bool.true_and]
        by_cases hp : (out_bit + d) % 2 = 1
        · rw [if_pos hp, if_neg (by omega : ¬ (out_bit + d) % 2 = 0),
            shiftRight_and_one]
          unfold streamBit
          cases (m4.getD ((out_bit + d) / 2 / 64) 0).testBit
            ((out_bit + d) / 2 % 64) <;> simp
        · rw [if_neg hp, if_pos (by omega : (out_bit + d) % 2 = 0),
            shiftRight_and_one]
          unfold streamBit
          cases (m6.getD ((out_bit + d) / 2 / 64) 0).testBit
            ((out_bit + d) / 2 % 64) <;> simp
      · rw [if_neg hc, decide_eq_false hc, Bool.false_and]
        simp
    have hop64 : out_bit / 2 / 64 < (npc + 63) / 64 := by
      have : out_bit / 2 < npc := by omega
      omega
    by_cases hodd : out_bit % 2 = 1
    · rw [if_pos hodd]
      apply ih (out_bit + 1)
      · rw [setStreamBit_length]
        exact h1
      · exact h2
      · exact setStreamBit_getD_lt st.1 _ _ hbv1 h3 (by omega)
      · exact h4
      · omega
      · intro b
        rw [fastBit_set_m4 st.1 st.2 (out_bit / 2) bv b hbv1 (by rw [h1]; exact hop64),
          show 2 * (out_bit / 2) + 1 = out_bit from by omega, h6 b, hbvval]
        exact window_extend
          (fun x => decide ((x + d) / 2 < pair_count) && fastBit m4 m6 (x + d))
          out_bit b
    · rw [if_neg hodd]
      apply ih (out_bit + 1)
      · exact h1
      · rw [setStreamBit_length]
        exact h2
      · exact h3
      · exact setStreamBit_getD_lt st.2 _ _ hbv1 h4 (by omega)
      · omega
      · intro b
        rw [fastBit_set_m6 st.1 st.2 (out_bit / 2) bv b hbv1 (by rw [h2]; exact hop64),
          show 2 * (out_bit / 2) = out_bit from by omega, h6 b, hbvval]
        exact window_extend
          (fun x => decide ((x + d) / 2 < pair_count) && fastBit m4 m6 (x + d))
          out_bit b

theorem maskTake_bit (ws : List Nat) (pc : Nat) (hlen : (pc + 63) / 64 ≤ ws.length)
    (hpc : 1 ≤ pc) (i : Nat) :
    streamBit (mask_top (ws.take ((pc + 63) / 64)) pc) i =
      (decide (i < pc) && streamBit ws i) := by
  have hlen' : (ws.take ((pc + 63) / 64)).length = (pc + 63) / 64 := by
    rw [List.length_take]
    omega
  rw [mask_top_bit _ _ hlen' hpc, take_bit]
  by_cases hi : i < pc
  · have : i / 64 < (pc + 63) / 64 := by omega
    simp [hi, this]
  · simp [hi]

theorem maskTake_WF (ws : List Nat) (pc : Nat) (hlen : (pc + 63) / 64 ≤ ws.length)
    (hw : ∀ j, ws.getD j 0 < 2 ^ 64) (hpc : 1 ≤ pc) :
    StreamWF (mask_top (ws.take ((pc + 63) / 64)) pc) pc := by
  have hlen' : (ws.take ((pc + 63) / 64)).length = (pc + 63) / 64 := by
    rw [List.length_take]
    omega
  have hw' : ∀ j, (ws.take ((pc + 63) / 64)).getD j 0 < 2 ^ 64 := by
    intro j
    rw [listGetD_take]
    split
    · exact hw j
    · exact Nat.pos_pow_of_pos _ (by norm_num)
  refine ⟨by rw [mask_top_length]; exact hlen',
    fun j _ => mask_top_getD_lt _ _ hw' j, ?_⟩
  intro i _ hi
  rw [maskTake_bit ws pc hlen hpc i]
  simp [Nat.not_lt.mpr hi]

theorem shift_right_bits_spec (m4 m6 : List Nat) (pair_count d : Nat)
    (hlen4 : (pair_count + 63) / 64 ≤ m4.length)
    (hlen6 : (pair_count + 63) / 64 ≤ m6.length)
    (hw4 : ∀ j, m4.getD j 0 < 2 ^ 64) (hw6 : ∀ j, m6.getD j 0 < 2 ^ 64)
    (hpc : 1 ≤ pair_count)
    (htop : 1 < pair_count → pairVal m4 m6 (pair_count - 1) ≠ 0)
    (hdle : d ≤ 2 * pair_count) :
    StreamWF (shift_right_bits m4 m6 pair_count d).1
      (shift_right_bits m4 m6 pair_count d).2.2 ∧
    StreamWF (shift_right_bits m4 m6 pair_count d).2.1
      (shift_right_bits m4 m6 pair_count d).2.2 ∧
    1 ≤ (shift_right_bits m4 m6 pair_count d).2.2 ∧
    (1 < (shift_right_bits m4 m6 pair_count d).2.2 →
      pairVal (shift_right_bits m4 m6 pair_count d).1
        (shift_right_bits m4 m6 pair_count d).2.1
        ((shift_right_bits m4 m6 pair_count d).2.2 - 1) ≠ 0) ∧
    streamsVal (shift_right_bits m4 m6 pair_count d).1
      (shift_right_bits m4 m6 pair_count d).2.1
      (shift_right_bits m4 m6 pair_count d).2.2 =
      streamsVal m4 m6 pair_count >>> d := by
  by_cases hd0 : d = 0
  · subst hd0
    unfold shift_right_bits
    rw [if_pos rfl]
    refine ⟨maskTake_WF m4 pair_count hlen4 hw4 hpc,
      maskTake_WF m6 pair_count hlen6 hw6 hpc, hpc, ?_, ?_⟩
    · intro hk1
      have := htop hk1
      rw [pairVal_ne_zero_iff] at this ⊢
      rcases this with h | h
      · left
        rw [maskTake_bit m4 pair_count hlen4 hpc, h]
        simp
        omega
      · right
        rw [maskTake_bit m6 pair_count hlen6 hpc, h]
        simp
        omega
    · rw [Nat.shiftRight_zero]
      apply streamsVal_congr
      intro i hi
      rw [maskTake_bit m4 pair_count hlen4 hpc, maskTake_bit m6 pair_count hlen6 hpc]
      simp [hi]
  · unfold shift_right_bits
    rw [if_neg hd0]
    by_cases hrem : 2 * pair_count - d = 0
    · rw [if_pos hrem]
      have hV : streamsVal m4 m6 pair_count >>> d = 0 := by
        have hlt : streamsVal m4 m6 pair_count < 2 ^ d := by
          have h1 : streamsVal m4 m6 pair_count < 4 ^ pair_count :=
            streamsVal_lt m4 m6 pair_count
          have h2 : (4 : Nat) ^ pair_count = 2 ^ (2 * pair_count) := four_pow _
          have h3 : (2 : Nat) ^ (2 * pair_count) ≤ 2 ^ d :=
            Nat.pow_le_pow_right (by norm_num) (by omega)
          omega
        rw [Nat.shiftRight_eq_div_pow]
        exact Nat.div_eq_of_lt hlt
      exact ⟨by decide, by decide, by decide, by decide, by rw [hV]; decide⟩
    · have hnpc1 : 1 ≤ shiftPreTrimCount pair_count d := by
        unfold shiftPreTrimCount
        rw [if_neg hd0]
        omega
      have hnpc2 : 2 * pair_count - d ≤ 2 * shiftPreTrimCount pair_count d := by
        unfold shiftPreTrimCount
        rw [if_neg hd0]
        omega
      rw [if_neg hrem, if_neg (by omega : ¬ shiftPreTrimCount pair_count d = 0)]
      have hB := shiftCopyGo_spec m4 m6 pair_count d (shiftPreTrimCount pair_count d)
        (2 * pair_count - d) 0
        (List.replicate ((shiftPreTrimCount pair_count d + 63) / 64) 0,
         List.replicate ((shiftPreTrimCount pair_count d + 63) / 64) 0)
        (List.length_replicate _ _) (List.length_replicate _ _)
        (fun w => by rw [listGetD_replicate]; exact Nat.pos_pow_of_pos _ (by norm_num))
        (fun w => by rw [listGetD_replicate]; exact Nat.pos_pow_of_pos _ (by norm_num))
        (by omega)
        (fun b => by
          unfold fastBit
          split <;> simp [streamBit_replicate])
      obtain ⟨hb1, hb2, hb3, hb4, hb5⟩ := hB
      have hval : streamsVal (shiftBuilt m4 m6 pair_count d).1
          (shiftBuilt m4 m6 pair_count d).2 (shiftPreTrimCount pair_count d) =
          streamsVal m4 m6 pair_count >>> d := by
        apply Nat.eq_of_testBit_eq
        intro j
        rw [fastBit_streamsVal, Nat.testBit_shiftRight, fastBit_streamsVal,
          show (shiftBuilt m4 m6 pair_count d).1 =
            (shiftCopyGo m4 m6 pair_count d (2 * pair_count - d) 0
              (List.replicate ((shiftPreTrimCount pair_count d + 63) / 64) 0,
               List.replicate ((shiftPreTrimCount pair_count d + 63) / 64) 0)).1
            from rfl,
          show (shiftBuilt m4 m6 pair_count d).2 =
            (shiftCopyGo m4 m6 pair_count d (2 * pair_count - d) 0
              (List.replicate ((shiftPreTrimCount pair_count d + 63) / 64) 0,
               List.replicate ((shiftPreTrimCount pair_count d + 63) / 64) 0)).2
            from rfl,
          hb5 j, show d + j = j + d from by omega]
        by_cases hj : j + d < 2 * pair_count
        · have c1 : j < 2 * shiftPreTrimCount pair_count d := by omega
          have c2 : j < 0 + (2 * pair_count - d) := by omega
          have c3 : (j + d) / 2 < pair_count := by omega
          simp [c1, c2, c3, hj]
          exact fun _ => by omega
        · have c2 : ¬ j < 0 + (2 * pair_count - d) := by omega
          simp [c2, hj]
          intro h1 h2 h3
          exact absurd (show j < 0 + (2 * pair_count - d) from by omega) c2
      have hF := finalize_streams_spec (shiftBuilt m4 m6 pair_count d).1
        (shiftBuilt m4 m6 pair_count d).2 (shiftPreTrimCount pair_count d)
        (le_of_eq hb1.symm) (le_of_eq hb2.symm) hb3 hb4 hnpc1
      obtain ⟨hf1, hf2, hf3, hf4, hf5, hf6⟩ := hF
      exact ⟨hf1, hf2, hf3, hf5, by
        have : streamsVal
            (mask_top ((shiftBuilt m4 m6 pair_count d).1.take
              ((shiftFinalK m4 m6 pair_count d + 63) / 64))
              (shiftFinalK m4 m6 pair_count d))
            (mask_top ((shiftBuilt m4 m6 pair_count d).2.take
              ((shiftFinalK m4 m6 pair_count d + 63) / 64))
              (shiftFinalK m4 m6 pair_count d))
            (shiftFinalK m4 m6 pair_count d) =
            streamsVal (shiftBuilt m4 m6 pair_count d).1
              (shiftBuilt m4 m6 pair_count d).2 (shiftPreTrimCount pair_count d) :=
          hf6
        rw [this, hval]⟩

theorem postprocess_spec (new_m4 new_m6 : List Nat) (raw : Nat)
    (hcov4 : raw ≤ 64 * new_m4.length) (hcov6 : raw ≤ 64 * new_m6.length)
    (hw4 : ∀ j, new_m4.getD j 0 < 2 ^ 64) (hw6 : ∀ j, new_m6.getD j 0 < 2 ^ 64)
    (h4 : ∀ i, raw ≤ i → streamBit new_m4 i = false)
    (h6 : ∀ i, raw ≤ i → streamBit new_m6 i = false)
    (hpos : 0 < streamsVal new_m4 new_m6 raw) :
    (postprocess new_m4 new_m6 raw).d = ctzNat (streamsVal new_m4 new_m6 raw) ∧
    (postprocess new_m4 new_m6 raw).exchanged =
      decide (ctzNat (streamsVal new_m4 new_m6 raw) % 2 = 1) ∧
    (postprocess new_m4 new_m6 raw).next.Canonical ∧
    (postprocess new_m4 new_m6 raw).next.val =
      streamsVal new_m4 new_m6 raw >>> ctzNat (streamsVal new_m4 new_m6 raw) := by
  have hraw1 : 1 ≤ raw := by
    by_contra hc
    have : raw = 0 := by omega
    subst this
    simp [streamsVal] at hpos
  obtain ⟨ht1, ht2, ht3, ht4⟩ := trim_pair_count_spec new_m4 new_m6 hraw1 hcov4
  have hVpc : streamsVal new_m4 new_m6 raw =
      streamsVal new_m4 new_m6 (trim_pair_count new_m4 new_m6 raw) :=
    streamsVal_extend new_m4 new_m6 ht2 ht3
  have hpos' : 0 < streamsVal new_m4 new_m6 (trim_pair_count new_m4 new_m6 raw) := by
    rw [← hVpc]
    exact hpos
  have hz4 : ∀ i, trim_pair_count new_m4 new_m6 raw ≤ i →
      streamBit new_m4 i = false := by
    intro i hi
    rcases Nat.lt_or_ge i raw with hlt | hge
    · rcases Bool.eq_false_or_eq_true (streamBit new_m4 i) with h | h
      · exact absurd (ht3 i hi hlt) ((pairVal_ne_zero_iff _ _ _).mpr (Or.inl h))
      · exact h
    · exact h4 i hge
  have hz6 : ∀ i, trim_pair_count new_m4 new_m6 raw ≤ i →
      streamBit new_m6 i = false := by
    intro i hi
    rcases Nat.lt_or_ge i raw with hlt | hge
    · rcases Bool.eq_false_or_eq_true (streamBit new_m6 i) with h | h
      · exact absurd (ht3 i hi hlt) ((pairVal_ne_zero_iff _ _ _).mpr (Or.inr h))
      · exact h
    · exact h6 i hge
  have hd : count_trailing_zeros_packed new_m4 new_m6
        (trim_pair_count new_m4 new_m6 raw) =
      ctzNat (streamsVal new_m4 new_m6 (trim_pair_count new_m4 new_m6 raw)) :=
    ctz_packed_spec new_m4 new_m6 hw4 hw6 hz4 hz6 hpos'
  have hdV : count_trailing_zeros_packed new_m4 new_m6
        (trim_pair_count new_m4 new_m6 raw) =
      ctzNat (streamsVal new_m4 new_m6 raw) := by
    rw [hd, ← hVpc]
  have hdle : count_trailing_zeros_packed new_m4 new_m6
        (trim_pair_count new_m4 new_m6 raw) ≤
      2 * trim_pair_count new_m4 new_m6 raw := by
    rw [hd]
    have h1 : streamsVal new_m4 new_m6 (trim_pair_count new_m4 new_m6 raw) <
        2 ^ (2 * trim_pair_count new_m4 new_m6 raw) := by
      have := streamsVal_lt new_m4 new_m6 (trim_pair_count new_m4 new_m6 raw)
      rw [four_pow] at this
      exact this
    exact Nat.le_of_lt (ctzNat_lt_of_lt hpos' h1)
  have hlen4' : (trim_pair_count new_m4 new_m6 raw + 63) / 64 ≤ new_m4.length := by
    omega
  have hlen6' : (trim_pair_count new_m4 new_m6 raw + 63) / 64 ≤ new_m6.length := by
    omega
  obtain ⟨hs1, hs2, hs3, hs4, hs5⟩ := shift_right_bits_spec new_m4 new_m6
    (trim_pair_count new_m4 new_m6 raw)
    (count_trailing_zeros_packed new_m4 new_m6 (trim_pair_count new_m4 new_m6 raw))
    hlen4' hlen6' hw4 hw6 ht1 ht4 hdle
  have hne : ¬ trim_pair_count new_m4 new_m6 raw = 0 := by omega
  unfold postprocess
  rw [if_neg hne]
  refine ⟨hdV, by rw [hdV], ⟨hs1, hs2, hs3, hs4⟩, ?_⟩
  show streamsVal
      (shift_right_bits new_m4 new_m6 (trim_pair_count new_m4 new_m6 raw)
        (count_trailing_zeros_packed new_m4 new_m6
          (trim_pair_count new_m4 new_m6 raw))).1
      (shift_right_bits new_m4 new_m6 (trim_pair_count new_m4 new_m6 raw)
        (count_trailing_zeros_packed new_m4 new_m6
          (trim_pair_count new_m4 new_m6 raw))).2.1
      (shift_right_bits new_m4 new_m6 (trim_pair_count new_m4 new_m6 raw)
        (count_trailing_zeros_packed new_m4 new_m6
          (trim_pair_count new_m4 new_m6 raw))).2.2 = _
  rw [hs5, ← hVpc, hdV]

/-! ## The sequential scan computes `x·n + 1` -/

theorem toNat_le_one (b : Bool) : b.toNat ≤ 1 := by
  cases b <;> simp

theorem adderC_le_one (A B : Nat) : ∀ m, adderC A B m ≤ 1 := by
  intro m
  induction m with
  | zero => simp [adderC]
  | succ m ih =>
    unfold adderC
    have h1 := toNat_le_one (A.testBit (2 * m))
    have h2 := toNat_le_one (B.testBit (2 * m))
    have h3 := toNat_le_one (A.testBit (2 * m + 1))
    have h4 := toNat_le_one (B.testBit (2 * m + 1))
    omega

theorem adderOutR_le_one (A B m : Nat) : adderOutR A B m ≤ 1 := by
  unfold adderOutR
  omega

theorem adderOutL_le_one (A B m : Nat) : adderOutL A B m ≤ 1 := by
  unfold adderOutL
  omega

theorem adderC_succ (A B m : Nat) : adderC A B (m + 1) =
    ((A.testBit (2 * m + 1)).toNat + (B.testBit (2 * m + 1)).toNat +
      ((A.testBit (2 * m)).toNat + (B.testBit (2 * m)).toNat + adderC A B m) / 2) / 2 :=
  rfl

theorem adderSum_succ (A B m : Nat) : adderSum A B (m + 1) =
    adderSum A B m + (adderOutR A B m + 2 * adderOutL A B m) * 4 ^ m :=
  rfl

theorem adderSum_spec (A B : Nat) :
    ∀ m, adderSum A B m + adderC A B m * 4 ^ m = A % 4 ^ m + B % 4 ^ m + 1 := by
  intro m
  induction m with
  | zero => simp [adderSum, adderC, Nat.mod_one]
  | succ m ih =>
    rw [mod_four_pow_succ A m, mod_four_pow_succ B m]
    have hp : (4 : Nat) ^ (m + 1) = 4 ^ m * 4 := by
      rw [Nat.pow_succ]
    have hcoef : adderOutR A B m + 2 * adderOutL A B m + 4 * adderC A B (m + 1) =
        (A.testBit (2 * m)).toNat + (B.testBit (2 * m)).toNat + adderC A B m +
          2 * ((A.testBit (2 * m + 1)).toNat + (B.testBit (2 * m + 1)).toNat) := by
      rw [adderC_succ]
      unfold adderOutR adderOutL
      omega
    have e1 : adderSum A B (m + 1) + adderC A B (m + 1) * 4 ^ (m + 1) =
        adderSum A B m +
          (adderOutR A B m + 2 * adderOutL A B m + 4 * adderC A B (m + 1)) * 4 ^ m := by
      rw [adderSum_succ, hp]
      ring
    rw [e1, hcoef]
    have e2 : ((A.testBit (2 * m)).toNat + (B.testBit (2 * m)).toNat + adderC A B m +
          2 * ((A.testBit (2 * m + 1)).toNat + (B.testBit (2 * m + 1)).toNat)) * 4 ^ m =
        adderC A B m * 4 ^ m +
          ((A.testBit (2 * m)).toNat + 2 * (A.testBit (2 * m + 1)).toNat) * 4 ^ m +
          ((B.testBit (2 * m)).toNat + 2 * (B.testBit (2 * m + 1)).toNat) * 4 ^ m := by
      ring
    rw [e2]
    omega

theorem adderC_eq_zero_of_lt {A B m : Nat} (hA : A < 4 ^ m) (hB : B < 4 ^ m)
    (hS : A + B + 1 < 4 ^ m) : adderC A B m = 0 := by
  have h := adderSum_spec A B m
  rw [Nat.mod_eq_of_lt hA, Nat.mod_eq_of_lt hB] at h
  have hc := adderC_le_one A B m
  rcases (by omega : adderC A B m = 0 ∨ adderC A B m = 1) with h0 | h1
  · exact h0
  · rw [h1] at h
    omega

theorem adderSum_of_c_zero {A B m : Nat} (hA : A < 4 ^ m) (hB : B < 4 ^ m)
    (hc : adderC A B m = 0) : adderSum A B m = A + B + 1 := by
  have h := adderSum_spec A B m
  rw [Nat.mod_eq_of_lt hA, Nat.mod_eq_of_lt hB, hc] at h
  omega

theorem refR_fst (n : PairNumber) (x : Nat) (i : Nat) (bi : Nat) :
    ((RefPattern.new x).ref_r n (i : Int) bi).1 =
      ((n.val <<< sOf x).testBit (2 * i)).toNat := by
  have ht : (RefPattern.new x).t = sOf x / 2 := rfl
  have hse : (RefPattern.new x).s_is_even = decide (sOf x % 2 = 0) := rfl
  unfold RefPattern.ref_r
  rw [hse, ht]
  by_cases hpar : sOf x % 2 = 0
  · rw [if_pos (by simp [hpar])]
    dsimp only
    rcases Nat.lt_or_ge i (sOf x / 2) with hit | hit
    · rw [get_m6_neg n (by push_cast; omega), Nat.testBit_shiftLeft,
        decide_eq_false (by omega : ¬ sOf x ≤ 2 * i), Bool.false_and]
      rfl
    · rw [show (i : Int) - ↑(sOf x / 2) = ((i - sOf x / 2 : Nat) : Int) from by
          push_cast; omega,
        get_m6_spec, Nat.testBit_shiftLeft,
        decide_eq_true (by omega : sOf x ≤ 2 * i), Bool.true_and,
        show 2 * (i - sOf x / 2) = 2 * i - sOf x from by omega]
  · rw [if_neg (by simp [hpar])]
    dsimp only
    rcases Nat.lt_or_ge i (sOf x / 2 + 1) with hit | hit
    · rw [get_m4_neg n (by push_cast; omega), Nat.testBit_shiftLeft,
        decide_eq_false (by omega : ¬ sOf x ≤ 2 * i), Bool.false_and]
      rfl
    · rw [show (i : Int) - ↑(sOf x / 2) - 1 = ((i - sOf x / 2 - 1 : Nat) : Int) from by
          push_cast; omega,
        get_m4_spec, Nat.testBit_shiftLeft,
        decide_eq_true (by omega : sOf x ≤ 2 * i), Bool.true_and,
        show 2 * (i - sOf x / 2 - 1) + 1 = 2 * i - sOf x from by omega]

theorem refL_fst (n : PairNumber) (x : Nat) (i : Nat) (ai : Nat) :
    ((RefPattern.new x).ref_l n (i : Int) ai).1 =
      ((n.val <<< sOf x).testBit (2 * i + 1)).toNat := by
  have ht : (RefPattern.new x).t = sOf x / 2 := rfl
  have hse : (RefPattern.new x).s_is_even = decide (sOf x % 2 = 0) := rfl
  unfold RefPattern.ref_l
  rw [hse, ht]
  by_cases hpar : sOf x % 2 = 0
  · rw [if_pos (by simp [hpar])]
    dsimp only
    rcases Nat.lt_or_ge i (sOf x / 2) with hit | hit
    · rw [get_m4_neg n (by push_cast; omega), Nat.testBit_shiftLeft,
        decide_eq_false (by omega : ¬ sOf x ≤ 2 * i + 1), Bool.false_and]
      rfl
    · rw [show (i : Int) - ↑(sOf x / 2) = ((i - sOf x / 2 : Nat) : Int) from by
          push_cast; omega,
        get_m4_spec, Nat.testBit_shiftLeft,
        decide_eq_true (by omega : sOf x ≤ 2 * i + 1), Bool.true_and,
        show 2 * (i - sOf x / 2) + 1 = 2 * i + 1 - sOf x from by omega]
  · rw [if_neg (by simp [hpar])]
    dsimp only
    rcases Nat.lt_or_ge i (sOf x / 2) with hit | hit
    · rw [get_m6_neg n (by push_cast; omega), Nat.testBit_shiftLeft,
        decide_eq_false (by omega : ¬ sOf x ≤ 2 * i + 1), Bool.false_and]
      rfl
    · rw [show (i : Int) - ↑(sOf x / 2) = ((i - sOf x / 2 : Nat) : Int) from by
          push_cast; omega,
        get_m6_spec, Nat.testBit_shiftLeft,
        decide_eq_true (by omega : sOf x ≤ 2 * i + 1), Bool.true_and,
        show 2 * (i - sOf x / 2) = 2 * i + 1 - sOf x from by omega]

theorem refR_snd (rp : RefPattern) (n : PairNumber) (i : Int) (bi : Nat) :
    (rp.ref_r n i bi).2 = bi := by
  unfold RefPattern.ref_r
  split <;> rfl

theorem refL_snd (rp : RefPattern) (n : PairNumber) (i : Int) (ai : Nat) :
    (rp.ref_l n i ai).2 = ai := by
  unfold RefPattern.ref_l
  split <;> rfl

theorem scanBody_spec (n : PairNumber) (x : Nat) (k i : Nat) (st : ScanState)
    (hc : st.c = adderC n.val (n.val <<< sOf x) i) :
    (scanBody n (RefPattern.new x) k i st).new_m4 =
      setStreamBit st.new_m4 i (adderOutL n.val (n.val <<< sOf x) i) ∧
    (scanBody n (RefPattern.new x) k i st).new_m6 =
      setStreamBit st.new_m6 i (adderOutR n.val (n.val <<< sOf x) i) ∧
    (scanBody n (RefPattern.new x) k i st).c =
      adderC n.val (n.val <<< sOf x) (i + 1) ∧
    (scanBody n (RefPattern.new x) k i st).actual_pairs = i + 1 ∧
    (scanBody n (RefPattern.new x) k i st).gpk =
      (if i < k then st.gpk.set_gpk i (specGpk n.val (n.val <<< sOf x) i)
        else st.gpk) := by
  have h1 := refR_fst n x i (n.get_m6 (i : Int))
  have h2 := refR_snd (RefPattern.new x) n (i : Int) (n.get_m6 (i : Int))
  have h3 := refL_fst n x i (n.get_m4 (i : Int))
  have h4 := refL_snd (RefPattern.new x) n (i : Int) (n.get_m4 (i : Int))
  simp only [scanBody]
  rw [h1, h2, h3, h4, get_m6_spec, get_m4_spec, hc]
  refine ⟨?_, ?_, ?_, trivial, ?_⟩
  · congr 1
    unfold adderOutL
    omega
  · congr 1
    unfold adderOutR
    omega
  · rw [adderC_succ]
    omega
  · rfl

theorem streamsVal_adderSum (m4s m6s : List Nat) (A B : Nat) :
    ∀ m, (∀ j, j < m → streamBit m6s j = decide (adderOutR A B j = 1)) →
    (∀ j, j < m → streamBit m4s j = decide (adderOutL A B j = 1)) →
    streamsVal m4s m6s m = adderSum A B m := by
  intro m
  induction m with
  | zero => intro _ _; rfl
  | succ m ih =>
    intro h6 h4
    show streamsVal m4s m6s m + pairVal m4s m6s m * 4 ^ m = _
    rw [adderSum_succ, ih (fun j hj => h6 j (by omega)) (fun j hj => h4 j (by omega))]
    have hpv : pairVal m4s m6s m = adderOutR A B m + 2 * adderOutL A B m := by
      unfold pairVal
      rw [h6 m (by omega), h4 m (by omega)]
      have hr := adderOutR_le_one A B m
      have hl := adderOutL_le_one A B m
      by_cases hR : adderOutR A B m = 1 <;> by_cases hL : adderOutL A B m = 1 <;>
        simp [hR, hL] <;> omega
    rw [hpv]

theorem scanLoopGo_stream_spec (n : PairNumber) (x : Nat) (k safe_end M L : Nat)
    (hML : M < 64 * L) :
    ∀ f i st,
    (st : ScanState).new_m4.length = L → st.new_m6.length = L →
    (∀ w, st.new_m4.getD w 0 < 2 ^ 64) → (∀ w, st.new_m6.getD w 0 < 2 ^ 64) →
    st.c = adderC n.val (n.val <<< sOf x) i →
    st.actual_pairs = i →
    (∀ j, streamBit st.new_m6 j =
      (decide (j < i) && decide (adderOutR n.val (n.val <<< sOf x) j = 1))) →
    (∀ j, streamBit st.new_m4 j =
      (decide (j < i) && decide (adderOutL n.val (n.val <<< sOf x) j = 1))) →
    i + f = M + 1 → 1 ≤ f →
    ((scanLoopGo n (RefPattern.new x) k safe_end f i st).new_m4.length = L ∧
     (scanLoopGo n (RefPattern.new x) k safe_end f i st).new_m6.length = L ∧
     (∀ w, (scanLoopGo n (RefPattern.new x) k safe_end f i st).new_m4.getD w 0 < 2 ^ 64) ∧
     (∀ w, (scanLoopGo n (RefPattern.new x) k safe_end f i st).new_m6.getD w 0 < 2 ^ 64) ∧
     ∃ e, i ≤ e ∧ e ≤ M ∧
       (scanLoopGo n (RefPattern.new x) k safe_end f i st).actual_pairs = e + 1 ∧
       (∀ j, streamBit (scanLoopGo n (RefPattern.new x) k safe_end f i st).new_m6 j =
         (decide (j < e + 1) && decide (adderOutR n.val (n.val <<< sOf x) j = 1))) ∧
       (∀ j, streamBit (scanLoopGo n (RefPattern.new x) k safe_end f i st).new_m4 j =
         (decide (j < e + 1) && decide (adderOutL n.val (n.val <<< sOf x) j = 1))) ∧
       (e = M ∨
         (adderC n.val (n.val <<< sOf x) (e + 1) = 0 ∧ safe_end ≤ e))) := by
  intro f
  induction f with
  | zero =>
    intro i st _ _ _ _ _ _ _ _ _ hf
    omega
  | succ f ih =>
    intro i st hL4 hL6 hw4 hw6 hc hap h6 h4 hfuel _
    obtain ⟨hbm4, hbm6, hbc, hbap, hbgpk⟩ := scanBody_spec n x k i st hc
    have hiM : i ≤ M := by omega
    have hi64 : i / 64 < L := by omega
    have hrle := adderOutR_le_one n.val (n.val <<< sOf x) i
    have hlle := adderOutL_le_one n.val (n.val <<< sOf x) i
    have hL4' : (scanBody n (RefPattern.new x) k i st).new_m4.length = L := by
      rw [hbm4, setStreamBit_length]
      exact hL4
    have hL6' : (scanBody n (RefPattern.new x) k i st).new_m6.length = L := by
      rw [hbm6, setStreamBit_length]
      exact hL6
    have hw4' : ∀ w, (scanBody n (RefPattern.new x) k i st).new_m4.getD w 0 < 2 ^ 64 := by
      rw [hbm4]
      exact setStreamBit_getD_lt st.new_m4 _ _ hlle hw4 (by omega)
    have hw6' : ∀ w, (scanBody n (RefPattern.new x) k i st).new_m6.getD w 0 < 2 ^ 64 := by
      rw [hbm6]
      exact setStreamBit_getD_lt st.new_m6 _ _ hrle hw6 (by omega)
    have h6' : ∀ j, streamBit (scanBody n (RefPattern.new x) k i st).new_m6 j =
        (decide (j < i + 1) && decide (adderOutR n.val (n.val <<< sOf x) j = 1)) := by
      intro j
      rw [hbm6, streamBit_setStreamBit st.new_m6 i _ j hrle (by rw [hL6]; omega),
        h6 j]
      exact window_extend (fun t => decide (adderOutR n.val (n.val <<< sOf x) t = 1)) i j
    have h4' : ∀ j, streamBit (scanBody n (RefPattern.new x) k i st).new_m4 j =
        (decide (j < i + 1) && decide (adderOutL n.val (n.val <<< sOf x) j = 1)) := by
      intro j
      rw [hbm4, streamBit_setStreamBit st.new_m4 i _ j hlle (by rw [hL4]; omega),
        h4 j]
      exact window_extend (fun t => decide (adderOutL n.val (n.val <<< sOf x) t = 1)) i j
    simp only [scanLoopGo]
    by_cases hexit : (scanBody n (RefPattern.new x) k i st).c = 0 ∧ safe_end ≤ i
    · rw [if_pos hexit]
      refine ⟨hL4', hL6', hw4', hw6', i, by omega, hiM, hbap, h6', h4', Or.inr ?_⟩
      refine ⟨?_, hexit.2⟩
      rw [← hbc]
      exact hexit.1
    · rw [if_neg hexit]
      rcases Nat.eq_zero_or_pos f with hf0 | hf1
      · subst hf0
        simp only [scanLoopGo]
        have hieq : i = M := by omega
        exact ⟨hL4', hL6', hw4', hw6', i, by omega, hiM, hbap, h6', h4', Or.inl hieq⟩
      · have hres := ih (i + 1) (scanBody n (RefPattern.new x) k i st)
          hL4' hL6' hw4' hw6' (by rw [hbc]) hbap h6' h4' (by omega) (by omega)
        obtain ⟨r1, r2, r3, r4, e, he1, he2, he3, he4, he5, he6⟩ := hres
        exact ⟨r1, r2, r3, r4, e, by omega, he2, he3, he4, he5, he6⟩

theorem valid_x_s_pos {x : Nat} (hx : ValidX x) : 1 ≤ sOf x := by
  obtain ⟨h3, he⟩ := hx
  by_contra h
  have h0 : sOf x = 0 := by omega
  rw [h0] at he
  simp at he
  omega

theorem valid_x_eq {x : Nat} (hx : ValidX x) : x = 2 ^ sOf x + 1 := by
  obtain ⟨h3, he⟩ := hx
  omega

theorem shiftLeft_lt_pow {A s k : Nat} (hA : A < 2 ^ k) :
    A <<< s < 2 ^ (k + s) := by
  rw [Nat.shiftLeft_eq, pow_add]
  exact Nat.mul_lt_mul_of_lt_of_le hA (Nat.le_refl _) (Nat.pos_pow_of_pos _ (by norm_num))

theorem scanStreams_spec (n : PairNumber) (x : Nat) (hx : ValidX x) :
    (scanStreams n x).new_m4.length =
      (collatzScanMaxI n.pair_count (sOf x) + 1 + 63) / 64 ∧
    (scanStreams n x).new_m6.length =
      (collatzScanMaxI n.pair_count (sOf x) + 1 + 63) / 64 ∧
    (∀ w, (scanStreams n x).new_m4.getD w 0 < 2 ^ 64) ∧
    (∀ w, (scanStreams n x).new_m6.getD w 0 < 2 ^ 64) ∧
    1 ≤ (scanStreams n x).actual_pairs ∧
    (scanStreams n x).actual_pairs ≤ collatzScanMaxI n.pair_count (sOf x) + 1 ∧
    (∀ j, (scanStreams n x).actual_pairs ≤ j →
      streamBit (scanStreams n x).new_m6 j = false) ∧
    (∀ j, (scanStreams n x).actual_pairs ≤ j →
      streamBit (scanStreams n x).new_m4 j = false) ∧
    streamsVal (scanStreams n x).new_m4 (scanStreams n x).new_m6
      (scanStreams n x).actual_pairs = x * n.val + 1 := by
  have hs1 : 1 ≤ sOf x := valid_x_s_pos hx
  have hres := scanLoopGo_stream_spec n x n.pair_count
    (collatzScanSafeEnd n.pair_count (sOf x))
    (collatzScanMaxI n.pair_count (sOf x))
    ((collatzScanMaxI n.pair_count (sOf x) + 1 + 63) / 64)
    (by omega)
    (collatzScanMaxI n.pair_count (sOf x) + 1) 0
    { new_m4 := List.replicate
        ((collatzScanMaxI n.pair_count (RefPattern.new x).s + 1 + 63) / 64) 0
      new_m6 := List.replicate
        ((collatzScanMaxI n.pair_count (RefPattern.new x).s + 1 + 63) / 64) 0
      gpk := GpkInfo.new n.pair_count, c := 1, actual_pairs := 0 }
    (List.length_replicate _ _) (List.length_replicate _ _)
    (fun w => by
      show (List.replicate _ (0 : Nat)).getD w 0 < 2 ^ 64
      rw [listGetD_replicate]
      exact Nat.pos_pow_of_pos _ (by norm_num))
    (fun w => by
      show (List.replicate _ (0 : Nat)).getD w 0 < 2 ^ 64
      rw [listGetD_replicate]
      exact Nat.pos_pow_of_pos _ (by norm_num))
    rfl rfl
    (fun j => by
      show streamBit (List.replicate _ (0 : Nat)) j = _
      rw [streamBit_replicate]
      simp)
    (fun j => by
      show streamBit (List.replicate _ (0 : Nat)) j = _
      rw [streamBit_replicate]
      simp)
    (by omega) (by omega)
  obtain ⟨r1, r2, r3, r4, e, he1, he2, he3, he4, he5, he6⟩ := hres
  have hfold : scanLoopGo n (RefPattern.new x) n.pair_count
      (collatzScanSafeEnd n.pair_count (sOf x))
      (collatzScanMaxI n.pair_count (sOf x) + 1) 0
      { new_m4 := List.replicate
          ((collatzScanMaxI n.pair_count (RefPattern.new x).s + 1 + 63) / 64) 0
        new_m6 := List.replicate
          ((collatzScanMaxI n.pair_count (RefPattern.new x).s + 1 + 63) / 64) 0
        gpk := GpkInfo.new n.pair_count, c := 1, actual_pairs := 0 } =
      scanStreams n x := rfl
  rw [hfold] at r1 r2 r3 r4 he3 he4 he5
  have hA2 : n.val < 2 ^ (2 * n.pair_count) := by
    rw [← four_pow]
    exact streamsVal_lt n.m4_words n.m6_words n.pair_count
  have hB2 : n.val <<< sOf x < 2 ^ (2 * n.pair_count + sOf x) :=
    shiftLeft_lt_pow hA2
  have hczero : adderC n.val (n.val <<< sOf x) (e + 1) = 0 ∧
      n.val < 4 ^ (e + 1) ∧ n.val <<< sOf x < 4 ^ (e + 1) := by
    have hA4 : n.val < 4 ^ (e + 1) → True := fun _ => trivial
    rcases he6 with hM | ⟨hc0, hsafe⟩
    · subst hM
      have hp1 : (2 : Nat) ^ (2 * n.pair_count) ≤
          2 ^ (2 * n.pair_count + sOf x) :=
        Nat.pow_le_pow_right (by norm_num) (by omega)
      have hp2 : (2 : Nat) ^ (2 * n.pair_count + sOf x + 1) =
          2 ^ (2 * n.pair_count + sOf x) * 2 := pow_succ 2 _
      have hp3 : (2 : Nat) ^ (2 * n.pair_count + sOf x + 1) ≤
          4 ^ (collatzScanMaxI n.pair_count (sOf x) + 1) := by
        rw [four_pow]
        apply Nat.pow_le_pow_right (by norm_num)
        unfold collatzScanMaxI
        omega
      have hsum : n.val + n.val <<< sOf x + 1 <
          4 ^ (collatzScanMaxI n.pair_count (sOf x) + 1) := by
        omega
      have hA4' : n.val < 4 ^ (collatzScanMaxI n.pair_count (sOf x) + 1) := by
        omega
      have hB4' : n.val <<< sOf x <
          4 ^ (collatzScanMaxI n.pair_count (sOf x) + 1) := by
        omega
      exact ⟨adderC_eq_zero_of_lt hA4' hB4' hsum, hA4', hB4'⟩
    · have hsafe' : n.pair_count + (sOf x - 1) / 2 ≤ e := hsafe
      have hq1 : 2 * n.pair_count ≤ 2 * (e + 1) := by omega
      have hq2 : 2 * n.pair_count + sOf x ≤ 2 * (e + 1) := by omega
      have hA4' : n.val < 4 ^ (e + 1) := by
        rw [four_pow]
        exact Nat.lt_of_lt_of_le hA2 (Nat.pow_le_pow_right (by norm_num) hq1)
      have hB4' : n.val <<< sOf x < 4 ^ (e + 1) := by
        rw [four_pow]
        exact Nat.lt_of_lt_of_le hB2 (Nat.pow_le_pow_right (by norm_num) hq2)
      exact ⟨hc0, hA4', hB4'⟩
  obtain ⟨hc0, hA4, hB4⟩ := hczero
  have hval : streamsVal (scanStreams n x).new_m4 (scanStreams n x).new_m6
      (e + 1) = x * n.val + 1 := by
    rw [streamsVal_adderSum (scanStreams n x).new_m4 (scanStreams n x).new_m6
        n.val (n.val <<< sOf x) (e + 1)
        (fun j hj => by rw [he4 j]; simp [hj])
        (fun j hj => by rw [he5 j]; simp [hj]),
      adderSum_of_c_zero hA4 hB4 hc0]
    have hxeq : x = 2 ^ sOf x + 1 := valid_x_eq hx
    have hB : n.val <<< sOf x = 2 ^ sOf x * n.val := by
      rw [Nat.shiftLeft_eq]
      ring
    have hxA : x * n.val = 2 ^ sOf x * n.val + n.val := by
      conv_lhs => rw [hxeq]
      ring
    rw [hB, hxA]
    ring
  refine ⟨r1, r2, r3, r4, by omega, by omega, ?_, ?_, ?_⟩
  · intro j hj
    rw [he3] at hj
    rw [he4 j]
    simp
    omega
  · intro j hj
    rw [he3] at hj
    rw [he5 j]
    simp
    omega
  · rw [he3]
    exact hval

theorem collatz_step_spec (n : PairNumber) (x : Nat) (hx : ValidX x) :
    (collatz_step n x).d = ctzNat (x * n.val + 1) ∧
    (collatz_step n x).exchanged = decide (ctzNat (x * n.val + 1) % 2 = 1) ∧
    (collatz_step n x).next.Canonical ∧
    (collatz_step n x).next.val = (x * n.val + 1) >>> ctzNat (x * n.val + 1) := by
  obtain ⟨s1, s2, s3, s4, s5, s6, s7, s8, s9⟩ := scanStreams_spec n x hx
  have hpos : 0 < streamsVal (scanStreams n x).new_m4 (scanStreams n x).new_m6
      (scanStreams n x).actual_pairs := by
    rw [s9]
    omega
  have hpp := postprocess_spec (scanStreams n x).new_m4 (scanStreams n x).new_m6
    (scanStreams n x).actual_pairs
    (by rw [s1]; omega) (by rw [s2]; omega)
    s3 s4 s8 s7 hpos
  rw [s9] at hpp
  exact ⟨hpp.1, hpp.2.1, hpp.2.2.1, hpp.2.2.2⟩

/-! ## Kogge–Stone prefix correctness -/

theorem combineGP_assoc (a1 a2 b1 b2 c1 c2 : Bool) :
    combineGP (a1, a2) (combineGP (b1, b2) (c1, c2)) =
      combineGP (combineGP (a1, a2) (b1, b2)) (c1, c2) := by
  cases a1 <;> cases a2 <;> cases b1 <;> cases b2 <;> cases c1 <;> cases c2 <;> rfl

theorem combineGP_id_right (a : Bool × Bool) : combineGP a (false, true) = a := by
  obtain ⟨a1, a2⟩ := a
  cases a1 <;> cases a2 <;> rfl

theorem combineGP_id_left (a : Bool × Bool) : combineGP (false, true) a = a := by
  obtain ⟨a1, a2⟩ := a
  cases a1 <;> cases a2 <;> rfl

theorem wfoldGP_one (g p i : Nat) :
    wfoldGP g p i 1 = (g.testBit i, p.testBit i) := by
  unfold wfoldGP
  split
  · exact combineGP_id_right _
  · exact combineGP_id_right _

theorem wfoldGP_stable (g p : Nat) :
    ∀ i w, i + 1 ≤ w → wfoldGP g p i w = wfoldGP g p i (i + 1) := by
  intro i
  induction i with
  | zero =>
    intro w hw
    match w, hw with
    | w + 1, _ =>
      unfold wfoldGP
      rw [if_pos rfl, if_pos rfl]
  | succ i ih =>
    intro w hw
    match w, hw with
    | w + 1, _ =>
      show combineGP _ _ = combineGP _ _
      rw [if_neg (by omega : ¬ i + 1 = 0), if_neg (by omega : ¬ i + 1 = 0)]
      have : i + 1 - 1 = i := by omega
      rw [this, ih w (by omega)]

theorem wfoldGP_append (g p : Nat) :
    ∀ w1 i w2, w1 ≤ i →
    wfoldGP g p i (w1 + w2) =
      combineGP (wfoldGP g p i w1) (wfoldGP g p (i - w1) w2) := by
  intro w1
  induction w1 with
  | zero =>
    intro i w2 _
    show wfoldGP g p i (0 + w2) = _
    rw [Nat.zero_add, Nat.sub_zero]
    show _ = combineGP (false, true) _
    rw [combineGP_id_left]
  | succ w1 ih =>
    intro i w2 hw
    have hiz : ¬ i = 0 := by omega
    show wfoldGP g p i (w1 + 1 + w2) = _
    rw [show w1 + 1 + w2 = (w1 + w2) + 1 from by omega]
    show combineGP (g.testBit i, p.testBit i)
        (if i = 0 then (false, true) else wfoldGP g p (i - 1) (w1 + w2)) = _
    rw [if_neg hiz, ih (i - 1) w2 (by omega)]
    have h2 : wfoldGP g p i (w1 + 1) = combineGP (g.testBit i, p.testBit i)
        (wfoldGP g p (i - 1) w1) := by
      show combineGP (g.testBit i, p.testBit i)
          (if i = 0 then (false, true) else wfoldGP g p (i - 1) w1) = _
      rw [if_neg hiz]
    rw [h2, show i - 1 - w1 = i - (w1 + 1) from by omega]
    obtain ⟨u1, u2⟩ := wfoldGP g p (i - 1) w1
    obtain ⟨v1, v2⟩ := wfoldGP g p (i - (w1 + 1)) w2
    exact combineGP_assoc _ _ _ _ _ _

theorem wfoldGP_full (g p : Nat) :
    ∀ i, wfoldGP g p i (i + 1) = ksFold g p i := by
  intro i
  induction i with
  | zero =>
    show combineGP (g.testBit 0, p.testBit 0) _ = _
    rw [if_pos rfl, combineGP_id_right]
    rfl
  | succ i ih =>
    show combineGP (g.testBit (i + 1), p.testBit (i + 1)) _ = _
    rw [if_neg (by omega : ¬ i + 1 = 0), show i + 1 - 1 = i from by omega, ih]
    rfl

theorem ksRound_spec (g p G P W : Nat) (hW : 1 ≤ W)
    (hG : G < 2 ^ 64) (hP : P < 2 ^ 64)
    (h : ∀ i, i < 64 → (G.testBit i, P.testBit i) = wfoldGP g p i W) :
    (ksRound (G, P) W).1 < 2 ^ 64 ∧ (ksRound (G, P) W).2 < 2 ^ 64 ∧
    ∀ i, i < 64 → ((ksRound (G, P) W).1.testBit i, (ksRound (G, P) W).2.testBit i) =
      wfoldGP g p i (W + W) := by
  refine ⟨lor_lt_two_pow hG (land_lt_two_pow _ hP), land_lt_two_pow _ hP, ?_⟩
  intro i hi
  show ((G ||| (P &&& ((G <<< W) % 2 ^ 64))).testBit i,
    (P &&& (((P <<< W) % 2 ^ 64) ||| ((1 <<< W) - 1))).testBit i) = _
  rw [Nat.testBit_lor, Nat.testBit_land, Nat.testBit_mod_two_pow,
    Nat.testBit_shiftLeft, Nat.testBit_land, Nat.testBit_lor,
    Nat.testBit_mod_two_pow, Nat.testBit_shiftLeft, Nat.one_shiftLeft,
    Nat.testBit_two_pow_sub_one, decide_eq_true hi]
  simp only [Bool.true_and]
  have hGi : G.testBit i = (wfoldGP g p i W).1 := congrArg Prod.fst (h i hi)
  have hPi : P.testBit i = (wfoldGP g p i W).2 := congrArg Prod.snd (h i hi)
  rcases Nat.lt_or_ge i W with hiW | hiW
  · rw [decide_eq_false (by omega : ¬ W ≤ i), decide_eq_true hiW]
    simp only [Bool.false_and, Bool.and_false, Bool.or_false, Bool.false_or,
      Bool.and_true]
    rw [hGi, hPi, wfoldGP_stable g p i W (by omega),
      wfoldGP_stable g p i (W + W) (by omega)]
  · rw [decide_eq_true hiW, decide_eq_false (by omega : ¬ i < W)]
    simp only [Bool.true_and, Bool.or_false]
    have hGs : G.testBit (i - W) = (wfoldGP g p (i - W) W).1 :=
      congrArg Prod.fst (h (i - W) (by omega))
    have hPs : P.testBit (i - W) = (wfoldGP g p (i - W) W).2 :=
      congrArg Prod.snd (h (i - W) (by omega))
    rw [hGi, hPi, hGs, hPs, wfoldGP_append g p W i W hiW]
    rfl

theorem kogge_stone_correct (g p : Nat) (hg : g < 2 ^ 64) (hp : p < 2 ^ 64) :
    ∀ i, i < 64 →
    ((kogge_stone_pfx g p).1.testBit i, (kogge_stone_pfx g p).2.testBit i) =
      ksFold g p i := by
  have h0 : ∀ i, i < 64 → (g.testBit i, p.testBit i) = wfoldGP g p i 1 := by
    intro i _
    rw [wfoldGP_one]
  obtain ⟨a1, a2, a3⟩ := ksRound_spec g p g p 1 (by omega) hg hp h0
  obtain ⟨b1, b2, b3⟩ := ksRound_spec g p _ _ 2 (by omega) a1 a2 a3
  obtain ⟨c1, c2, c3⟩ := ksRound_spec g p _ _ 4 (by omega) b1 b2 b3
  obtain ⟨d1, d2, d3⟩ := ksRound_spec g p _ _ 8 (by omega) c1 c2 c3
  obtain ⟨e1, e2, e3⟩ := ksRound_spec g p _ _ 16 (by omega) d1 d2 d3
  obtain ⟨f1, f2, f3⟩ := ksRound_spec g p _ _ 32 (by omega) e1 e2 e3
  intro i hi
  have hfold : kogge_stone_pfx g p =
      ksRound (ksRound (ksRound (ksRound (ksRound (ksRound (g, p) 1) 2) 4) 8) 16) 32 :=
    rfl
  rw [hfold]
  rw [f3 i hi, wfoldGP_stable g p i 64 (by omega), wfoldGP_full]

/-! ## Packed scan: window extraction -/

theorem extract_window_lt (words : List Nat) (k : Nat) (start : Int)
    (hw : ∀ v, words.getD v 0 < 2 ^ 64) :
    extract_window words k start < 2 ^ 64 := by
  unfold extract_window
  split
  · exact Nat.pos_pow_of_pos _ (by norm_num)
  · split
    · split
      · exact Nat.pos_pow_of_pos _ (by norm_num)
      · split
        · split
          · exact land_lt_two_pow _ (Nat.mod_lt _ (Nat.pos_pow_of_pos _ (by norm_num)))
          · exact Nat.mod_lt _ (Nat.pos_pow_of_pos _ (by norm_num))
        · exact Nat.mod_lt _ (Nat.pos_pow_of_pos _ (by norm_num))
    · split
      · split
        · split
          · exact land_lt_two_pow _ (hw _)
          · exact hw _
        · exact Nat.pos_pow_of_pos _ (by norm_num)
      · have hsr : ∀ a b : Nat, a < 2 ^ 64 → a >>> b < 2 ^ 64 := by
          intro a b ha
          rw [Nat.shiftRight_eq_div_pow]
          exact Nat.lt_of_le_of_lt (Nat.div_le_self _ _) ha
        split
        · exact land_lt_two_pow _
            (lor_lt_two_pow (hsr _ _ (hw _))
              (Nat.mod_lt _ (Nat.pos_pow_of_pos _ (by norm_num))))
        · exact lor_lt_two_pow (hsr _ _ (hw _))
            (Nat.mod_lt _ (Nat.pos_pow_of_pos _ (by norm_num)))

theorem extract_window_bit (words : List Nat) (k : Nat) (start : Int) (j : Nat)
    (hj : j < 64) (hw : ∀ v, words.getD v 0 < 2 ^ 64) :
    (extract_window words k start).testBit j =
      ((decide (0 ≤ start + (j : Int)) && decide (start + (j : Int) < (k : Int))) &&
        streamBit words (start + (j : Int)).toNat) := by
  unfold extract_window
  by_cases h1 : (k : Int) ≤ start
  · rw [if_pos h1, Nat.zero_testBit]
    have : ¬ (start + (j : Int) < (k : Int)) := by omega
    simp [this]
  · rw [if_neg h1]
    by_cases h2 : start < 0
    · rw [if_pos h2]
      have ha : (((-start).toNat : Int)) = -start := Int.toNat_of_nonneg (by omega)
      by_cases h3 : 64 ≤ (-start).toNat
      · rw [if_pos h3, Nat.zero_testBit]
        have : ¬ (0 ≤ start + (j : Int)) := by omega
        simp [this]
      · rw [if_neg h3]
        have hvbit : (((words.getD 0 0) <<< (-start).toNat) % 2 ^ 64).testBit j =
            (decide (0 ≤ start + (j : Int)) &&
              streamBit words (start + (j : Int)).toNat) := by
          rw [Nat.testBit_mod_two_pow, decide_eq_true hj, Bool.true_and,
            Nat.testBit_shiftLeft]
          by_cases hnn : 0 ≤ start + (j : Int)
          · have hu : (((start + (j : Int)).toNat : Int)) = start + (j : Int) :=
              Int.toNat_of_nonneg hnn
            rw [decide_eq_true (show (-start).toNat ≤ j by omega),
              decide_eq_true hnn, Bool.true_and, Bool.true_and]
            unfold streamBit
            rw [show (start + (j : Int)).toNat / 64 = 0 from by omega,
              show (start + (j : Int)).toNat % 64 = (start + (j : Int)).toNat
                from by omega,
              show j - (-start).toNat = (start + (j : Int)).toNat from by omega]
          · rw [decide_eq_false (show ¬ (-start).toNat ≤ j by omega),
              decide_eq_false hnn]
            simp
        by_cases h4 : (k : Int) - start < 64
        · have hre : ((((k : Int) - start).toNat : Int)) = (k : Int) - start :=
            Int.toNat_of_nonneg (by omega)
          rw [if_pos h4, if_pos (by omega : ((k : Int) - start).toNat < 64),
            Nat.testBit_land, Nat.one_shiftLeft, Nat.testBit_two_pow_sub_one, hvbit]
          by_cases h5 : start + (j : Int) < (k : Int)
          · rw [decide_eq_true h5, decide_eq_true (show j < ((k : Int) - start).toNat
              from by omega)]
            simp
          · rw [decide_eq_false h5, decide_eq_false (show ¬ j < ((k : Int) - start).toNat
              from by omega)]
            simp
        · rw [if_neg h4, hvbit]
          have h5 : start + (j : Int) < (k : Int) := by omega
          rw [decide_eq_true h5]
          simp
    · rw [if_neg h2]
      have hsu : ((start.toNat : Int)) = start := Int.toNat_of_nonneg (by omega)
      have hnn : 0 ≤ start + (j : Int) := by omega
      have hu : (((start + (j : Int)).toNat : Int)) = start + (j : Int) :=
        Int.toNat_of_nonneg hnn
      have huv : (start + (j : Int)).toNat = start.toNat + j := by omega
      rw [decide_eq_true hnn, Bool.true_and]
      by_cases h3 : start.toNat % 64 = 0
      · rw [if_pos h3]
        by_cases h4 : start.toNat / 64 < words.length
        · rw [if_pos h4]
          have hsb : streamBit words (start + (j : Int)).toNat =
              (words.getD (start.toNat / 64) 0).testBit j := by
            unfold streamBit
            rw [huv, show (start.toNat + j) / 64 = start.toNat / 64 from by omega,
              show (start.toNat + j) % 64 = j from by omega]
          by_cases h5 : k - start.toNat < 64
          · rw [if_pos h5, Nat.testBit_land, Nat.one_shiftLeft,
              Nat.testBit_two_pow_sub_one, hsb]
            by_cases h6 : start + (j : Int) < (k : Int)
            · rw [decide_eq_true h6,
                decide_eq_true (show j < k - start.toNat from by omega)]
              simp
            · rw [decide_eq_false h6,
                decide_eq_false (show ¬ j < k - start.toNat from by omega)]
              simp
          · rw [if_neg h5, hsb]
            have h6 : start + (j : Int) < (k : Int) := by omega
            rw [decide_eq_true h6]
            simp
        · rw [if_neg h4, Nat.zero_testBit]
          have hsb : streamBit words (start + (j : Int)).toNat = false := by
            unfold streamBit
            rw [huv, show (start.toNat + j) / 64 = start.toNat / 64 from by omega,
              List.getD_eq_default _ _ (by omega), Nat.zero_testBit]
          rw [hsb]
          simp
      · rw [if_neg h3]
        have hvbit : (((words.getD (start.toNat / 64) 0) >>> (start.toNat % 64)) |||
            (((words.getD (start.toNat / 64 + 1) 0) <<< (64 - start.toNat % 64)) %
              2 ^ 64)).testBit j =
            streamBit words (start + (j : Int)).toNat := by
          rw [Nat.testBit_lor, Nat.testBit_shiftRight, Nat.testBit_mod_two_pow,
            decide_eq_true hj, Bool.true_and, Nat.testBit_shiftLeft]
          unfold streamBit
          rw [huv]
          by_cases h5 : start.toNat % 64 + j < 64
          · rw [show (start.toNat + j) / 64 = start.toNat / 64 from by omega,
              show (start.toNat + j) % 64 = start.toNat % 64 + j from by omega,
              decide_eq_false (show ¬ 64 - start.toNat % 64 ≤ j from by omega)]
            simp
          · rw [show (start.toNat + j) / 64 = start.toNat / 64 + 1 from by omega,
              show (start.toNat + j) % 64 = start.toNat % 64 + j - 64 from by omega,
              decide_eq_true (show 64 - start.toNat % 64 ≤ j from by omega),
              Bool.true_and,
              show j - (64 - start.toNat % 64) = start.toNat % 64 + j - 64
                from by omega,
              testBit_false_of_lt (hw (start.toNat / 64)) (by omega : 64 ≤ start.toNat % 64 + j)]
            simp
        by_cases h5 : k - start.toNat < 64
        · rw [if_pos h5, Nat.testBit_land, Nat.one_shiftLeft,
            Nat.testBit_two_pow_sub_one, hvbit]
          by_cases h6 : start + (j : Int) < (k : Int)
          · rw [decide_eq_true h6,
              decide_eq_true (show j < k - start.toNat from by omega)]
            simp
          · rw [decide_eq_false h6,
              decide_eq_false (show ¬ j < k - start.toNat from by omega)]
            simp
        · rw [if_neg h5, hvbit]
          have h6 : start + (j : Int) < (k : Int) := by omega
          rw [decide_eq_true h6]
          simp

theorem canonical_getD_lt_m6 {n : PairNumber} (hn : n.Canonical) :
    ∀ v, n.m6_words.getD v 0 < 2 ^ 64 := by
  intro v
  rcases Nat.lt_or_ge v n.m6_words.length with h | h
  · exact hn.2.1.2.1 v h
  · rw [List.getD_eq_default _ _ h]
    exact Nat.pos_pow_of_pos _ (by norm_num)

theorem canonical_getD_lt_m4 {n : PairNumber} (hn : n.Canonical) :
    ∀ v, n.m4_words.getD v 0 < 2 ^ 64 := by
  intro v
  rcases Nat.lt_or_ge v n.m4_words.length with h | h
  · exact hn.1.2.1 v h
  · rw [List.getD_eq_default _ _ h]
    exact Nat.pos_pow_of_pos _ (by norm_num)

theorem val_testBit_even (n : PairNumber) (u : Nat) :
    n.val.testBit (2 * u) = (decide (u < n.pair_count) && streamBit n.m6_words u) := by
  unfold PairNumber.val
  rw [testBit_streamsVal]
  by_cases hc : u < n.pair_count
  · rw [if_pos (by omega), if_pos (by omega : 2 * u % 2 = 0),
      show 2 * u / 2 = u from by omega]
    simp [hc]
  · rw [if_neg (by omega)]
    simp [hc]

theorem val_testBit_odd (n : PairNumber) (u : Nat) :
    n.val.testBit (2 * u + 1) =
      (decide (u < n.pair_count) && streamBit n.m4_words u) := by
  unfold PairNumber.val
  rw [testBit_streamsVal]
  by_cases hc : u < n.pair_count
  · rw [if_pos (by omega), if_neg (by omega : ¬ (2 * u + 1) % 2 = 0),
      show (2 * u + 1) / 2 = u from by omega]
    simp [hc]
  · rw [if_neg (by omega)]
    simp [hc]

theorem extract_m6_val_bit (n : PairNumber) (hn : n.Canonical) (start : Int)
    (j : Nat) (hj : j < 64) :
    (extract_window n.m6_words n.pair_count start).testBit j =
      (decide (0 ≤ start + (j : Int)) &&
        n.val.testBit (2 * (start + (j : Int)).toNat)) := by
  rw [extract_window_bit _ _ _ _ hj (canonical_getD_lt_m6 hn)]
  by_cases hnn : 0 ≤ start + (j : Int)
  · have hu : (((start + (j : Int)).toNat : Int)) = start + (j : Int) :=
      Int.toNat_of_nonneg hnn
    rw [decide_eq_true hnn, Bool.true_and, Bool.true_and,
      val_testBit_even n (start + (j : Int)).toNat]
    by_cases hck : start + (j : Int) < (n.pair_count : Int)
    · rw [decide_eq_true hck,
        decide_eq_true (show (start + (j : Int)).toNat < n.pair_count from by omega)]
    · rw [decide_eq_false hck,
        decide_eq_false (show ¬ (start + (j : Int)).toNat < n.pair_count from by omega)]
  · rw [decide_eq_false hnn]
    simp

theorem extract_m4_val_bit (n : PairNumber) (hn : n.Canonical) (start : Int)
    (j : Nat) (hj : j < 64) :
    (extract_window n.m4_words n.pair_count start).testBit j =
      (decide (0 ≤ start + (j : Int)) &&
        n.val.testBit (2 * (start + (j : Int)).toNat + 1)) := by
  rw [extract_window_bit _ _ _ _ hj (canonical_getD_lt_m4 hn)]
  by_cases hnn : 0 ≤ start + (j : Int)
  · have hu : (((start + (j : Int)).toNat : Int)) = start + (j : Int) :=
      Int.toNat_of_nonneg hnn
    rw [decide_eq_true hnn, Bool.true_and, Bool.true_and,
      val_testBit_odd n (start + (j : Int)).toNat]
    by_cases hck : start + (j : Int) < (n.pair_count : Int)
    · rw [decide_eq_true hck,
        decide_eq_true (show (start + (j : Int)).toNat < n.pair_count from by omega)]
    · rw [decide_eq_false hck,
        decide_eq_false (show ¬ (start + (j : Int)).toNat < n.pair_count from by omega)]
  · rw [decide_eq_false hnn]
    simp

theorem window_cur_m6 (n : PairNumber) (hn : n.Canonical) (w i : Nat) (hi : i < 64) :
    (extract_window n.m6_words n.pair_count ((64 * w : Nat) : Int)).testBit i =
      n.val.testBit (2 * (64 * w + i)) := by
  rw [extract_m6_val_bit n hn _ i hi,
    decide_eq_true (show (0 : Int) ≤ ((64 * w : Nat) : Int) + (i : Int) from by omega),
    Bool.true_and, show (((64 * w : Nat) : Int) + (i : Int)).toNat = 64 * w + i
      from by omega]

theorem window_cur_m4 (n : PairNumber) (hn : n.Canonical) (w i : Nat) (hi : i < 64) :
    (extract_window n.m4_words n.pair_count ((64 * w : Nat) : Int)).testBit i =
      n.val.testBit (2 * (64 * w + i) + 1) := by
  rw [extract_m4_val_bit n hn _ i hi,
    decide_eq_true (show (0 : Int) ≤ ((64 * w : Nat) : Int) + (i : Int) from by omega),
    Bool.true_and, show (((64 * w : Nat) : Int) + (i : Int)).toNat = 64 * w + i
      from by omega]

theorem window_even_r (n : PairNumber) (hn : n.Canonical) (x : Nat)
    (hpar : sOf x % 2 = 0) (w i : Nat) (hi : i < 64) :
    (extract_window n.m6_words n.pair_count
        (((64 * w : Nat) : Int) - ((sOf x / 2 : Nat) : Int))).testBit i =
      (n.val <<< sOf x).testBit (2 * (64 * w + i)) := by
  rw [extract_m6_val_bit n hn _ i hi, Nat.testBit_shiftLeft]
  by_cases hc : sOf x / 2 ≤ 64 * w + i
  · rw [decide_eq_true (show (0:Int) ≤ ((64 * w : Nat) : Int) - ((sOf x / 2 : Nat) : Int) + (i : Int) from by omega),
      decide_eq_true (show sOf x ≤ 2 * (64 * w + i) from by omega),
      Bool.true_and, Bool.true_and,
      show ((((64 * w : Nat) : Int) - ((sOf x / 2 : Nat) : Int) + (i : Int))).toNat =
        64 * w + i - sOf x / 2 from by omega,
      show 2 * (64 * w + i - sOf x / 2) = 2 * (64 * w + i) - sOf x from by omega]
  · rw [decide_eq_false (show ¬ (0:Int) ≤ ((64 * w : Nat) : Int) - ((sOf x / 2 : Nat) : Int) + (i : Int) from by omega),
      decide_eq_false (show ¬ sOf x ≤ 2 * (64 * w + i) from by omega)]
    simp

theorem window_even_l (n : PairNumber) (hn : n.Canonical) (x : Nat)
    (hpar : sOf x % 2 = 0) (w i : Nat) (hi : i < 64) :
    (extract_window n.m4_words n.pair_count
        (((64 * w : Nat) : Int) - ((sOf x / 2 : Nat) : Int))).testBit i =
      (n.val <<< sOf x).testBit (2 * (64 * w + i) + 1) := by
  rw [extract_m4_val_bit n hn _ i hi, Nat.testBit_shiftLeft]
  by_cases hc : sOf x / 2 ≤ 64 * w + i
  · rw [decide_eq_true (show (0:Int) ≤ ((64 * w : Nat) : Int) - ((sOf x / 2 : Nat) : Int) + (i : Int) from by omega),
      decide_eq_true (show sOf x ≤ 2 * (64 * w + i) + 1 from by omega),
      Bool.true_and, Bool.true_and,
      show ((((64 * w : Nat) : Int) - ((sOf x / 2 : Nat) : Int) + (i : Int))).toNat =
        64 * w + i - sOf x / 2 from by omega,
      show 2 * (64 * w + i - sOf x / 2) + 1 = 2 * (64 * w + i) + 1 - sOf x
        from by omega]
  · rw [decide_eq_false (show ¬ (0:Int) ≤ ((64 * w : Nat) : Int) - ((sOf x / 2 : Nat) : Int) + (i : Int) from by omega),
      decide_eq_false (show ¬ sOf x ≤ 2 * (64 * w + i) + 1 from by omega)]
    simp

theorem window_odd_r (n : PairNumber) (hn : n.Canonical) (x : Nat)
    (hpar : sOf x % 2 = 1) (w i : Nat) (hi : i < 64) :
    (extract_window n.m4_words n.pair_count
        (((64 * w : Nat) : Int) - ((sOf x / 2 : Nat) : Int) - 1)).testBit i =
      (n.val <<< sOf x).testBit (2 * (64 * w + i)) := by
  rw [extract_m4_val_bit n hn _ i hi, Nat.testBit_shiftLeft]
  by_cases hc : sOf x / 2 + 1 ≤ 64 * w + i
  · rw [decide_eq_true (show (0:Int) ≤ ((64 * w : Nat) : Int) - ((sOf x / 2 : Nat) : Int) - 1 + (i : Int) from by omega),
      decide_eq_true (show sOf x ≤ 2 * (64 * w + i) from by omega),
      Bool.true_and, Bool.true_and,
      show ((((64 * w : Nat) : Int) - ((sOf x / 2 : Nat) : Int) - 1 + (i : Int))).toNat =
        64 * w + i - sOf x / 2 - 1 from by omega,
      show 2 * (64 * w + i - sOf x / 2 - 1) + 1 = 2 * (64 * w + i) - sOf x
        from by omega]
  · rw [decide_eq_false (show ¬ (0:Int) ≤ ((64 * w : Nat) : Int) - ((sOf x / 2 : Nat) : Int) - 1 + (i : Int) from by omega),
      decide_eq_false (show ¬ sOf x ≤ 2 * (64 * w + i) from by omega)]
    simp

theorem window_odd_l (n : PairNumber) (hn : n.Canonical) (x : Nat)
    (hpar : sOf x % 2 = 1) (w i : Nat) (hi : i < 64) :
    (extract_window n.m6_words n.pair_count
        (((64 * w : Nat) : Int) - ((sOf x / 2 : Nat) : Int))).testBit i =
      (n.val <<< sOf x).testBit (2 * (64 * w + i) + 1) := by
  rw [extract_m6_val_bit n hn _ i hi, Nat.testBit_shiftLeft]
  by_cases hc : sOf x / 2 ≤ 64 * w + i
  · rw [decide_eq_true (show (0:Int) ≤ ((64 * w : Nat) : Int) - ((sOf x / 2 : Nat) : Int) + (i : Int) from by omega),
      decide_eq_true (show sOf x ≤ 2 * (64 * w + i) + 1 from by omega),
      Bool.true_and, Bool.true_and,
      show ((((64 * w : Nat) : Int) - ((sOf x / 2 : Nat) : Int) + (i : Int))).toNat =
        64 * w + i - sOf x / 2 from by omega,
      show 2 * (64 * w + i - sOf x / 2) = 2 * (64 * w + i) + 1 - sOf x
        from by omega]
  · rw [decide_eq_false (show ¬ (0:Int) ≤ ((64 * w : Nat) : Int) - ((sOf x / 2 : Nat) : Int) + (i : Int) from by omega),
      decide_eq_false (show ¬ sOf x ≤ 2 * (64 * w + i) + 1 from by omega)]
    simp

/-! ## Packed scan word correctness -/

theorem specGpk_gen (A B m : Nat) :
    decide (specGpk A B m = Gpk.Generate) = gBit A B m := by
  unfold specGpk pair_gpk gBit
  cases A.testBit (2 * m + 1) <;> cases B.testBit (2 * m + 1) <;>
    cases A.testBit (2 * m) <;> cases B.testBit (2 * m) <;> rfl

theorem specGpk_prop (A B m : Nat) :
    decide (specGpk A B m = Gpk.Propagate) = (!gBit A B m && pBit A B m) := by
  unfold specGpk pair_gpk gBit pBit
  cases A.testBit (2 * m + 1) <;> cases B.testBit (2 * m + 1) <;>
    cases A.testBit (2 * m) <;> cases B.testBit (2 * m) <;> rfl

theorem carry_step_bool (A B m : Nat) :
    decide (adderC A B (m + 1) = 1) =
      (gBit A B m || (pBit A B m && decide (adderC A B m = 1))) := by
  have hc := adderC_le_one A B m
  rw [adderC_succ]
  unfold gBit pBit
  rcases (by omega : adderC A B m = 0 ∨ adderC A B m = 1) with h | h <;>
    rw [h] <;>
    cases A.testBit (2 * m + 1) <;> cases B.testBit (2 * m + 1) <;>
    cases A.testBit (2 * m) <;> cases B.testBit (2 * m) <;> decide

theorem combine_carry (h l : Bool × Bool) (e : Bool) :
    ((combineGP h l).1 || ((combineGP h l).2 && e)) =
      (h.1 || (h.2 && (l.1 || (l.2 && e)))) := by
  obtain ⟨h1, h2⟩ := h
  obtain ⟨l1, l2⟩ := l
  cases h1 <;> cases h2 <;> cases l1 <;> cases l2 <;> cases e <;> rfl

theorem ksFold_carry (A B n0 g p : Nat)
    (hg : ∀ i, i < 64 → g.testBit i = gBit A B (n0 + i))
    (hp : ∀ i, i < 64 → p.testBit i = pBit A B (n0 + i)) :
    ∀ i, i < 64 →
    ((ksFold g p i).1 || ((ksFold g p i).2 && decide (adderC A B n0 = 1))) =
      decide (adderC A B (n0 + i + 1) = 1) := by
  intro i
  induction i with
  | zero =>
    intro _
    show (g.testBit 0 || (p.testBit 0 && decide (adderC A B n0 = 1))) = _
    rw [hg 0 (by omega), hp 0 (by omega), Nat.add_zero]
    exact (carry_step_bool A B n0).symm
  | succ i ih =>
    intro hi
    show ((combineGP (g.testBit (i + 1), p.testBit (i + 1)) (ksFold g p i)).1 ||
      ((combineGP (g.testBit (i + 1), p.testBit (i + 1)) (ksFold g p i)).2 &&
        decide (adderC A B n0 = 1))) = _
    rw [combine_carry, ih (by omega), hg (i + 1) hi, hp (i + 1) hi]
    have he : n0 + (i + 1) = n0 + i + 1 := by omega
    rw [he]
    exact (carry_step_bool A B (n0 + i + 1)).symm

theorem xor_sum_bit (a b : Bool) (c : Nat) (hc : c ≤ 1) :
    ((b.xor a).xor (decide (c = 1))) = decide ((a.toNat + b.toNat + c) % 2 = 1) := by
  interval_cases c <;> cases a <;> cases b <;> decide

theorem maj_sum_bit (a b : Bool) (c : Nat) (hc : c ≤ 1) :
    (((b && a) || (a && decide (c = 1))) || (b && decide (c = 1))) =
      decide ((a.toNat + b.toNat + c) / 2 = 1) := by
  interval_cases c <;> cases a <;> cases b <;> decide

theorem decide_toNat_eq {v : Nat} (hv : v ≤ 1) : (decide (v = 1)).toNat = v := by
  rcases (by omega : v = 0 ∨ v = 1) with h | h <;> subst h <;> decide

theorem packed_scan_word_spec (A B n0 p_r q_r p_l q_l carry_in : Nat)
    (h1 : p_r < 2 ^ 64) (h2 : q_r < 2 ^ 64) (h3 : p_l < 2 ^ 64) (h4 : q_l < 2 ^ 64)
    (hpr : ∀ i, i < 64 → p_r.testBit i = B.testBit (2 * (n0 + i)))
    (hqr : ∀ i, i < 64 → q_r.testBit i = A.testBit (2 * (n0 + i)))
    (hpl : ∀ i, i < 64 → p_l.testBit i = B.testBit (2 * (n0 + i) + 1))
    (hql : ∀ i, i < 64 → q_l.testBit i = A.testBit (2 * (n0 + i) + 1))
    (hcin : carry_in = adderC A B n0) :
    (∀ i, i < 64 → (packed_scan_word p_r q_r p_l q_l carry_in).1.testBit i =
      decide (adderOutL A B (n0 + i) = 1)) ∧
    (∀ i, i < 64 → (packed_scan_word p_r q_r p_l q_l carry_in).2.1.testBit i =
      decide (adderOutR A B (n0 + i) = 1)) ∧
    (packed_scan_word p_r q_r p_l q_l carry_in).2.2.1 = adderC A B (n0 + 64) ∧
    (∀ i, i < 64 → (packed_scan_word p_r q_r p_l q_l carry_in).2.2.2.1.testBit i =
      gBit A B (n0 + i)) ∧
    (∀ i, i < 64 → (packed_scan_word p_r q_r p_l q_l carry_in).2.2.2.2.testBit i =
      pBit A B (n0 + i)) ∧
    (packed_scan_word p_r q_r p_l q_l carry_in).1 < 2 ^ 64 ∧
    (packed_scan_word p_r q_r p_l q_l carry_in).2.1 < 2 ^ 64 ∧
    (packed_scan_word p_r q_r p_l q_l carry_in).2.2.2.1 < 2 ^ 64 ∧
    (packed_scan_word p_r q_r p_l q_l carry_in).2.2.2.2 < 2 ^ 64 := by
  have hcle : carry_in ≤ 1 := by
    rw [hcin]
    exact adderC_le_one A B n0
  have hGPlt : (p_l &&& q_l) ||| ((p_l ^^^ q_l) &&& (p_r &&& q_r)) < 2 ^ 64 :=
    lor_lt_two_pow (land_lt_two_pow _ h3)
      (land_lt_two_pow _ (xor_lt_two_pow h3 h4))
  have hPPlt : (p_l ^^^ q_l) &&& (p_r ^^^ q_r) < 2 ^ 64 :=
    land_lt_two_pow _ (xor_lt_two_pow h3 h4)
  have hgb : ∀ i, i < 64 →
      ((p_l &&& q_l) ||| ((p_l ^^^ q_l) &&& (p_r &&& q_r))).testBit i =
        gBit A B (n0 + i) := by
    intro i hi
    simp only [Nat.testBit_lor, Nat.testBit_land, Nat.testBit_xor]
    rw [hpr i hi, hqr i hi, hpl i hi, hql i hi]
    rfl
  have hpb : ∀ i, i < 64 →
      ((p_l ^^^ q_l) &&& (p_r ^^^ q_r)).testBit i = pBit A B (n0 + i) := by
    intro i hi
    simp only [Nat.testBit_land, Nat.testBit_xor]
    rw [hpr i hi, hqr i hi, hpl i hi, hql i hi]
    rfl
  have hKS := kogge_stone_correct ((p_l &&& q_l) ||| ((p_l ^^^ q_l) &&& (p_r &&& q_r)))
    ((p_l ^^^ q_l) &&& (p_r ^^^ q_r)) hGPlt hPPlt
  have hCA : ∀ i, i < 64 →
      ((kogge_stone_pfx ((p_l &&& q_l) ||| ((p_l ^^^ q_l) &&& (p_r &&& q_r)))
          ((p_l ^^^ q_l) &&& (p_r ^^^ q_r))).1 |||
        ((kogge_stone_pfx ((p_l &&& q_l) ||| ((p_l ^^^ q_l) &&& (p_r &&& q_r)))
          ((p_l ^^^ q_l) &&& (p_r ^^^ q_r))).2 &&&
          (if carry_in ≠ 0 then 2 ^ 64 - 1 else 0))).testBit i =
      decide (adderC A B (n0 + i + 1) = 1) := by
    intro i hi
    have hks1 : (kogge_stone_pfx ((p_l &&& q_l) ||| ((p_l ^^^ q_l) &&& (p_r &&& q_r)))
        ((p_l ^^^ q_l) &&& (p_r ^^^ q_r))).1.testBit i =
        (ksFold ((p_l &&& q_l) ||| ((p_l ^^^ q_l) &&& (p_r &&& q_r)))
          ((p_l ^^^ q_l) &&& (p_r ^^^ q_r)) i).1 := congrArg Prod.fst (hKS i hi)
    have hks2 : (kogge_stone_pfx ((p_l &&& q_l) ||| ((p_l ^^^ q_l) &&& (p_r &&& q_r)))
        ((p_l ^^^ q_l) &&& (p_r ^^^ q_r))).2.testBit i =
        (ksFold ((p_l &&& q_l) ||| ((p_l ^^^ q_l) &&& (p_r &&& q_r)))
          ((p_l ^^^ q_l) &&& (p_r ^^^ q_r)) i).2 := congrArg Prod.snd (hKS i hi)
    rw [Nat.testBit_lor, Nat.testBit_land, hks1, hks2]
    have hbc : (if carry_in ≠ 0 then 2 ^ 64 - 1 else 0).testBit i =
        decide (adderC A B n0 = 1) := by
      rcases (by omega : carry_in = 0 ∨ carry_in = 1) with h | h
      · rw [if_neg (by omega), Nat.zero_testBit,
          decide_eq_false (by omega : ¬ adderC A B n0 = 1)]
      · rw [if_pos (by omega), Nat.testBit_two_pow_sub_one, decide_eq_true hi,
          decide_eq_true (show adderC A B n0 = 1 from by omega)]
    rw [hbc]
    exact ksFold_carry A B n0 _ _ hgb hpb i hi
  have hCIN : ∀ i, i < 64 →
      (((((kogge_stone_pfx ((p_l &&& q_l) ||| ((p_l ^^^ q_l) &&& (p_r &&& q_r)))
            ((p_l ^^^ q_l) &&& (p_r ^^^ q_r))).1 |||
          ((kogge_stone_pfx ((p_l &&& q_l) ||| ((p_l ^^^ q_l) &&& (p_r &&& q_r)))
            ((p_l ^^^ q_l) &&& (p_r ^^^ q_r))).2 &&&
            (if carry_in ≠ 0 then 2 ^ 64 - 1 else 0))) <<< 1) % 2 ^ 64) |||
        carry_in).testBit i =
      decide (adderC A B (n0 + i) = 1) := by
    intro i hi
    rw [Nat.testBit_lor, Nat.testBit_mod_two_pow, decide_eq_true hi, Bool.true_and,
      Nat.testBit_shiftLeft, bit_testBit hcle]
    rcases Nat.eq_zero_or_pos i with h0 | h0
    · subst h0
      rw [decide_eq_false (by omega : ¬ 1 ≤ 0), Bool.false_and, Bool.false_or,
        decide_eq_true rfl, Bool.true_and, hcin, Nat.add_zero]
    · rw [decide_eq_true (by omega : 1 ≤ i), Bool.true_and,
        decide_eq_false (by omega : ¬ i = 0), Bool.false_and, Bool.or_false,
        hCA (i - 1) (by omega), show n0 + (i - 1) + 1 = n0 + i from by omega]
  have hmid : ∀ i, i < 64 →
      (majority p_r q_r
        (((((kogge_stone_pfx ((p_l &&& q_l) ||| ((p_l ^^^ q_l) &&& (p_r &&& q_r)))
            ((p_l ^^^ q_l) &&& (p_r ^^^ q_r))).1 |||
          ((kogge_stone_pfx ((p_l &&& q_l) ||| ((p_l ^^^ q_l) &&& (p_r &&& q_r)))
            ((p_l ^^^ q_l) &&& (p_r ^^^ q_r))).2 &&&
            (if carry_in ≠ 0 then 2 ^ 64 - 1 else 0))) <<< 1) % 2 ^ 64) |||
          carry_in)).testBit i =
      decide (((A.testBit (2 * (n0 + i))).toNat + (B.testBit (2 * (n0 + i))).toNat +
        adderC A B (n0 + i)) / 2 = 1) := by
    intro i hi
    have hc := hCIN i hi
    set cinw := (((((kogge_stone_pfx ((p_l &&& q_l) ||| ((p_l ^^^ q_l) &&& (p_r &&& q_r)))
            ((p_l ^^^ q_l) &&& (p_r ^^^ q_r))).1 |||
          ((kogge_stone_pfx ((p_l &&& q_l) ||| ((p_l ^^^ q_l) &&& (p_r &&& q_r)))
            ((p_l ^^^ q_l) &&& (p_r ^^^ q_r))).2 &&&
            (if carry_in ≠ 0 then 2 ^ 64 - 1 else 0))) <<< 1) % 2 ^ 64) |||
        carry_in) with hcinwdef
    unfold majority
    simp only [Nat.testBit_lor, Nat.testBit_land]
    rw [hpr i hi, hqr i hi, hc]
    exact maj_sum_bit (A.testBit (2 * (n0 + i))) (B.testBit (2 * (n0 + i)))
      (adderC A B (n0 + i)) (adderC_le_one A B (n0 + i))
  refine ⟨?_, ?_, ?_, hgb, hpb, ?_, ?_, hGPlt, hPPlt⟩
  · intro i hi
    show ((p_l ^^^ q_l) ^^^ majority p_r q_r _).testBit i = _
    rw [Nat.testBit_xor, Nat.testBit_xor, hpl i hi, hql i hi, hmid i hi]
    rw [xor_sum_bit (A.testBit (2 * (n0 + i) + 1)) (B.testBit (2 * (n0 + i) + 1))
      (((A.testBit (2 * (n0 + i))).toNat + (B.testBit (2 * (n0 + i))).toNat +
        adderC A B (n0 + i)) / 2)
      (by
        have := toNat_le_one (A.testBit (2 * (n0 + i)))
        have := toNat_le_one (B.testBit (2 * (n0 + i)))
        have := adderC_le_one A B (n0 + i)
        omega)]
    rfl
  · intro i hi
    show ((p_r ^^^ q_r) ^^^ _).testBit i = _
    rw [Nat.testBit_xor, Nat.testBit_xor, hpr i hi, hqr i hi, hCIN i hi]
    rw [xor_sum_bit (A.testBit (2 * (n0 + i))) (B.testBit (2 * (n0 + i)))
      (adderC A B (n0 + i)) (adderC_le_one A B (n0 + i))]
    rfl
  · show (_ >>> 63) &&& 1 = _
    rw [shiftRight_and_one, hCA 63 (by omega),
      decide_toNat_eq (adderC_le_one A B (n0 + 63 + 1)),
      show n0 + 63 + 1 = n0 + 64 from by omega]
  · show (p_l ^^^ q_l) ^^^ majority p_r q_r _ < 2 ^ 64
    apply xor_lt_two_pow (xor_lt_two_pow h3 h4)
    unfold majority
    apply lor_lt_two_pow (lor_lt_two_pow (land_lt_two_pow _ h1) (land_lt_two_pow _ h2))
    exact land_lt_two_pow _ h1
  · show (p_r ^^^ q_r) ^^^ _ < 2 ^ 64
    apply xor_lt_two_pow (xor_lt_two_pow h1 h2)
    apply lor_lt_two_pow (Nat.mod_lt _ (Nat.pos_pow_of_pos _ (by norm_num)))
    omega

theorem streamBit_set_word (ws : List Nat) (w v j : Nat) :
    streamBit (ws.set w v) j =
      (if j / 64 = w ∧ w < ws.length then v.testBit (j % 64) else streamBit ws j) := by
  unfold streamBit
  rw [listGetD_set]
  by_cases h : w = j / 64 ∧ w < ws.length
  · rw [if_pos h, if_pos ⟨h.1.symm, h.2⟩]
  · rw [if_neg h, if_neg (fun hc => h ⟨hc.1.symm, hc.2⟩)]

theorem listGetD_set_lt (ws : List Nat) (w v : Nat) (hv : v < 2 ^ 64)
    (hws : ∀ u, ws.getD u 0 < 2 ^ 64) : ∀ u, (ws.set w v).getD u 0 < 2 ^ 64 := by
  intro u
  rw [listGetD_set]
  split
  · exact hv
  · exact hws u

theorem packedState_step (A B : Nat) (collect_gpk : Bool) (gwc L w : Nat)
    (st : PackedState) (r : Nat × Nat × Nat × Nat × Nat)
    (hr1 : ∀ i, i < 64 → (r : Nat × Nat × Nat × Nat × Nat).1.testBit i =
      decide (adderOutL A B (64 * w + i) = 1))
    (hr2 : ∀ i, i < 64 → r.2.1.testBit i = decide (adderOutR A B (64 * w + i) = 1))
    (hr3 : r.2.2.1 = adderC A B (64 * w + 64))
    (hr4 : ∀ i, i < 64 → r.2.2.2.1.testBit i = gBit A B (64 * w + i))
    (hr5 : ∀ i, i < 64 → r.2.2.2.2.testBit i = pBit A B (64 * w + i))
    (hb1 : r.1 < 2 ^ 64) (hb2 : r.2.1 < 2 ^ 64)
    (hb4 : r.2.2.2.1 < 2 ^ 64) (hb5 : r.2.2.2.2 < 2 ^ 64)
    (h1 : st.new_m4.length = L) (h2 : st.new_m6.length = L)
    (h3 : st.g_masks.length = gwc) (h4 : st.p_masks.length = gwc)
    (h5 : ∀ v, st.new_m4.getD v 0 < 2 ^ 64) (h6 : ∀ v, st.new_m6.getD v 0 < 2 ^ 64)
    (h7 : ∀ v, st.g_masks.getD v 0 < 2 ^ 64) (h8 : ∀ v, st.p_masks.getD v 0 < 2 ^ 64)
    (h10 : ∀ j, streamBit st.new_m6 j =
      (decide (j < 64 * w) && decide (adderOutR A B j = 1)))
    (h11 : ∀ j, streamBit st.new_m4 j =
      (decide (j < 64 * w) && decide (adderOutL A B j = 1)))
    (h12 : collect_gpk = true → ∀ j, streamBit st.g_masks j =
      ((decide (j < 64 * w) && decide (j / 64 < gwc)) && gBit A B j))
    (h13 : collect_gpk = true → ∀ j, streamBit st.p_masks j =
      ((decide (j < 64 * w) && decide (j / 64 < gwc)) && pBit A B j))
    (hwL : w < L) :
    (st.new_m4.set w r.1).length = L ∧
    (st.new_m6.set w r.2.1).length = L ∧
    (if collect_gpk ∧ w < gwc then st.g_masks.set w r.2.2.2.1
      else st.g_masks).length = gwc ∧
    (if collect_gpk ∧ w < gwc then st.p_masks.set w r.2.2.2.2
      else st.p_masks).length = gwc ∧
    (∀ v, (st.new_m4.set w r.1).getD v 0 < 2 ^ 64) ∧
    (∀ v, (st.new_m6.set w r.2.1).getD v 0 < 2 ^ 64) ∧
    (∀ v, (if collect_gpk ∧ w < gwc then st.g_masks.set w r.2.2.2.1
      else st.g_masks).getD v 0 < 2 ^ 64) ∧
    (∀ v, (if collect_gpk ∧ w < gwc then st.p_masks.set w r.2.2.2.2
      else st.p_masks).getD v 0 < 2 ^ 64) ∧
    r.2.2.1 = adderC A B (64 * (w + 1)) ∧
    (∀ j, streamBit (st.new_m6.set w r.2.1) j =
      (decide (j < 64 * (w + 1)) && decide (adderOutR A B j = 1))) ∧
    (∀ j, streamBit (st.new_m4.set w r.1) j =
      (decide (j < 64 * (w + 1)) && decide (adderOutL A B j = 1))) ∧
    (collect_gpk = true → ∀ j,
      streamBit (if collect_gpk ∧ w < gwc then st.g_masks.set w r.2.2.2.1
        else st.g_masks) j =
      ((decide (j < 64 * (w + 1)) && decide (j / 64 < gwc)) && gBit A B j)) ∧
    (collect_gpk = true → ∀ j,
      streamBit (if collect_gpk ∧ w < gwc then st.p_masks.set w r.2.2.2.2
        else st.p_masks) j =
      ((decide (j < 64 * (w + 1)) && decide (j / 64 < gwc)) && pBit A B j)) := by
  refine ⟨by rw [List.length_set]; exact h1, by rw [List.length_set]; exact h2,
    ?_, ?_, listGetD_set_lt _ _ _ hb1 h5, listGetD_set_lt _ _ _ hb2 h6, ?_, ?_,
    by rw [hr3, show 64 * (w + 1) = 64 * w + 64 from by omega],
    ?_, ?_, ?_, ?_⟩
  · split
    · rw [List.length_set]; exact h3
    · exact h3
  · split
    · rw [List.length_set]; exact h4
    · exact h4
  · split
    · exact listGetD_set_lt _ _ _ hb4 h7
    · exact h7
  · split
    · exact listGetD_set_lt _ _ _ hb5 h8
    · exact h8
  · intro j
    rw [streamBit_set_word]
    by_cases hc : j / 64 = w ∧ w < st.new_m6.length
    · rw [if_pos hc]
      rw [hr2 (j % 64) (by omega)]
      have hj : 64 * w + j % 64 = j := by omega
      rw [hj, decide_eq_true (show j < 64 * (w + 1) from by omega), Bool.true_and]
    · rw [if_neg hc, h10 j]
      have hc2 : ¬ j / 64 = w := fun h => hc ⟨h, by omega⟩
      have : (j < 64 * w) ↔ (j < 64 * (w + 1)) := by omega
      by_cases hlt : j < 64 * w
      · rw [decide_eq_true hlt, decide_eq_true (this.mp hlt)]
      · rw [decide_eq_false hlt, decide_eq_false (fun hcc => hlt (this.mpr hcc))]
  · intro j
    rw [streamBit_set_word]
    by_cases hc : j / 64 = w ∧ w < st.new_m4.length
    · rw [if_pos hc]
      rw [hr1 (j % 64) (by omega)]
      have hj : 64 * w + j % 64 = j := by omega
      rw [hj, decide_eq_true (show j < 64 * (w + 1) from by omega), Bool.true_and]
    · rw [if_neg hc, h11 j]
      have hc2 : ¬ j / 64 = w := fun h => hc ⟨h, by omega⟩
      have : (j < 64 * w) ↔ (j < 64 * (w + 1)) := by omega
      by_cases hlt : j < 64 * w
      · rw [decide_eq_true hlt, decide_eq_true (this.mp hlt)]
      · rw [decide_eq_false hlt, decide_eq_false (fun hcc => hlt (this.mpr hcc))]
  · intro hcg j
    by_cases hwg : w < gwc
    · rw [if_pos ⟨hcg, hwg⟩, streamBit_set_word]
      by_cases hc : j / 64 = w ∧ w < st.g_masks.length
      · rw [if_pos hc, hr4 (j % 64) (by omega)]
        have hj : 64 * w + j % 64 = j := by omega
        rw [hj, decide_eq_true (show j < 64 * (w + 1) from by omega),
          decide_eq_true (show j / 64 < gwc from by omega), Bool.true_and,
          Bool.true_and]
      · rw [if_neg hc, h12 hcg j]
        have hc2 : ¬ j / 64 = w := fun h => hc ⟨h, by omega⟩
        by_cases hlt : j < 64 * w
        · rw [decide_eq_true hlt, decide_eq_true (show j < 64 * (w + 1) from by omega)]
        · rw [decide_eq_false hlt,
            decide_eq_false (show ¬ j < 64 * (w + 1) from by omega)]
    · rw [if_neg (fun hcc => hwg hcc.2), h12 hcg j]
      by_cases hlt : j < 64 * w
      · rw [decide_eq_true hlt, decide_eq_true (show j < 64 * (w + 1) from by omega)]
      · by_cases hlt2 : j < 64 * (w + 1)
        · rw [decide_eq_false hlt, decide_eq_true hlt2, Bool.false_and,
            Bool.false_and, decide_eq_false (show ¬ j / 64 < gwc from by omega),
            Bool.and_false, Bool.false_and]
        · rw [decide_eq_false hlt, decide_eq_false hlt2]
  · intro hcg j
    by_cases hwg : w < gwc
    · rw [if_pos ⟨hcg, hwg⟩, streamBit_set_word]
      by_cases hc : j / 64 = w ∧ w < st.p_masks.length
      · rw [if_pos hc, hr5 (j % 64) (by omega)]
        have hj : 64 * w + j % 64 = j := by omega
        rw [hj, decide_eq_true (show j < 64 * (w + 1) from by omega),
          decide_eq_true (show j / 64 < gwc from by omega), Bool.true_and,
          Bool.true_and]
      · rw [if_neg hc, h13 hcg j]
        have hc2 : ¬ j / 64 = w := fun h => hc ⟨h, by omega⟩
        by_cases hlt : j < 64 * w
        · rw [decide_eq_true hlt, decide_eq_true (show j < 64 * (w + 1) from by omega)]
        · rw [decide_eq_false hlt,
            decide_eq_false (show ¬ j < 64 * (w + 1) from by omega)]
    · rw [if_neg (fun hcc => hwg hcc.2), h13 hcg j]
      by_cases hlt : j < 64 * w
      · rw [decide_eq_true hlt, decide_eq_true (show j < 64 * (w + 1) from by omega)]
      · by_cases hlt2 : j < 64 * (w + 1)
        · rw [decide_eq_false hlt, decide_eq_true hlt2, Bool.false_and,
            Bool.false_and, decide_eq_false (show ¬ j / 64 < gwc from by omega),
            Bool.and_false, Bool.false_and]
        · rw [decide_eq_false hlt, decide_eq_false hlt2]

theorem packedLoopGo_spec (n : PairNumber) (x : Nat) (hn : n.Canonical)
    (collect_gpk : Bool) (gwc L : Nat) :
    ∀ f w st,
    (st : PackedState).new_m4.length = L → st.new_m6.length = L →
    st.g_masks.length = gwc → st.p_masks.length = gwc →
    (∀ v, st.new_m4.getD v 0 < 2 ^ 64) → (∀ v, st.new_m6.getD v 0 < 2 ^ 64) →
    (∀ v, st.g_masks.getD v 0 < 2 ^ 64) → (∀ v, st.p_masks.getD v 0 < 2 ^ 64) →
    st.carry = adderC n.val (n.val <<< sOf x) (64 * w) →
    (∀ j, streamBit st.new_m6 j =
      (decide (j < 64 * w) && decide (adderOutR n.val (n.val <<< sOf x) j = 1))) →
    (∀ j, streamBit st.new_m4 j =
      (decide (j < 64 * w) && decide (adderOutL n.val (n.val <<< sOf x) j = 1))) →
    (collect_gpk = true → ∀ j, streamBit st.g_masks j =
      ((decide (j < 64 * w) && decide (j / 64 < gwc)) &&
        gBit n.val (n.val <<< sOf x) j)) →
    (collect_gpk = true → ∀ j, streamBit st.p_masks j =
      ((decide (j < 64 * w) && decide (j / 64 < gwc)) &&
        pBit n.val (n.val <<< sOf x) j)) →
    w + f ≤ L →
    ((packedLoopGo n (sOf x / 2) (decide (sOf x % 2 = 0)) collect_gpk gwc f w
        st).new_m4.length = L ∧
     (packedLoopGo n (sOf x / 2) (decide (sOf x % 2 = 0)) collect_gpk gwc f w
        st).new_m6.length = L ∧
     (packedLoopGo n (sOf x / 2) (decide (sOf x % 2 = 0)) collect_gpk gwc f w
        st).g_masks.length = gwc ∧
     (packedLoopGo n (sOf x / 2) (decide (sOf x % 2 = 0)) collect_gpk gwc f w
        st).p_masks.length = gwc ∧
     (∀ v, (packedLoopGo n (sOf x / 2) (decide (sOf x % 2 = 0)) collect_gpk gwc f w
        st).new_m4.getD v 0 < 2 ^ 64) ∧
     (∀ v, (packedLoopGo n (sOf x / 2) (decide (sOf x % 2 = 0)) collect_gpk gwc f w
        st).new_m6.getD v 0 < 2 ^ 64) ∧
     (∀ v, (packedLoopGo n (sOf x / 2) (decide (sOf x % 2 = 0)) collect_gpk gwc f w
        st).g_masks.getD v 0 < 2 ^ 64) ∧
     (∀ v, (packedLoopGo n (sOf x / 2) (decide (sOf x % 2 = 0)) collect_gpk gwc f w
        st).p_masks.getD v 0 < 2 ^ 64) ∧
     (∀ j, streamBit (packedLoopGo n (sOf x / 2) (decide (sOf x % 2 = 0)) collect_gpk
        gwc f w st).new_m6 j =
       (decide (j < 64 * (w + f)) && decide (adderOutR n.val (n.val <<< sOf x) j = 1))) ∧
     (∀ j, streamBit (packedLoopGo n (sOf x / 2) (decide (sOf x % 2 = 0)) collect_gpk
        gwc f w st).new_m4 j =
       (decide (j < 64 * (w + f)) && decide (adderOutL n.val (n.val <<< sOf x) j = 1))) ∧
     (collect_gpk = true → ∀ j, streamBit (packedLoopGo n (sOf x / 2)
        (decide (sOf x % 2 = 0)) collect_gpk gwc f w st).g_masks j =
       ((decide (j < 64 * (w + f)) && decide (j / 64 < gwc)) &&
         gBit n.val (n.val <<< sOf x) j)) ∧
     (collect_gpk = true → ∀ j, streamBit (packedLoopGo n (sOf x / 2)
        (decide (sOf x % 2 = 0)) collect_gpk gwc f w st).p_masks j =
       ((decide (j < 64 * (w + f)) && decide (j / 64 < gwc)) &&
         pBit n.val (n.val <<< sOf x) j))) := by
  intro f
  induction f with
  | zero =>
    intro w st h1 h2 h3 h4 h5 h6 h7 h8 h9 h10 h11 h12 h13 h14
    exact ⟨h1, h2, h3, h4, h5, h6, h7, h8,
      by rw [Nat.add_zero]; exact h10,
      by rw [Nat.add_zero]; exact h11,
      by rw [Nat.add_zero]; exact h12,
      by rw [Nat.add_zero]; exact h13⟩
  | succ f ih =>
    intro w st h1 h2 h3 h4 h5 h6 h7 h8 h9 h10 h11 h12 h13 h14
    simp only [packedLoopGo]
    rw [show w + (f + 1) = (w + 1) + f from by omega]
    by_cases hpar : sOf x % 2 = 0
    · rw [if_pos (show (decide (sOf x % 2 = 0)) = true from by simp [hpar])]
      obtain ⟨f1, f2, f3, f4, f5, f6, f7, f8, f9⟩ :=
        packed_scan_word_spec n.val (n.val <<< sOf x) (64 * w)
          (extract_window n.m6_words n.pair_count
            (((64 * w : Nat) : Int) - ((sOf x / 2 : Nat) : Int)))
          (extract_window n.m6_words n.pair_count ((64 * w : Nat) : Int))
          (extract_window n.m4_words n.pair_count
            (((64 * w : Nat) : Int) - ((sOf x / 2 : Nat) : Int)))
          (extract_window n.m4_words n.pair_count ((64 * w : Nat) : Int))
          st.carry
          (extract_window_lt _ _ _ (canonical_getD_lt_m6 hn))
          (extract_window_lt _ _ _ (canonical_getD_lt_m6 hn))
          (extract_window_lt _ _ _ (canonical_getD_lt_m4 hn))
          (extract_window_lt _ _ _ (canonical_getD_lt_m4 hn))
          (fun i hi => window_even_r n hn x hpar w i hi)
          (fun i hi => window_cur_m6 n hn w i hi)
          (fun i hi => window_even_l n hn x hpar w i hi)
          (fun i hi => window_cur_m4 n hn w i hi)
          h9
      obtain ⟨k1, k2, k3, k4, k5, k6, k7, k8, k9, k10, k11, k12, k13⟩ :=
        packedState_step n.val (n.val <<< sOf x) collect_gpk gwc L w st
          (packed_scan_word
            (extract_window n.m6_words n.pair_count
              (((64 * w : Nat) : Int) - ((sOf x / 2 : Nat) : Int)))
            (extract_window n.m6_words n.pair_count ((64 * w : Nat) : Int))
            (extract_window n.m4_words n.pair_count
              (((64 * w : Nat) : Int) - ((sOf x / 2 : Nat) : Int)))
            (extract_window n.m4_words n.pair_count ((64 * w : Nat) : Int))
            st.carry)
          f1 f2 f3 f4 f5 f6 f7 f8 f9 h1 h2 h3 h4 h5 h6 h7 h8 h10 h11 h12 h13
          (by omega)
      exact ih (w + 1) _ k1 k2 k3 k4 k5 k6 k7 k8 k9 k10 k11 k12 k13 (by omega)
    · have hpar1 : sOf x % 2 = 1 := by omega
      rw [if_neg (show ¬ (decide (sOf x % 2 = 0)) = true from by simp [hpar])]
      obtain ⟨f1, f2, f3, f4, f5, f6, f7, f8, f9⟩ :=
        packed_scan_word_spec n.val (n.val <<< sOf x) (64 * w)
          (extract_window n.m4_words n.pair_count
            (((64 * w : Nat) : Int) - ((sOf x / 2 : Nat) : Int) - 1))
          (extract_window n.m6_words n.pair_count ((64 * w : Nat) : Int))
          (extract_window n.m6_words n.pair_count
            (((64 * w : Nat) : Int) - ((sOf x / 2 : Nat) : Int)))
          (extract_window n.m4_words n.pair_count ((64 * w : Nat) : Int))
          st.carry
          (extract_window_lt _ _ _ (canonical_getD_lt_m4 hn))
          (extract_window_lt _ _ _ (canonical_getD_lt_m6 hn))
          (extract_window_lt _ _ _ (canonical_getD_lt_m6 hn))
          (extract_window_lt _ _ _ (canonical_getD_lt_m4 hn))
          (fun i hi => window_odd_r n hn x hpar1 w i hi)
          (fun i hi => window_cur_m6 n hn w i hi)
          (fun i hi => window_odd_l n hn x hpar1 w i hi)
          (fun i hi => window_cur_m4 n hn w i hi)
          h9
      obtain ⟨k1, k2, k3, k4, k5, k6, k7, k8, k9, k10, k11, k12, k13⟩ :=
        packedState_step n.val (n.val <<< sOf x) collect_gpk gwc L w st
          (packed_scan_word
            (extract_window n.m4_words n.pair_count
              (((64 * w : Nat) : Int) - ((sOf x / 2 : Nat) : Int) - 1))
            (extract_window n.m6_words n.pair_count ((64 * w : Nat) : Int))
            (extract_window n.m6_words n.pair_count
              (((64 * w : Nat) : Int) - ((sOf x / 2 : Nat) : Int)))
            (extract_window n.m4_words n.pair_count ((64 * w : Nat) : Int))
            st.carry)
          f1 f2 f3 f4 f5 f6 f7 f8 f9 h1 h2 h3 h4 h5 h6 h7 h8 h10 h11 h12 h13
          (by omega)
      exact ih (w + 1) _ k1 k2 k3 k4 k5 k6 k7 k8 k9 k10 k11 k12 k13 (by omega)

/-! ## Counting set bits -/

theorem countTrue_succ (f : Nat → Bool) (m : Nat) :
    countTrue f (m + 1) = countTrue f m + (f m).toNat := rfl

theorem countTrue_congr (f g : Nat → Bool) :
    ∀ m, (∀ j, j < m → f j = g j) → countTrue f m = countTrue g m := by
  intro m
  induction m with
  | zero => intro _; rfl
  | succ m ih =>
    intro h
    rw [countTrue_succ, countTrue_succ, ih (fun j hj => h j (by omega)),
      h m (by omega)]

theorem countTrue_split (f : Nat → Bool) (a : Nat) :
    ∀ b, countTrue f (a + b) = countTrue f a + countTrue (fun j => f (a + j)) b := by
  intro b
  induction b with
  | zero => rfl
  | succ b ih =>
    rw [show a + (b + 1) = (a + b) + 1 from by omega, countTrue_succ, ih,
      countTrue_succ]
    omega

theorem countTrue_ext (f : Nat → Bool) {a : Nat} :
    ∀ b, a ≤ b → (∀ j, a ≤ j → j < b → f j = false) →
    countTrue f b = countTrue f a := by
  intro b
  induction b with
  | zero =>
    intro hab _
    have : a = 0 := by omega
    rw [this]
  | succ b ih =>
    intro hab h
    rcases Nat.lt_or_ge a (b + 1) with hlt | hge
    · rw [countTrue_succ, h b (by omega) (by omega), ih (by omega)
        (fun j h1 h2 => h j h1 (by omega))]
      rfl
    · have : a = b + 1 := by omega
      rw [this]

theorem bitCountBelow_eq (v : Nat) : ∀ m, bitCountBelow v m = countTrue v.testBit m := by
  intro m
  induction m with
  | zero => rfl
  | succ m ih =>
    show bitCountBelow v m + (v.testBit m).toNat = _
    rw [countTrue_succ, ih]

theorem sum_popcount (ws : List Nat) :
    (ws.map u64_count_ones).sum = countTrue (streamBit ws) (64 * ws.length) := by
  induction ws with
  | nil => rfl
  | cons w rest ih =>
    show u64_count_ones w + (rest.map u64_count_ones).sum = _
    rw [ih, show 64 * (w :: rest).length = 64 + 64 * rest.length from by
      rw [List.length_cons]; ring,
      countTrue_split (streamBit (w :: rest)) 64 (64 * rest.length)]
    have e1 : countTrue (streamBit (w :: rest)) 64 = u64_count_ones w := by
      unfold u64_count_ones
      rw [bitCountBelow_eq]
      apply countTrue_congr
      intro j hj
      unfold streamBit
      rw [show j / 64 = 0 from by omega, show j % 64 = j from by omega]
      rfl
    have e2 : countTrue (fun j => streamBit (w :: rest) (64 + j)) (64 * rest.length) =
        countTrue (streamBit rest) (64 * rest.length) := by
      apply countTrue_congr
      intro j _
      unfold streamBit
      rw [show (64 + j) / 64 = j / 64 + 1 from by omega,
        show (64 + j) % 64 = j % 64 from by omega]
      rfl
    rw [e1, e2]

theorem countG_succ (A B m : Nat) : countG A B (m + 1) =
    countG A B m + (if specGpk A B m = Gpk.Generate then 1 else 0) := rfl

theorem countP_succ (A B m : Nat) : countP A B (m + 1) =
    countP A B m + (if specGpk A B m = Gpk.Propagate then 1 else 0) := rfl

theorem countK_succ (A B m : Nat) : countK A B (m + 1) =
    countK A B m + (if specGpk A B m = Gpk.Kill then 1 else 0) := rfl

theorem countG_eq_countTrue (A B : Nat) :
    ∀ m, countG A B m = countTrue (fun j => decide (specGpk A B j = Gpk.Generate)) m := by
  intro m
  induction m with
  | zero => rfl
  | succ m ih =>
    rw [countG_succ, countTrue_succ, ih]
    by_cases h : specGpk A B m = Gpk.Generate <;> simp [h]

theorem countP_eq_countTrue (A B : Nat) :
    ∀ m, countP A B m = countTrue (fun j => decide (specGpk A B j = Gpk.Propagate)) m := by
  intro m
  induction m with
  | zero => rfl
  | succ m ih =>
    rw [countP_succ, countTrue_succ, ih]
    by_cases h : specGpk A B m = Gpk.Propagate <;> simp [h]

theorem countK_eq_countTrue (A B : Nat) :
    ∀ m, countK A B m = countTrue (fun j => decide (specGpk A B j = Gpk.Kill)) m := by
  intro m
  induction m with
  | zero => rfl
  | succ m ih =>
    rw [countK_succ, countTrue_succ, ih]
    by_cases h : specGpk A B m = Gpk.Kill <;> simp [h]

theorem countGPK_total (A B : Nat) :
    ∀ m, countG A B m + countP A B m + countK A B m = m := by
  intro m
  induction m with
  | zero => rfl
  | succ m ih =>
    rw [countG_succ, countP_succ, countK_succ]
    rcases hg : specGpk A B m with _ | _ | _ <;> simp [hg] <;> omega

/-! ## Carry-chain sweep equality -/

theorem gpkSweepGo_eq_statsSweepGo (g p : List Nat) :
    ∀ f i ch mx ca, gpkSweepGo g p f i ch mx ca = statsSweepGo g p f i ch mx ca := by
  intro f
  induction f with
  | zero => intro i ch mx ca; rfl
  | succ f ih =>
    intro i ch mx ca
    show (if streamBit g i then _ else _) = (if streamBit g i then _ else _)
    by_cases h : streamBit g i = true
    · rw [if_pos h, if_pos h]
      exact ih _ _ _ _
    · rw [if_neg h, if_neg h]
      by_cases h2 : streamBit p i = true
      · rw [if_pos h2, if_pos h2]
        exact ih _ _ _ _
      · rw [if_neg h2, if_neg h2]
        exact ih _ _ _ _

theorem statsSweepGo_congr (g1 p1 g2 p2 : List Nat) :
    ∀ f i ch mx ca,
    (∀ j, i ≤ j → j < i + f →
      streamBit g1 j = streamBit g2 j ∧ streamBit p1 j = streamBit p2 j) →
    statsSweepGo g1 p1 f i ch mx ca = statsSweepGo g2 p2 f i ch mx ca := by
  intro f
  induction f with
  | zero => intro i ch mx ca _; rfl
  | succ f ih =>
    intro i ch mx ca h
    obtain ⟨hg, hp⟩ := h i (by omega) (by omega)
    show (if streamBit g1 i then _ else _) = (if streamBit g2 i then _ else _)
    rw [← hg, ← hp]
    by_cases h1 : streamBit g1 i = true
    · rw [if_pos h1, if_pos h1]
      exact ih _ _ _ _ (fun j h1 h2 => h j (by omega) (by omega))
    · rw [if_neg h1, if_neg h1]
      by_cases h2 : streamBit p1 i = true
      · rw [if_pos h2, if_pos h2]
        exact ih _ _ _ _ (fun j h1 h2 => h j (by omega) (by omega))
      · rw [if_neg h2, if_neg h2]
        exact ih _ _ _ _ (fun j h1 h2 => h j (by omega) (by omega))

/-! ## The sequential scan's GPK bookkeeping -/

theorem gpk_step (A B k i : Nat) (info : GpkInfo) (hik : i < k)
    (h2 : info.active_pairs = k)
    (h3 : info.g_masks.length = (k + 63) / 64)
    (h4 : info.p_masks.length = (k + 63) / 64)
    (h5 : ∀ v, info.g_masks.getD v 0 < 2 ^ 64)
    (h6 : ∀ v, info.p_masks.getD v 0 < 2 ^ 64)
    (h7 : info.g_count = countG A B i) (h8 : info.p_count = countP A B i)
    (h9 : info.k_count = countK A B i)
    (h10 : ∀ j, streamBit info.g_masks j =
      (decide (j < i) && decide (specGpk A B j = Gpk.Generate)))
    (h11 : ∀ j, streamBit info.p_masks j =
      (decide (j < i) && decide (specGpk A B j = Gpk.Propagate))) :
    (info.set_gpk i (specGpk A B i)).active_pairs = k ∧
    (info.set_gpk i (specGpk A B i)).g_masks.length = (k + 63) / 64 ∧
    (info.set_gpk i (specGpk A B i)).p_masks.length = (k + 63) / 64 ∧
    (∀ v, (info.set_gpk i (specGpk A B i)).g_masks.getD v 0 < 2 ^ 64) ∧
    (∀ v, (info.set_gpk i (specGpk A B i)).p_masks.getD v 0 < 2 ^ 64) ∧
    (info.set_gpk i (specGpk A B i)).g_count = countG A B (i + 1) ∧
    (info.set_gpk i (specGpk A B i)).p_count = countP A B (i + 1) ∧
    (info.set_gpk i (specGpk A B i)).k_count = countK A B (i + 1) ∧
    (∀ j, streamBit (info.set_gpk i (specGpk A B i)).g_masks j =
      (decide (j < i + 1) && decide (specGpk A B j = Gpk.Generate))) ∧
    (∀ j, streamBit (info.set_gpk i (specGpk A B i)).p_masks j =
      (decide (j < i + 1) && decide (specGpk A B j = Gpk.Propagate))) := by
  have hi64 : i / 64 < (k + 63) / 64 := by omega
  rcases hspec : specGpk A B i with _ | _ | _
  · -- Kill
    refine ⟨h2, h3, h4, h5, h6, ?_, ?_, ?_, ?_, ?_⟩
    · show info.g_count = _
      rw [h7, countG_succ, hspec]
      simp
    · show info.p_count = _
      rw [h8, countP_succ, hspec]
      simp
    · show info.k_count + 1 = _
      rw [h9, countK_succ, hspec]
      simp
    · intro j
      show streamBit info.g_masks j = _
      rw [h10 j]
      rcases Nat.lt_trichotomy j i with h | h | h
      · rw [decide_eq_true h, decide_eq_true (show j < i + 1 from by omega)]
      · subst h
        rw [decide_eq_false (by omega : ¬ j < j),
          decide_eq_false (show ¬ specGpk A B j = Gpk.Generate from by
            rw [hspec]; intro hc; cases hc)]
        simp
      · rw [decide_eq_false (by omega : ¬ j < i),
          decide_eq_false (by omega : ¬ j < i + 1)]
    · intro j
      show streamBit info.p_masks j = _
      rw [h11 j]
      rcases Nat.lt_trichotomy j i with h | h | h
      · rw [decide_eq_true h, decide_eq_true (show j < i + 1 from by omega)]
      · subst h
        rw [decide_eq_false (by omega : ¬ j < j),
          decide_eq_false (show ¬ specGpk A B j = Gpk.Propagate from by
            rw [hspec]; intro hc; cases hc)]
        simp
      · rw [decide_eq_false (by omega : ¬ j < i),
          decide_eq_false (by omega : ¬ j < i + 1)]
  · -- Propagate
    refine ⟨h2, h3, ?_, h5, ?_, ?_, ?_, ?_, ?_, ?_⟩
    · show (setStreamBit info.p_masks i 1).length = _
      rw [setStreamBit_length]
      exact h4
    · exact setStreamBit_getD_lt info.p_masks _ _ (by omega) h6 (by omega)
    · show info.g_count = _
      rw [h7, countG_succ, hspec]
      simp
    · show info.p_count + 1 = _
      rw [h8, countP_succ, hspec]
      simp
    · show info.k_count = _
      rw [h9, countK_succ, hspec]
      simp
    · intro j
      show streamBit info.g_masks j = _
      rw [h10 j]
      rcases Nat.lt_trichotomy j i with h | h | h
      · rw [decide_eq_true h, decide_eq_true (show j < i + 1 from by omega)]
      · subst h
        rw [decide_eq_false (by omega : ¬ j < j),
          decide_eq_false (show ¬ specGpk A B j = Gpk.Generate from by
            rw [hspec]; intro hc; cases hc)]
        simp
      · rw [decide_eq_false (by omega : ¬ j < i),
          decide_eq_false (by omega : ¬ j < i + 1)]
    · intro j
      show streamBit (setStreamBit info.p_masks i 1) j = _
      rw [streamBit_setStreamBit info.p_masks i 1 j (by omega) (by omega), h11 j]
      have hSi : (decide ((1 : Nat) = 1)) =
          decide (specGpk A B i = Gpk.Propagate) := by
        rw [hspec]
        simp
      rw [hSi]
      exact window_extend (fun t => decide (specGpk A B t = Gpk.Propagate)) i j
  · -- Generate
    refine ⟨h2, ?_, h4, ?_, h6, ?_, ?_, ?_, ?_, ?_⟩
    · show (setStreamBit info.g_masks i 1).length = _
      rw [setStreamBit_length]
      exact h3
    · exact setStreamBit_getD_lt info.g_masks _ _ (by omega) h5 (by omega)
    · show info.g_count + 1 = _
      rw [h7, countG_succ, hspec]
      simp
    · show info.p_count = _
      rw [h8, countP_succ, hspec]
      simp
    · show info.k_count = _
      rw [h9, countK_succ, hspec]
      simp
    · intro j
      show streamBit (setStreamBit info.g_masks i 1) j = _
      rw [streamBit_setStreamBit info.g_masks i 1 j (by omega) (by omega), h10 j]
      have hSi : (decide ((1 : Nat) = 1)) =
          decide (specGpk A B i = Gpk.Generate) := by
        rw [hspec]
        simp
      rw [hSi]
      exact window_extend (fun t => decide (specGpk A B t = Gpk.Generate)) i j
    · intro j
      show streamBit info.p_masks j = _
      rw [h11 j]
      rcases Nat.lt_trichotomy j i with h | h | h
      · rw [decide_eq_true h, decide_eq_true (show j < i + 1 from by omega)]
      · subst h
        rw [decide_eq_false (by omega : ¬ j < j),
          decide_eq_false (show ¬ specGpk A B j = Gpk.Propagate from by
            rw [hspec]; intro hc; cases hc)]
        simp
      · rw [decide_eq_false (by omega : ¬ j < i),
          decide_eq_false (by omega : ¬ j < i + 1)]

theorem scanLoopGo_gpk_spec (n : PairNumber) (x : Nat) (k safe_end M : Nat)
    (hks : k ≤ safe_end) (hsM : safe_end ≤ M) :
    ∀ f i st,
    (st : ScanState).c = adderC n.val (n.val <<< sOf x) i →
    st.gpk.active_pairs = k →
    st.gpk.g_masks.length = (k + 63) / 64 →
    st.gpk.p_masks.length = (k + 63) / 64 →
    (∀ v, st.gpk.g_masks.getD v 0 < 2 ^ 64) →
    (∀ v, st.gpk.p_masks.getD v 0 < 2 ^ 64) →
    st.gpk.g_count = countG n.val (n.val <<< sOf x) (min i k) →
    st.gpk.p_count = countP n.val (n.val <<< sOf x) (min i k) →
    st.gpk.k_count = countK n.val (n.val <<< sOf x) (min i k) →
    (∀ j, streamBit st.gpk.g_masks j =
      (decide (j < min i k) &&
        decide (specGpk n.val (n.val <<< sOf x) j = Gpk.Generate))) →
    (∀ j, streamBit st.gpk.p_masks j =
      (decide (j < min i k) &&
        decide (specGpk n.val (n.val <<< sOf x) j = Gpk.Propagate))) →
    i + f = M + 1 → 1 ≤ f →
    ((scanLoopGo n (RefPattern.new x) k safe_end f i st).gpk.active_pairs = k ∧
     (scanLoopGo n (RefPattern.new x) k safe_end f i st).gpk.g_masks.length =
       (k + 63) / 64 ∧
     (scanLoopGo n (RefPattern.new x) k safe_end f i st).gpk.p_masks.length =
       (k + 63) / 64 ∧
     (∀ v, (scanLoopGo n (RefPattern.new x) k safe_end f i st).gpk.g_masks.getD v 0 <
       2 ^ 64) ∧
     (∀ v, (scanLoopGo n (RefPattern.new x) k safe_end f i st).gpk.p_masks.getD v 0 <
       2 ^ 64) ∧
     (scanLoopGo n (RefPattern.new x) k safe_end f i st).gpk.g_count =
       countG n.val (n.val <<< sOf x) k ∧
     (scanLoopGo n (RefPattern.new x) k safe_end f i st).gpk.p_count =
       countP n.val (n.val <<< sOf x) k ∧
     (scanLoopGo n (RefPattern.new x) k safe_end f i st).gpk.k_count =
       countK n.val (n.val <<< sOf x) k ∧
     (∀ j, streamBit (scanLoopGo n (RefPattern.new x) k safe_end f i st).gpk.g_masks j =
       (decide (j < k) &&
         decide (specGpk n.val (n.val <<< sOf x) j = Gpk.Generate))) ∧
     (∀ j, streamBit (scanLoopGo n (RefPattern.new x) k safe_end f i st).gpk.p_masks j =
       (decide (j < k) &&
         decide (specGpk n.val (n.val <<< sOf x) j = Gpk.Propagate)))) := by
  intro f
  induction f with
  | zero =>
    intro i st _ _ _ _ _ _ _ _ _ _ _ _ hf
    omega
  | succ f ih =>
    intro i st hc h2 h3 h4 h5 h6 h7 h8 h9 h10 h11 hfuel _
    obtain ⟨hbm4, hbm6, hbc, hbap, hbgpk⟩ := scanBody_spec n x k i st hc
    have hstep : (scanBody n (RefPattern.new x) k i st).gpk.active_pairs = k ∧
        (scanBody n (RefPattern.new x) k i st).gpk.g_masks.length = (k + 63) / 64 ∧
        (scanBody n (RefPattern.new x) k i st).gpk.p_masks.length = (k + 63) / 64 ∧
        (∀ v, (scanBody n (RefPattern.new x) k i st).gpk.g_masks.getD v 0 < 2 ^ 64) ∧
        (∀ v, (scanBody n (RefPattern.new x) k i st).gpk.p_masks.getD v 0 < 2 ^ 64) ∧
        (scanBody n (RefPattern.new x) k i st).gpk.g_count =
          countG n.val (n.val <<< sOf x) (min (i + 1) k) ∧
        (scanBody n (RefPattern.new x) k i st).gpk.p_count =
          countP n.val (n.val <<< sOf x) (min (i + 1) k) ∧
        (scanBody n (RefPattern.new x) k i st).gpk.k_count =
          countK n.val (n.val <<< sOf x) (min (i + 1) k) ∧
        (∀ j, streamBit (scanBody n (RefPattern.new x) k i st).gpk.g_masks j =
          (decide (j < min (i + 1) k) &&
            decide (specGpk n.val (n.val <<< sOf x) j = Gpk.Generate))) ∧
        (∀ j, streamBit (scanBody n (RefPattern.new x) k i st).gpk.p_masks j =
          (decide (j < min (i + 1) k) &&
            decide (specGpk n.val (n.val <<< sOf x) j = Gpk.Propagate))) := by
      rw [hbgpk]
      by_cases hik : i < k
      · rw [if_pos hik]
        have hmin1 : min i k = i := by omega
        have hmin2 : min (i + 1) k = i + 1 := by omega
        rw [hmin1] at h7 h8 h9 h10 h11
        rw [hmin2]
        exact gpk_step n.val (n.val <<< sOf x) k i st.gpk hik h2 h3 h4 h5 h6
          h7 h8 h9 h10 h11
      · rw [if_neg hik]
        have hmin : min (i + 1) k = min i k := by omega
        rw [hmin]
        exact ⟨h2, h3, h4, h5, h6, h7, h8, h9, h10, h11⟩
    obtain ⟨k2, k3, k4, k5, k6, k7, k8, k9, k10, k11⟩ := hstep
    simp only [scanLoopGo]
    by_cases hexit : (scanBody n (RefPattern.new x) k i st).c = 0 ∧ safe_end ≤ i
    · rw [if_pos hexit]
      have hmink : min (i + 1) k = k := by omega
      rw [hmink] at k7 k8 k9 k10 k11
      exact ⟨k2, k3, k4, k5, k6, k7, k8, k9, k10, k11⟩
    · rw [if_neg hexit]
      rcases Nat.eq_zero_or_pos f with hf0 | hf1
      · subst hf0
        simp only [scanLoopGo]
        have hieq : i = M := by omega
        have hmink : min (i + 1) k = k := by omega
        rw [hmink] at k7 k8 k9 k10 k11
        exact ⟨k2, k3, k4, k5, k6, k7, k8, k9, k10, k11⟩
      · exact ih (i + 1) (scanBody n (RefPattern.new x) k i st)
          (by rw [hbc]) k2 k3 k4 k5 k6 k7 k8 k9 k10 k11 (by omega) (by omega)

theorem packedRunGeneric_spec (n : PairNumber) (x : Nat) (hn : n.Canonical)
    (collect_gpk : Bool) :
    (packedRunGeneric n x collect_gpk).new_m4.length =
      (n.pair_count + ((sOf x + 1) / 2 + 1) + 63) / 64 ∧
    (packedRunGeneric n x collect_gpk).new_m6.length =
      (n.pair_count + ((sOf x + 1) / 2 + 1) + 63) / 64 ∧
    (packedRunGeneric n x collect_gpk).g_masks.length = packedGwc n collect_gpk ∧
    (packedRunGeneric n x collect_gpk).p_masks.length = packedGwc n collect_gpk ∧
    (∀ v, (packedRunGeneric n x collect_gpk).new_m4.getD v 0 < 2 ^ 64) ∧
    (∀ v, (packedRunGeneric n x collect_gpk).new_m6.getD v 0 < 2 ^ 64) ∧
    (∀ v, (packedRunGeneric n x collect_gpk).g_masks.getD v 0 < 2 ^ 64) ∧
    (∀ v, (packedRunGeneric n x collect_gpk).p_masks.getD v 0 < 2 ^ 64) ∧
    (∀ j, streamBit (packedRunGeneric n x collect_gpk).new_m6 j =
      (decide (j < 64 * ((n.pair_count + ((sOf x + 1) / 2 + 1) + 63) / 64)) &&
        decide (adderOutR n.val (n.val <<< sOf x) j = 1))) ∧
    (∀ j, streamBit (packedRunGeneric n x collect_gpk).new_m4 j =
      (decide (j < 64 * ((n.pair_count + ((sOf x + 1) / 2 + 1) + 63) / 64)) &&
        decide (adderOutL n.val (n.val <<< sOf x) j = 1))) ∧
    (collect_gpk = true → ∀ j, streamBit (packedRunGeneric n x collect_gpk).g_masks j =
      ((decide (j < 64 * ((n.pair_count + ((sOf x + 1) / 2 + 1) + 63) / 64)) &&
        decide (j / 64 < packedGwc n collect_gpk)) &&
        gBit n.val (n.val <<< sOf x) j)) ∧
    (collect_gpk = true → ∀ j, streamBit (packedRunGeneric n x collect_gpk).p_masks j =
      ((decide (j < 64 * ((n.pair_count + ((sOf x + 1) / 2 + 1) + 63) / 64)) &&
        decide (j / 64 < packedGwc n collect_gpk)) &&
        pBit n.val (n.val <<< sOf x) j)) := by
  have h := packedLoopGo_spec n x hn collect_gpk (packedGwc n collect_gpk)
    ((n.pair_count + ((sOf x + 1) / 2 + 1) + 63) / 64)
    ((n.pair_count + ((sOf x + 1) / 2 + 1) + 63) / 64) 0
    { new_m4 := List.replicate ((n.pair_count + ((sOf x + 1) / 2 + 1) + 63) / 64) 0
      new_m6 := List.replicate ((n.pair_count + ((sOf x + 1) / 2 + 1) + 63) / 64) 0
      g_masks := List.replicate (packedGwc n collect_gpk) 0
      p_masks := List.replicate (packedGwc n collect_gpk) 0
      carry := 1 }
    (List.length_replicate _ _) (List.length_replicate _ _)
    (List.length_replicate _ _) (List.length_replicate _ _)
    (fun v => by
      show (List.replicate _ (0 : Nat)).getD v 0 < 2 ^ 64
      rw [listGetD_replicate]
      exact Nat.pos_pow_of_pos _ (by norm_num))
    (fun v => by
      show (List.replicate _ (0 : Nat)).getD v 0 < 2 ^ 64
      rw [listGetD_replicate]
      exact Nat.pos_pow_of_pos _ (by norm_num))
    (fun v => by
      show (List.replicate _ (0 : Nat)).getD v 0 < 2 ^ 64
      rw [listGetD_replicate]
      exact Nat.pos_pow_of_pos _ (by norm_num))
    (fun v => by
      show (List.replicate _ (0 : Nat)).getD v 0 < 2 ^ 64
      rw [listGetD_replicate]
      exact Nat.pos_pow_of_pos _ (by norm_num))
    rfl
    (fun j => by
      show streamBit (List.replicate _ (0 : Nat)) j = _
      rw [streamBit_replicate]
      simp)
    (fun j => by
      show streamBit (List.replicate _ (0 : Nat)) j = _
      rw [streamBit_replicate]
      simp)
    (fun _ j => by
      show streamBit (List.replicate _ (0 : Nat)) j = _
      rw [streamBit_replicate]
      simp)
    (fun _ j => by
      show streamBit (List.replicate _ (0 : Nat)) j = _
      rw [streamBit_replicate]
      simp)
    (by omega)
  rw [Nat.zero_add] at h
  exact h

theorem sum_lt_four_pow (n : PairNumber) (x : Nat) :
    n.val + (n.val <<< sOf x) + 1 < 4 ^ (n.pair_count + ((sOf x + 1) / 2 + 1)) := by
  have hA2 : n.val < 2 ^ (2 * n.pair_count) := by
    rw [← four_pow]
    exact streamsVal_lt n.m4_words n.m6_words n.pair_count
  have hB2 : n.val <<< sOf x < 2 ^ (2 * n.pair_count + sOf x) := shiftLeft_lt_pow hA2
  have hp1 : (2 : Nat) ^ (2 * n.pair_count) ≤ 2 ^ (2 * n.pair_count + sOf x) :=
    Nat.pow_le_pow_right (by norm_num) (by omega)
  have hp2 : (2 : Nat) ^ (2 * n.pair_count + sOf x + 1) =
      2 ^ (2 * n.pair_count + sOf x) * 2 := pow_succ 2 _
  have hp3 : (2 : Nat) ^ (2 * n.pair_count + sOf x + 1) ≤
      4 ^ (n.pair_count + ((sOf x + 1) / 2 + 1)) := by
    rw [four_pow]
    exact Nat.pow_le_pow_right (by norm_num) (by omega)
  omega

theorem sum_eq_xval (n : PairNumber) (x : Nat) (hx : ValidX x) :
    n.val + (n.val <<< sOf x) + 1 = x * n.val + 1 := by
  have hxeq : x = 2 ^ sOf x + 1 := valid_x_eq hx
  have hB : n.val <<< sOf x = 2 ^ sOf x * n.val := by
    rw [Nat.shiftLeft_eq]
    ring
  have hxA : x * n.val = 2 ^ sOf x * n.val + n.val := by
    conv_lhs => rw [hxeq]
    ring
  rw [hB, hxA]
  omega

theorem from_packed_eta (p : PairNumber) :
    PairNumber.from_packed p.m4_words p.m6_words p.pair_count = p := rfl

theorem packed_step_generic_val_spec (n : PairNumber) (x : Nat) (hn : n.Canonical)
    (hx : ValidX x) (collect_gpk : Bool) :
    (packed_step_generic_opt n x collect_gpk).d = ctzNat (x * n.val + 1) ∧
    (packed_step_generic_opt n x collect_gpk).exchanged =
      decide (ctzNat (x * n.val + 1) % 2 = 1) ∧
    (PairNumber.from_packed (packed_step_generic_opt n x collect_gpk).new_m4
      (packed_step_generic_opt n x collect_gpk).new_m6
      (packed_step_generic_opt n x collect_gpk).new_pair_count).Canonical ∧
    (PairNumber.from_packed (packed_step_generic_opt n x collect_gpk).new_m4
      (packed_step_generic_opt n x collect_gpk).new_m6
      (packed_step_generic_opt n x collect_gpk).new_pair_count).val =
      (x * n.val + 1) >>> ctzNat (x * n.val + 1) := by
  obtain ⟨r1, r2, r3, r4, r5, r6, r7, r8, r9, r10, r11, r12⟩ :=
    packedRunGeneric_spec n x hn collect_gpk
  have hk1 : 1 ≤ n.pair_count := hn.2.2.1
  have hOP1 : 1 ≤ n.pair_count + ((sOf x + 1) / 2 + 1) := by omega
  have hb6 : ∀ i, streamBit
      (mask_top (packedRunGeneric n x collect_gpk).new_m6
        (n.pair_count + ((sOf x + 1) / 2 + 1))) i =
      (decide (i < n.pair_count + ((sOf x + 1) / 2 + 1)) &&
        decide (adderOutR n.val (n.val <<< sOf x) i = 1)) := by
    intro i
    rw [mask_top_bit _ _ r2 hOP1, r9 i]
    by_cases hi : i < n.pair_count + ((sOf x + 1) / 2 + 1)
    · have : i < 64 * ((n.pair_count + ((sOf x + 1) / 2 + 1) + 63) / 64) := by omega
      simp [hi, this]
    · simp [hi]
  have hb4 : ∀ i, streamBit
      (mask_top (packedRunGeneric n x collect_gpk).new_m4
        (n.pair_count + ((sOf x + 1) / 2 + 1))) i =
      (decide (i < n.pair_count + ((sOf x + 1) / 2 + 1)) &&
        decide (adderOutL n.val (n.val <<< sOf x) i = 1)) := by
    intro i
    rw [mask_top_bit _ _ r1 hOP1, r10 i]
    by_cases hi : i < n.pair_count + ((sOf x + 1) / 2 + 1)
    · have : i < 64 * ((n.pair_count + ((sOf x + 1) / 2 + 1) + 63) / 64) := by omega
      simp [hi, this]
    · simp [hi]
  have hA4 : n.val < 4 ^ (n.pair_count + ((sOf x + 1) / 2 + 1)) := by
    have := streamsVal_lt n.m4_words n.m6_words n.pair_count
    have hle : (4 : Nat) ^ n.pair_count ≤
        4 ^ (n.pair_count + ((sOf x + 1) / 2 + 1)) :=
      Nat.pow_le_pow_right (by norm_num) (by omega)
    exact Nat.lt_of_lt_of_le this hle
  have hB4 : n.val <<< sOf x < 4 ^ (n.pair_count + ((sOf x + 1) / 2 + 1)) := by
    have h1 : n.val < 2 ^ (2 * n.pair_count) := by
      rw [← four_pow]
      exact streamsVal_lt n.m4_words n.m6_words n.pair_count
    have h2 := shiftLeft_lt_pow (s := sOf x) h1
    rw [four_pow]
    exact Nat.lt_of_lt_of_le h2 (Nat.pow_le_pow_right (by norm_num) (by omega))
  have hsum := sum_lt_four_pow n x
  have hc0 : adderC n.val (n.val <<< sOf x)
      (n.pair_count + ((sOf x + 1) / 2 + 1)) = 0 :=
    adderC_eq_zero_of_lt hA4 hB4 hsum
  have hval : streamsVal
      (mask_top (packedRunGeneric n x collect_gpk).new_m4
        (n.pair_count + ((sOf x + 1) / 2 + 1)))
      (mask_top (packedRunGeneric n x collect_gpk).new_m6
        (n.pair_count + ((sOf x + 1) / 2 + 1)))
      (n.pair_count + ((sOf x + 1) / 2 + 1)) = x * n.val + 1 := by
    rw [streamsVal_adderSum _ _ n.val (n.val <<< sOf x) _
        (fun j hj => by rw [hb6 j]; simp [hj])
        (fun j hj => by rw [hb4 j]; simp [hj]),
      adderSum_of_c_zero hA4 hB4 hc0]
    exact sum_eq_xval n x hx
  have hpos : 0 < streamsVal
      (mask_top (packedRunGeneric n x collect_gpk).new_m4
        (n.pair_count + ((sOf x + 1) / 2 + 1)))
      (mask_top (packedRunGeneric n x collect_gpk).new_m6
        (n.pair_count + ((sOf x + 1) / 2 + 1)))
      (n.pair_count + ((sOf x + 1) / 2 + 1)) := by
    rw [hval]
    omega
  have hpp := postprocess_spec
    (mask_top (packedRunGeneric n x collect_gpk).new_m4
      (n.pair_count + ((sOf x + 1) / 2 + 1)))
    (mask_top (packedRunGeneric n x collect_gpk).new_m6
      (n.pair_count + ((sOf x + 1) / 2 + 1)))
    (n.pair_count + ((sOf x + 1) / 2 + 1))
    (by rw [mask_top_length, r1]; omega)
    (by rw [mask_top_length, r2]; omega)
    (mask_top_getD_lt _ _ (fun v => r5 v))
    (mask_top_getD_lt _ _ (fun v => r6 v))
    (fun i hi => by rw [hb4 i]; simp [Nat.not_lt.mpr hi])
    (fun i hi => by rw [hb6 i]; simp [Nat.not_lt.mpr hi])
    hpos
  rw [hval] at hpp
  exact ⟨hpp.1, hpp.2.1, hpp.2.2.1, hpp.2.2.2⟩

theorem packed_masked_g_bits (n : PairNumber) (x : Nat) (hn : n.Canonical) :
    ∀ j, streamBit (mask_top (packedRunGeneric n x true).g_masks n.pair_count) j =
      (decide (j < n.pair_count) &&
        decide (specGpk n.val (n.val <<< sOf x) j = Gpk.Generate)) := by
  obtain ⟨r1, r2, r3, r4, r5, r6, r7, r8, r9, r10, r11, r12⟩ :=
    packedRunGeneric_spec n x hn true
  have hk1 : 1 ≤ n.pair_count := hn.2.2.1
  have hgwc : packedGwc n true = (n.pair_count + 63) / 64 := rfl
  intro j
  rw [mask_top_bit _ _ (by rw [r3, hgwc]) hk1, r11 rfl j]
  by_cases hj : j < n.pair_count
  · have c1 : j < 64 * ((n.pair_count + ((sOf x + 1) / 2 + 1) + 63) / 64) := by omega
    have c2 : j / 64 < packedGwc n true := by
      rw [hgwc]
      omega
    rw [decide_eq_true hj, decide_eq_true c1, decide_eq_true c2, specGpk_gen]
    simp
  · rw [decide_eq_false hj]
    simp

theorem packed_masked_p_bits (n : PairNumber) (x : Nat) (hn : n.Canonical) :
    ∀ j, streamBit (mask_top (packedRunGeneric n x true).p_masks n.pair_count) j =
      (decide (j < n.pair_count) &&
        decide (specGpk n.val (n.val <<< sOf x) j = Gpk.Propagate)) := by
  obtain ⟨r1, r2, r3, r4, r5, r6, r7, r8, r9, r10, r11, r12⟩ :=
    packedRunGeneric_spec n x hn true
  have hk1 : 1 ≤ n.pair_count := hn.2.2.1
  have hgwc : packedGwc n true = (n.pair_count + 63) / 64 := rfl
  intro j
  rw [mask_top_bit _ _ (by rw [r4, hgwc]) hk1, r12 rfl j]
  by_cases hj : j < n.pair_count
  · have c1 : j < 64 * ((n.pair_count + ((sOf x + 1) / 2 + 1) + 63) / 64) := by omega
    have c2 : j / 64 < packedGwc n true := by
      rw [hgwc]
      omega
    rw [decide_eq_true hj, decide_eq_true c1, decide_eq_true c2]
    have hpg : (!gBit n.val (n.val <<< sOf x) j && pBit n.val (n.val <<< sOf x) j) =
        pBit n.val (n.val <<< sOf x) j := by
      unfold gBit pBit
      cases (n.val <<< sOf x).testBit (2 * j + 1) <;> cases n.val.testBit (2 * j + 1) <;>
        cases (n.val <<< sOf x).testBit (2 * j) <;> cases n.val.testBit (2 * j) <;> rfl
    rw [specGpk_prop, hpg]
    simp
  · rw [decide_eq_false hj]
    simp

theorem masked_count_eq (ws : List Nat) (k : Nat) (S : Nat → Bool)
    (hlen : ws.length = (k + 63) / 64)
    (hbits : ∀ j, streamBit ws j = (decide (j < k) && S j)) :
    (ws.map u64_count_ones).sum = countTrue S k := by
  rw [sum_popcount, hlen]
  rw [countTrue_congr (streamBit ws) (fun j => decide (j < k) && S j)
    (64 * ((k + 63) / 64)) (fun j _ => hbits j)]
  rw [@countTrue_ext (fun j => decide (j < k) && S j) k (64 * ((k + 63) / 64))
    (by omega) (fun j h1 h2 => by simp [show ¬ j < k from by omega])]
  apply countTrue_congr
  intro j hj
  simp [hj]

theorem packed_step_generic_gpk_spec (n : PairNumber) (x : Nat) (hn : n.Canonical) :
    (packed_step_generic_opt n x true).g_count =
      countG n.val (n.val <<< sOf x) n.pair_count ∧
    (packed_step_generic_opt n x true).p_count =
      countP n.val (n.val <<< sOf x) n.pair_count ∧
    (packed_step_generic_opt n x true).k_count =
      n.pair_count - countG n.val (n.val <<< sOf x) n.pair_count -
        countP n.val (n.val <<< sOf x) n.pair_count ∧
    (packed_step_generic_opt n x true).max_carry_chain =
      statsSweepGo (mask_top (packedRunGeneric n x true).g_masks n.pair_count)
        (mask_top (packedRunGeneric n x true).p_masks n.pair_count)
        n.pair_count 0 0 0 true := by
  obtain ⟨r1, r2, r3, r4, r5, r6, r7, r8, r9, r10, r11, r12⟩ :=
    packedRunGeneric_spec n x hn true
  have hgwc : packedGwc n true = (n.pair_count + 63) / 64 := rfl
  have hglen : (mask_top (packedRunGeneric n x true).g_masks n.pair_count).length =
      (n.pair_count + 63) / 64 := by
    rw [mask_top_length, r3, hgwc]
  have hplen : (mask_top (packedRunGeneric n x true).p_masks n.pair_count).length =
      (n.pair_count + 63) / 64 := by
    rw [mask_top_length, r4, hgwc]
  have hgsum : ((mask_top (packedRunGeneric n x true).g_masks n.pair_count).map
      u64_count_ones).sum = countG n.val (n.val <<< sOf x) n.pair_count := by
    rw [masked_count_eq _ n.pair_count
      (fun j => decide (specGpk n.val (n.val <<< sOf x) j = Gpk.Generate)) hglen
      (packed_masked_g_bits n x hn), ← countG_eq_countTrue]
  have hpsum : ((mask_top (packedRunGeneric n x true).p_masks n.pair_count).map
      u64_count_ones).sum = countP n.val (n.val <<< sOf x) n.pair_count := by
    rw [masked_count_eq _ n.pair_count
      (fun j => decide (specGpk n.val (n.val <<< sOf x) j = Gpk.Propagate)) hplen
      (packed_masked_p_bits n x hn), ← countP_eq_countTrue]
  refine ⟨?_, ?_, ?_, rfl⟩
  · show ((mask_top (packedRunGeneric n x true).g_masks n.pair_count).map
      u64_count_ones).sum = _
    exact hgsum
  · show ((mask_top (packedRunGeneric n x true).p_masks n.pair_count).map
      u64_count_ones).sum = _
    exact hpsum
  · show n.pair_count -
      ((mask_top (packedRunGeneric n x true).g_masks n.pair_count).map
        u64_count_ones).sum -
      ((mask_top (packedRunGeneric n x true).p_masks n.pair_count).map
        u64_count_ones).sum = _
    rw [hgsum, hpsum]

theorem scanStreams_gpk_spec (n : PairNumber) (x : Nat) (hx : ValidX x) :
    (scanStreams n x).gpk.active_pairs = n.pair_count ∧
    (scanStreams n x).gpk.g_count = countG n.val (n.val <<< sOf x) n.pair_count ∧
    (scanStreams n x).gpk.p_count = countP n.val (n.val <<< sOf x) n.pair_count ∧
    (scanStreams n x).gpk.k_count = countK n.val (n.val <<< sOf x) n.pair_count ∧
    (∀ j, streamBit (scanStreams n x).gpk.g_masks j =
      (decide (j < n.pair_count) &&
        decide (specGpk n.val (n.val <<< sOf x) j = Gpk.Generate))) ∧
    (∀ j, streamBit (scanStreams n x).gpk.p_masks j =
      (decide (j < n.pair_count) &&
        decide (specGpk n.val (n.val <<< sOf x) j = Gpk.Propagate))) := by
  have h := scanLoopGo_gpk_spec n x n.pair_count
    (collatzScanSafeEnd n.pair_count (sOf x))
    (collatzScanMaxI n.pair_count (sOf x))
    (by unfold collatzScanSafeEnd; omega)
    (by unfold collatzScanSafeEnd collatzScanMaxI; omega)
    (collatzScanMaxI n.pair_count (sOf x) + 1) 0
    { new_m4 := List.replicate
        ((collatzScanMaxI n.pair_count (RefPattern.new x).s + 1 + 63) / 64) 0
      new_m6 := List.replicate
        ((collatzScanMaxI n.pair_count (RefPattern.new x).s + 1 + 63) / 64) 0
      gpk := GpkInfo.new n.pair_count, c := 1, actual_pairs := 0 }
    rfl rfl (List.length_replicate _ _) (List.length_replicate _ _)
    (fun v => by
      show (List.replicate _ (0 : Nat)).getD v 0 < 2 ^ 64
      rw [listGetD_replicate]
      exact Nat.pos_pow_of_pos _ (by norm_num))
    (fun v => by
      show (List.replicate _ (0 : Nat)).getD v 0 < 2 ^ 64
      rw [listGetD_replicate]
      exact Nat.pos_pow_of_pos _ (by norm_num))
    (by rw [show min 0 n.pair_count = 0 from by omega]; rfl)
    (by rw [show min 0 n.pair_count = 0 from by omega]; rfl)
    (by rw [show min 0 n.pair_count = 0 from by omega]; rfl)
    (fun j => by
      show streamBit (List.replicate _ (0 : Nat)) j = _
      rw [streamBit_replicate, show min 0 n.pair_count = 0 from by omega]
      simp)
    (fun j => by
      show streamBit (List.replicate _ (0 : Nat)) j = _
      rw [streamBit_replicate, show min 0 n.pair_count = 0 from by omega]
      simp)
    (by omega) (by omega)
  exact ⟨h.1, h.2.2.2.2.2.1, h.2.2.2.2.2.2.1, h.2.2.2.2.2.2.2.1,
    h.2.2.2.2.2.2.2.2.1, h.2.2.2.2.2.2.2.2.2⟩

theorem packed_eq_sequential (n : PairNumber) (x : Nat) (hn : n.Canonical)
    (hx : ValidX x) :
    PairNumber.from_packed (packed_step_generic n x).new_m4
      (packed_step_generic n x).new_m6 (packed_step_generic n x).new_pair_count =
      (collatz_step n x).next ∧
    (packed_step_generic n x).d = (collatz_step n x).d ∧
    (packed_step_generic n x).exchanged = (collatz_step n x).exchanged ∧
    (packed_step_generic n x).g_count = (collatz_step n x).gpk.g_count ∧
    (packed_step_generic n x).p_count = (collatz_step n x).gpk.p_count ∧
    (packed_step_generic n x).k_count = (collatz_step n x).gpk.k_count ∧
    (packed_step_generic n x).max_carry_chain =
      (collatz_step n x).gpk.max_carry_chain := by
  obtain ⟨pd, pe, pc, pv⟩ := packed_step_generic_val_spec n x hn hx true
  obtain ⟨pg, pp, pk, pm⟩ := packed_step_generic_gpk_spec n x hn
  obtain ⟨sd, se, sc, sv⟩ := collatz_step_spec n x hx
  obtain ⟨sa, sg, sp, sk, sgb, spb⟩ := scanStreams_gpk_spec n x hx
  have hssg : (collatz_step n x).gpk.g_count = (scanStreams n x).gpk.g_count := rfl
  have hssp : (collatz_step n x).gpk.p_count = (scanStreams n x).gpk.p_count := rfl
  have hssk : (collatz_step n x).gpk.k_count = (scanStreams n x).gpk.k_count := rfl
  have hssm : (collatz_step n x).gpk.max_carry_chain =
      gpkSweepGo (scanStreams n x).gpk.g_masks (scanStreams n x).gpk.p_masks
        (scanStreams n x).gpk.active_pairs 0 0 0 true := rfl
  refine ⟨?_, ?_, ?_, ?_, ?_, ?_, ?_⟩
  · exact canonical_val_inj pc sc (by
      rw [show packed_step_generic n x = packed_step_generic_opt n x true from rfl,
        pv, sv])
  · show (packed_step_generic_opt n x true).d = _
    rw [pd, sd]
  · show (packed_step_generic_opt n x true).exchanged = _
    rw [pe, se]
  · show (packed_step_generic_opt n x true).g_count = _
    rw [pg, hssg, sg]
  · show (packed_step_generic_opt n x true).p_count = _
    rw [pp, hssp, sp]
  · show (packed_step_generic_opt n x true).k_count = _
    rw [pk, hssk, sk]
    have := countGPK_total n.val (n.val <<< sOf x) n.pair_count
    omega
  · show (packed_step_generic_opt n x true).max_carry_chain = _
    rw [pm, hssm, sa, gpkSweepGo_eq_statsSweepGo]
    apply statsSweepGo_congr
    intro j _ _
    constructor
    · rw [sgb j, packed_masked_g_bits n x hn j]
    · rw [spb j, packed_masked_p_bits n x hn j]

/-! ## The specialized packed steps agree with the generic one -/

theorem packedLoop3n1_eq (pn : PairNumber) (cg : Bool) (gwc : Nat) :
    ∀ f w st, packedLoop3n1Go pn cg gwc f w st =
      packedLoopGo pn 0 false cg gwc f w st := by
  intro f
  induction f with
  | zero => intro w st; rfl
  | succ f ih =>
    intro w st
    simp only [packedLoop3n1Go, packedLoopGo]
    rw [if_neg (show ¬ (false : Bool) = true from by simp)]
    rw [show ((64 * w : Nat) : Int) - ((0 : Nat) : Int) - 1 =
        ((64 * w : Nat) : Int) - 1 from by push_cast; ring,
      show ((64 * w : Nat) : Int) - ((0 : Nat) : Int) =
        ((64 * w : Nat) : Int) from by push_cast; ring]
    rw [ih]

theorem packedLoop5n1_eq (pn : PairNumber) (cg : Bool) (gwc : Nat) :
    ∀ f w st, packedLoop5n1Go pn cg gwc f w st =
      packedLoopGo pn 1 true cg gwc f w st := by
  intro f
  induction f with
  | zero => intro w st; rfl
  | succ f ih =>
    intro w st
    simp only [packedLoop5n1Go, packedLoopGo]
    rw [show ((64 * w : Nat) : Int) - ((1 : Nat) : Int) =
        ((64 * w : Nat) : Int) - 1 from by push_cast; ring]
    rw [ih]
    rw [if_pos trivial]

theorem packed_step_3n1_eq (pn : PairNumber) (cg : Bool) :
    packed_step_3n1_opt pn cg = packed_step_generic_opt pn 3 cg := by
  unfold packed_step_3n1_opt packed_step_generic_opt packedRun3n1 packedRunGeneric
  rw [show ctzNat (3 - 1) = 1 from rfl]
  rw [show (1 : Nat) / 2 = 0 from rfl,
    show ((1 : Nat) + 1) / 2 + 1 = 2 from rfl,
    show (decide ((1 : Nat) % 2 = 0)) = false from rfl]
  rw [packedLoop3n1_eq]

theorem packed_step_5n1_eq (pn : PairNumber) (cg : Bool) :
    packed_step_5n1_opt pn cg = packed_step_generic_opt pn 5 cg := by
  unfold packed_step_5n1_opt packed_step_generic_opt packedRun5n1 packedRunGeneric
  rw [show ctzNat (5 - 1) = 2 from rfl]
  rw [show (2 : Nat) / 2 = 1 from rfl,
    show ((2 : Nat) + 1) / 2 + 1 = 2 from rfl,
    show (decide ((2 : Nat) % 2 = 0)) = true from rfl]
  rw [packedLoop5n1_eq]

theorem packedDispatch_eq_generic (pn : PairNumber) (x : Nat) (cg : Bool) :
    packedDispatch pn x cg = packed_step_generic_opt pn x cg := by
  unfold packedDispatch
  by_cases h3 : x = 3
  · subst h3
    rw [if_pos rfl, packed_step_3n1_eq]
  · rw [if_neg h3]
    by_cases h5 : x = 5
    · subst h5
      rw [if_pos rfl, packed_step_5n1_eq]
    · rw [if_neg h5]

theorem stepPN_spec (pn : PairNumber) (x : Nat) (hn : pn.Canonical) (hx : ValidX x) :
    (stepPN x pn).Canonical ∧
    (stepPN x pn).val = (x * pn.val + 1) >>> ctzNat (x * pn.val + 1) := by
  obtain ⟨_, _, pc, pv⟩ := packed_step_generic_val_spec pn x hn hx false
  have hfold : stepPN x pn = PairNumber.from_packed (packedDispatch pn x false).new_m4
      (packedDispatch pn x false).new_m6
      (packedDispatch pn x false).new_pair_count := rfl
  rw [hfold, packedDispatch_eq_generic]
  exact ⟨pc, pv⟩

/-! ## The stopping-time loop -/

theorem stoppingIter_canonical (n x : Nat) (hx : ValidX x) :
    ∀ j, (stoppingIter n x j).Canonical := by
  intro j
  induction j with
  | zero => exact from_biguint_canonical n
  | succ j ih =>
    have h : stoppingIter n x (j + 1) = stepPN x (stoppingIter n x j) :=
      Function.iterate_succ_apply' (stepPN x) j (PairNumber.from_biguint n)
    rw [h]
    exact (stepPN_spec _ x ih hx).1

theorem stoppingLoopGo_some_iff (n x : Nat) (hx : ValidX x) :
    ∀ f steps stats s,
    ((stoppingLoopGo x false (PairNumber.from_biguint n) true f
        (stoppingIter n x steps) steps stats).1 = some s) ↔
      (steps < s ∧ s ≤ steps + f ∧
        ((stoppingIter n x s).val = 1 ∨ (stoppingIter n x s).val < n) ∧
        ∀ j, steps < j → j < s →
          ¬((stoppingIter n x j).val = 1 ∨ (stoppingIter n x j).val < n) ∧
          (stoppingIter n x j).pair_count ≤ MAX_PAIR_COUNT) := by
  intro f
  induction f with
  | zero =>
    intro steps stats s
    show (none = some s) ↔ _
    constructor
    · intro h
      cases h
    · intro ⟨h1, h2, _⟩
      omega
  | succ f ih =>
    intro steps stats s
    simp only [stoppingLoopGo]
    have hiter : PairNumber.from_packed
        (packedDispatch (stoppingIter n x steps) x false).new_m4
        (packedDispatch (stoppingIter n x steps) x false).new_m6
        (packedDispatch (stoppingIter n x steps) x false).new_pair_count =
        stoppingIter n x (steps + 1) := by
      show stepPN x (stoppingIter n x steps) = _
      exact (Function.iterate_succ_apply' (stepPN x) steps
        (PairNumber.from_biguint n)).symm
    rw [hiter]
    have hcan := stoppingIter_canonical n x hx (steps + 1)
    have hone : (stoppingIter n x (steps + 1)).is_one = true ↔
        (stoppingIter n x (steps + 1)).val = 1 := is_one_iff hcan
    have hblt : (stoppingIter n x (steps + 1)).blt (PairNumber.from_biguint n) =
        true ↔ (stoppingIter n x (steps + 1)).val < n := by
      rw [blt_iff_val_lt hcan (from_biguint_canonical n), from_biguint_val]
    by_cases c1 : (stoppingIter n x (steps + 1)).is_one = true
    · rw [if_pos c1]
      show (some (steps + 1) = some s) ↔ _
      constructor
      · intro h
        have hs : s = steps + 1 := by
          cases h
          rfl
        subst hs
        exact ⟨by omega, by omega, Or.inl (hone.mp c1), fun j h1 h2 => by omega⟩
      · intro ⟨h1, h2, h3, h4⟩
        rcases Nat.lt_or_ge (steps + 1) s with hlt | hge
        · exact absurd (Or.inl (hone.mp c1)) (h4 (steps + 1) (by omega) hlt).1
        · have : s = steps + 1 := by omega
          subst this
          rfl
    · rw [if_neg c1]
      by_cases c2 : (stoppingIter n x (steps + 1)).blt (PairNumber.from_biguint n) =
          true
      · rw [if_pos (by rw [Bool.true_and]; exact c2)]
        show (some (steps + 1) = some s) ↔ _
        constructor
        · intro h
          have hs : s = steps + 1 := by
            cases h
            rfl
          subst hs
          exact ⟨by omega, by omega, Or.inr (hblt.mp c2), fun j h1 h2 => by omega⟩
        · intro ⟨h1, h2, h3, h4⟩
          rcases Nat.lt_or_ge (steps + 1) s with hlt | hge
          · exact absurd (Or.inr (hblt.mp c2)) (h4 (steps + 1) (by omega) hlt).1
          · have : s = steps + 1 := by omega
            subst this
            rfl
      · rw [if_neg (by rw [Bool.true_and]; exact c2)]
        have hnostop : ¬((stoppingIter n x (steps + 1)).val = 1 ∨
            (stoppingIter n x (steps + 1)).val < n) := by
          intro hc
          rcases hc with hc | hc
          · exact c1 (hone.mpr hc)
          · exact c2 (hblt.mpr hc)
        by_cases c3 : MAX_PAIR_COUNT < (stoppingIter n x (steps + 1)).pair_count
        · rw [if_pos c3]
          show (none = some s) ↔ _
          constructor
          · intro h
            cases h
          · intro ⟨h1, h2, h3, h4⟩
            rcases Nat.lt_or_ge (steps + 1) s with hlt | hge
            · exact absurd c3
                (by have := (h4 (steps + 1) (by omega) hlt).2; omega)
            · have : s = steps + 1 := by omega
              subst this
              exact absurd h3 hnostop
        · rw [if_neg c3]
          rw [ih (steps + 1) _ s]
          constructor
          · intro ⟨h1, h2, h3, h4⟩
            refine ⟨by omega, by omega, h3, ?_⟩
            intro j hj1 hj2
            rcases Nat.lt_or_ge (steps + 1) j with hlt | hge
            · exact h4 j hlt hj2
            · have : j = steps + 1 := by omega
              subst this
              exact ⟨hnostop, by omega⟩
          · intro ⟨h1, h2, h3, h4⟩
            have hs1 : steps + 1 < s := by
              rcases Nat.lt_or_ge (steps + 1) s with hlt | hge
              · exact hlt
              · have : s = steps + 1 := by omega
                subst this
                exact absurd h3 hnostop
            exact ⟨hs1, by omega, h3, fun j hj1 hj2 => h4 j (by omega) hj2⟩

/-! ## Canonicity of `from_bits_lsb` and further constructor facts -/

theorem fromBitsK0_pos (bits : List Bool) (h0 : bits.length ≠ 0) :
    1 ≤ fromBitsK0 bits := by
  unfold fromBitsK0 fromBitsPadded
  by_cases h : bits.length % 2 ≠ 0
  · rw [if_pos h, List.length_append]
    simp only [List.length_cons, List.length_nil]
    omega
  · rw [if_neg h]
    omega

theorem from_bits_lsb_canonical (bits : List Bool) :
    (PairNumber.from_bits_lsb bits).Canonical := by
  unfold PairNumber.from_bits_lsb
  by_cases h0 : bits.length = 0
  · rw [if_pos h0]
    exact zero_pn_canonical
  · rw [if_neg h0]
    have hk0 : 1 ≤ fromBitsK0 bits := fromBitsK0_pos bits h0
    have hkeq : fromBitsK bits =
        shiftTrimGo (fromBitsM4 bits) (fromBitsM6 bits) (fromBitsK0 bits)
          (fromBitsK0 bits) :=
      trimBitsGo_eq_shiftTrimGo _ _ _ _
    have htrim := shiftTrimGo_spec (fromBitsM4 bits) (fromBitsM6 bits)
      (fromBitsK0 bits) (fromBitsK0 bits) hk0 (by omega)
    rw [← hkeq] at htrim
    obtain ⟨hk1, hk2, _, htop⟩ := htrim
    have hwf4 := buildWords_WF
      (fun i => (fromBitsPadded bits).getD (2 * i + 1) false) (fromBitsK0 bits)
    have hwf6 := buildWords_WF
      (fun i => (fromBitsPadded bits).getD (2 * i) false) (fromBitsK0 bits)
    have hl4 : (fromBitsM4 bits).length = (fromBitsK0 bits + 63) / 64 :=
      buildWords_length _ _
    have hl6 : (fromBitsM6 bits).length = (fromBitsK0 bits + 63) / 64 :=
      buildWords_length _ _
    have hlen4 : (fromBitsK bits + 63) / 64 ≤ (fromBitsM4 bits).length := by
      rw [hl4]
      omega
    have hlen6 : (fromBitsK bits + 63) / 64 ≤ (fromBitsM6 bits).length := by
      rw [hl6]
      omega
    have hW4 : ∀ j, (fromBitsM4 bits).getD j 0 < 2 ^ 64 := StreamWF.getD_lt hwf4
    have hW6 : ∀ j, (fromBitsM6 bits).getD j 0 < 2 ^ 64 := StreamWF.getD_lt hwf6
    refine ⟨maskTake_WF _ _ hlen4 hW4 hk1, maskTake_WF _ _ hlen6 hW6 hk1,
      hk1, ?_⟩
    intro hgt
    have h1 := htop hgt
    rw [pairVal_ne_zero_iff] at h1
    rw [pairVal_ne_zero_iff]
    rw [maskTake_bit _ _ hlen4 hk1, maskTake_bit _ _ hlen6 hk1]
    have hd : decide (fromBitsK bits - 1 < fromBitsK bits) = true := by
      rw [decide_eq_true_eq]
      omega
    rw [hd, Bool.true_and, Bool.true_and]
    exact h1

theorem singleton_getD_lt {w : Nat} (hw : w < 2 ^ 64) :
    ∀ j, ([w] : List Nat).getD j 0 < 2 ^ 64 := by
  intro j
  cases j with
  | zero => exact hw
  | succ j =>
    show (0 : Nat) < 2 ^ 64
    exact Nat.pos_pow_of_pos _ (by norm_num)

theorem singleton_streamBit_false {w c : Nat} (hw : w < 2 ^ c) :
    ∀ i, c ≤ i → streamBit [w] i = false := by
  intro i hi
  unfold streamBit
  rcases Nat.lt_or_ge i 64 with h | h
  · have h0 : i / 64 = 0 := by omega
    rw [h0]
    show w.testBit (i % 64) = false
    have hm : i % 64 = i := by omega
    rw [hm]
    exact testBit_false_of_lt hw hi
  · have hz : ([w] : List Nat).getD (i / 64) 0 = 0 := by
      rcases hD : i / 64 with _ | m
      · omega
      · rfl
    rw [hz]
    exact Nat.zero_testBit _

/-! ## The claims -/

/-- C1: for every canonical odd pair-number `n` and every valid `x`
(`x ≥ 3` with `x - 1` a power of two), `collatz_step n x` returns `d`
equal to the number of trailing zero bits of `x·n + 1` and `next` equal
to the pair-number of `(x·n + 1)` right-shifted by `d`. -/
theorem claim_c1 (n : PairNumber) (x : Nat) (hn : n.Canonical)
    (hodd : n.val % 2 = 1) (hx : ValidX x) :
    (collatz_step n x).d = ctzNat (x * n.val + 1) ∧
    (collatz_step n x).next =
      PairNumber.from_biguint ((x * n.val + 1) >>> ctzNat (x * n.val + 1)) := by
  obtain ⟨h1, _, h3, h4⟩ := collatz_step_spec n x hx
  refine ⟨h1, canonical_val_inj h3 (from_biguint_canonical _) ?_⟩
  rw [h4, from_biguint_val]

theorem claim_c1_witness :
    (PairNumber.from_biguint 5).Canonical ∧
    (PairNumber.from_biguint 5).val % 2 = 1 ∧ ValidX 3 ∧
    ((collatz_step (PairNumber.from_biguint 5) 3).d =
        ctzNat (3 * (PairNumber.from_biguint 5).val + 1) ∧
      (collatz_step (PairNumber.from_biguint 5) 3).next =
        PairNumber.from_biguint ((3 * (PairNumber.from_biguint 5).val + 1) >>>
          ctzNat (3 * (PairNumber.from_biguint 5).val + 1))) :=
  ⟨by decide, by decide, by decide,
   claim_c1 (PairNumber.from_biguint 5) 3 (by decide) (by decide) (by decide)⟩

/-- C2: for every canonical odd pair-number `n` and every valid `x`, the
packed (word-parallel) step and the sequential step return equal
results: the same next pair-number, `d`, `exchanged` flag, `g_count`,
`p_count`, `k_count`, and `max_carry_chain`. -/
theorem claim_c2 (n : PairNumber) (x : Nat) (hn : n.Canonical)
    (hodd : n.val % 2 = 1) (hx : ValidX x) :
    PairNumber.from_packed (packed_step_generic n x).new_m4
      (packed_step_generic n x).new_m6 (packed_step_generic n x).new_pair_count =
      (collatz_step n x).next ∧
    (packed_step_generic n x).d = (collatz_step n x).d ∧
    (packed_step_generic n x).exchanged = (collatz_step n x).exchanged ∧
    (packed_step_generic n x).g_count = (collatz_step n x).gpk.g_count ∧
    (packed_step_generic n x).p_count = (collatz_step n x).gpk.p_count ∧
    (packed_step_generic n x).k_count = (collatz_step n x).gpk.k_count ∧
    (packed_step_generic n x).max_carry_chain =
      (collatz_step n x).gpk.max_carry_chain :=
  packed_eq_sequential n x hn hx

theorem claim_c2_witness :
    (PairNumber.from_biguint 7).Canonical ∧
    (PairNumber.from_biguint 7).val % 2 = 1 ∧ ValidX 3 ∧
    (PairNumber.from_packed
        (packed_step_generic (PairNumber.from_biguint 7) 3).new_m4
        (packed_step_generic (PairNumber.from_biguint 7) 3).new_m6
        (packed_step_generic (PairNumber.from_biguint 7) 3).new_pair_count =
      (collatz_step (PairNumber.from_biguint 7) 3).next ∧
    (packed_step_generic (PairNumber.from_biguint 7) 3).d =
      (collatz_step (PairNumber.from_biguint 7) 3).d ∧
    (packed_step_generic (PairNumber.from_biguint 7) 3).exchanged =
      (collatz_step (PairNumber.from_biguint 7) 3).exchanged ∧
    (packed_step_generic (PairNumber.from_biguint 7) 3).g_count =
      (collatz_step (PairNumber.from_biguint 7) 3).gpk.g_count ∧
    (packed_step_generic (PairNumber.from_biguint 7) 3).p_count =
      (collatz_step (PairNumber.from_biguint 7) 3).gpk.p_count ∧
    (packed_step_generic (PairNumber.from_biguint 7) 3).k_count =
      (collatz_step (PairNumber.from_biguint 7) 3).gpk.k_count ∧
    (packed_step_generic (PairNumber.from_biguint 7) 3).max_carry_chain =
      (collatz_step (PairNumber.from_biguint 7) 3).gpk.max_carry_chain) :=
  ⟨by decide, by decide, by decide,
   claim_c2 (PairNumber.from_biguint 7) 3 (by decide) (by decide) (by decide)⟩

/-- C3: for 64-bit generate/propagate masks `g, p`, after the six
Kogge–Stone rounds with strides 1, 2, 4, 8, 16, 32 (the shifted
propagate word having its vacated low bits filled with 1s, i.e. the
identity `(0, 1)`), bit `i` of the resulting pair is exactly the fold of
the per-pair (G, P) classifications at positions `0..=i` under
`(g_hi, p_hi) ∘ (g_lo, p_lo) = (g_hi ∨ p_hi·g_lo, p_hi·p_lo)`. -/
theorem claim_c3 (g p : Nat) (hg : g < 2 ^ 64) (hp : p < 2 ^ 64)
    (i : Nat) (hi : i < 64) :
    ((kogge_stone_pfx g p).1.testBit i, (kogge_stone_pfx g p).2.testBit i) =
      ksFold g p i :=
  kogge_stone_correct g p hg hp i hi

theorem claim_c3_witness :
    (6 : Nat) < 2 ^ 64 ∧ (9 : Nat) < 2 ^ 64 ∧ 5 < 64 ∧
    ((kogge_stone_pfx 6 9).1.testBit 5, (kogge_stone_pfx 6 9).2.testBit 5) =
      ksFold 6 9 5 :=
  ⟨by decide, by decide, by decide, claim_c3 6 9 (by decide) (by decide) 5 (by decide)⟩

/-- C4: for every raw packed stream of `raw` pairs representing a
positive value, `postprocess` returns `d` equal to the number of
low-order zero bits of the represented value — whose bits are exactly
the fastener bit sequence (bit `2i` = `m6[i]`, bit `2i+1` = `m4[i]`) —
the shifted output has pre-trim pair count `⌈(2k − d)/2⌉` (with `k` the
trimmed pair count), and `exchanged` is true exactly when `d` is odd. -/
theorem claim_c4 (new_m4 new_m6 : List Nat) (raw : Nat)
    (hcov4 : raw ≤ 64 * new_m4.length) (hcov6 : raw ≤ 64 * new_m6.length)
    (hw4 : ∀ j, new_m4.getD j 0 < 2 ^ 64) (hw6 : ∀ j, new_m6.getD j 0 < 2 ^ 64)
    (h4 : ∀ i, raw ≤ i → streamBit new_m4 i = false)
    (h6 : ∀ i, raw ≤ i → streamBit new_m6 i = false)
    (hpos : 0 < streamsVal new_m4 new_m6 raw) :
    (postprocess new_m4 new_m6 raw).d =
      ctzNat (streamsVal new_m4 new_m6 raw) ∧
    (∀ j, (streamsVal new_m4 new_m6 raw).testBit j =
      (decide (j < 2 * raw) && fastBit new_m4 new_m6 j)) ∧
    (postprocess new_m4 new_m6 raw).exchanged =
      decide ((postprocess new_m4 new_m6 raw).d % 2 = 1) ∧
    shiftPreTrimCount (trim_pair_count new_m4 new_m6 raw)
        ((postprocess new_m4 new_m6 raw).d) =
      (2 * trim_pair_count new_m4 new_m6 raw -
        (postprocess new_m4 new_m6 raw).d + 1) / 2 := by
  obtain ⟨hd, he, _, _⟩ := postprocess_spec new_m4 new_m6 raw hcov4 hcov6
    hw4 hw6 h4 h6 hpos
  refine ⟨hd, fun j => fastBit_streamsVal new_m4 new_m6 raw j, ?_, ?_⟩
  · rw [hd]
    exact he
  · by_cases hz : (postprocess new_m4 new_m6 raw).d = 0
    · rw [hz]
      unfold shiftPreTrimCount
      rw [if_pos rfl]
      omega
    · unfold shiftPreTrimCount
      rw [if_neg hz]

theorem claim_c4_witness :
    (2 ≤ 64 * ([2] : List Nat).length) ∧ (0 < streamsVal [2] [1] 2) ∧
    ((postprocess [2] [1] 2).d = ctzNat (streamsVal [2] [1] 2) ∧
    (∀ j, (streamsVal [2] [1] 2).testBit j =
      (decide (j < 2 * 2) && fastBit [2] [1] j)) ∧
    (postprocess [2] [1] 2).exchanged =
      decide ((postprocess [2] [1] 2).d % 2 = 1) ∧
    shiftPreTrimCount (trim_pair_count [2] [1] 2) ((postprocess [2] [1] 2).d) =
      (2 * trim_pair_count [2] [1] 2 - (postprocess [2] [1] 2).d + 1) / 2) :=
  ⟨by decide, by decide,
   claim_c4 [2] [1] 2 (by decide) (by decide)
     (singleton_getD_lt (by decide)) (singleton_getD_lt (by decide))
     (singleton_streamBit_false (by decide))
     (singleton_streamBit_false (by decide)) (by decide)⟩

/-- C5 (corrected): the sequential scan's loop bound in the code is
`max_i = k + ⌊(s+1)/2⌋` (integer, i.e. floor, division) — not
`k + ⌈(s+1)/2⌉` as the specification states — and the output packed
streams are sized for `max_i + 1` pair positions, with the scan filling
between 1 and `max_i + 1` pairs. -/
theorem claim_c5 (n : PairNumber) (x : Nat) (hx : ValidX x) :
    collatzScanMaxI n.pair_count (sOf x) = n.pair_count + (sOf x + 1) / 2 ∧
    (scanStreams n x).new_m4.length =
      (collatzScanMaxI n.pair_count (sOf x) + 1 + 63) / 64 ∧
    (scanStreams n x).new_m6.length =
      (collatzScanMaxI n.pair_count (sOf x) + 1 + 63) / 64 ∧
    1 ≤ (scanStreams n x).actual_pairs ∧
    (scanStreams n x).actual_pairs ≤ collatzScanMaxI n.pair_count (sOf x) + 1 := by
  obtain ⟨s1, s2, _, _, s5, s6, _⟩ := scanStreams_spec n x hx
  exact ⟨rfl, s1, s2, s5, s6⟩

theorem claim_c5_counterexample :
    ValidX 5 ∧ sOf 5 = 2 ∧ collatzScanMaxI 1 (sOf 5) = 2 ∧
    1 + (sOf 5 + 1 + 1) / 2 = 3 ∧
    collatzScanMaxI 1 (sOf 5) ≠ 1 + (sOf 5 + 1 + 1) / 2 := by
  decide

theorem claim_c5_witness :
    ValidX 3 ∧
    (collatzScanMaxI (PairNumber.from_biguint 5).pair_count (sOf 3) =
      (PairNumber.from_biguint 5).pair_count + (sOf 3 + 1) / 2 ∧
    (scanStreams (PairNumber.from_biguint 5) 3).new_m4.length =
      (collatzScanMaxI (PairNumber.from_biguint 5).pair_count (sOf 3) + 1 + 63) / 64 ∧
    (scanStreams (PairNumber.from_biguint 5) 3).new_m6.length =
      (collatzScanMaxI (PairNumber.from_biguint 5).pair_count (sOf 3) + 1 + 63) / 64 ∧
    1 ≤ (scanStreams (PairNumber.from_biguint 5) 3).actual_pairs ∧
    (scanStreams (PairNumber.from_biguint 5) 3).actual_pairs ≤
      collatzScanMaxI (PairNumber.from_biguint 5).pair_count (sOf 3) + 1) :=
  ⟨by decide, claim_c5 (PairNumber.from_biguint 5) 3 (by decide)⟩

/-- C6: for every natural `n`, `to_biguint (from_biguint n) = n`, and for
every `m ≥ 1` the pair count of `from_biguint (2^m − 1)` is
`⌈m/2⌉ = (m+1)/2`. -/
theorem claim_c6 (n m : Nat) (hm : 1 ≤ m) :
    (PairNumber.from_biguint n).to_biguint = n ∧
    (PairNumber.from_biguint (2 ^ m - 1)).pair_count = (m + 1) / 2 := by
  refine ⟨?_, ?_⟩
  · rw [to_biguint_eq_val, from_biguint_val]
  · have h2 : 1 < 2 ^ m := Nat.one_lt_two_pow_iff.mpr (by omega)
    rw [from_biguint_pair_count (show 2 ^ m - 1 ≠ 0 by omega),
      bitLen_two_pow_sub_one]

theorem claim_c6_witness :
    1 ≤ 5 ∧
    ((PairNumber.from_biguint 200).to_biguint = 200 ∧
      (PairNumber.from_biguint (2 ^ 5 - 1)).pair_count = (5 + 1) / 2) :=
  ⟨by decide, claim_c6 200 5 (by decide)⟩

/-- C7: the pair-number comparison (pair counts first, then words from
most significant down, `m4` taking precedence over `m6`) agrees with
integer comparison: for all naturals `a, b`,
`cmp (from_biguint a) (from_biguint b) = compare a b`. -/
theorem claim_c7 (a b : Nat) :
    (PairNumber.from_biguint a).cmp (PairNumber.from_biguint b) =
      compare a b := by
  rw [pn_cmp_eq_compare (from_biguint_canonical a) (from_biguint_canonical b),
    from_biguint_val, from_biguint_val]

/-- C8: for every odd `n` and valid `x`: if `n = 1` then `stopping_time`
returns `some 0`; otherwise it returns `some s` exactly when `s` is the
least positive step index within `max_steps` at which the iterate
reaches 1 or drops strictly below `n`, with every intermediate iterate
non-stopping and within the `MAX_PAIR_COUNT` (= 10000) pair-count cap,
and it returns `none` exactly when no such `s` exists (budget exhausted
or pair-count cap exceeded). -/
theorem claim_c8 (n x max_steps : Nat) (hodd : n % 2 = 1) (hx : ValidX x) :
    (n = 1 → stopping_time n x max_steps = some 0) ∧
    (n ≠ 1 →
      (∀ s, stopping_time n x max_steps = some s ↔
        (0 < s ∧ s ≤ max_steps ∧
          ((stoppingIter n x s).val = 1 ∨ (stoppingIter n x s).val < n) ∧
          ∀ j, 0 < j → j < s →
            ¬((stoppingIter n x j).val = 1 ∨ (stoppingIter n x j).val < n) ∧
            (stoppingIter n x j).pair_count ≤ MAX_PAIR_COUNT)) ∧
      (stopping_time n x max_steps = none ↔
        ∀ s, ¬(0 < s ∧ s ≤ max_steps ∧
          ((stoppingIter n x s).val = 1 ∨ (stoppingIter n x s).val < n) ∧
          ∀ j, 0 < j → j < s →
            ¬((stoppingIter n x j).val = 1 ∨ (stoppingIter n x j).val < n) ∧
            (stoppingIter n x j).pair_count ≤ MAX_PAIR_COUNT))) := by
  refine ⟨fun h1 => by subst h1; rfl, fun hn1 => ?_⟩
  have hunf : stopping_time n x max_steps =
      (stoppingLoopGo x false (PairNumber.from_biguint n) true max_steps
        (stoppingIter n x 0) 0 none).1 := by
    show (stopping_time_with_gpk n x max_steps none true).1 = _
    unfold stopping_time_with_gpk
    rw [if_neg hn1]
    rfl
  have hsome : ∀ s, stopping_time n x max_steps = some s ↔
      (0 < s ∧ s ≤ max_steps ∧
        ((stoppingIter n x s).val = 1 ∨ (stoppingIter n x s).val < n) ∧
        ∀ j, 0 < j → j < s →
          ¬((stoppingIter n x j).val = 1 ∨ (stoppingIter n x j).val < n) ∧
          (stoppingIter n x j).pair_count ≤ MAX_PAIR_COUNT) := by
    intro s
    rw [hunf, stoppingLoopGo_some_iff n x hx max_steps 0 none s, Nat.zero_add]
  refine ⟨hsome, ?_, ?_⟩
  · intro hnone s hc
    have h := (hsome s).mpr hc
    rw [hnone] at h
    cases h
  · intro hall
    rcases hres : stopping_time n x max_steps with _ | s
    · rfl
    · exact absurd ((hsome s).mp hres) (hall s)

theorem claim_c8_witness :
    3 % 2 = 1 ∧ ValidX 3 ∧
    ((3 = 1 → stopping_time 3 3 10 = some 0) ∧
    (3 ≠ 1 →
      (∀ s, stopping_time 3 3 10 = some s ↔
        (0 < s ∧ s ≤ 10 ∧
          ((stoppingIter 3 3 s).val = 1 ∨ (stoppingIter 3 3 s).val < 3) ∧
          ∀ j, 0 < j → j < s →
            ¬((stoppingIter 3 3 j).val = 1 ∨ (stoppingIter 3 3 j).val < 3) ∧
            (stoppingIter 3 3 j).pair_count ≤ MAX_PAIR_COUNT)) ∧
      (stopping_time 3 3 10 = none ↔
        ∀ s, ¬(0 < s ∧ s ≤ 10 ∧
          ((stoppingIter 3 3 s).val = 1 ∨ (stoppingIter 3 3 s).val < 3) ∧
          ∀ j, 0 < j → j < s →
            ¬((stoppingIter 3 3 j).val = 1 ∨ (stoppingIter 3 3 j).val < 3) ∧
            (stoppingIter 3 3 j).pair_count ≤ MAX_PAIR_COUNT)))) :=
  ⟨by decide, by decide, claim_c8 3 3 10 (by decide) (by decide)⟩

/-- C9: every pair-number produced by a public constructor or by a step
(`from_biguint`, `from_bits_lsb`, and the postprocessed output of
`collatz_step`) satisfies the representation invariant (`Canonical`:
well-formed masked streams, `k ≥ 1`, trimmed top pair when `k > 1`),
and the value zero is represented as `k = 1` with `m4[0] = m6[0] = 0`. -/
theorem claim_c9 (n : Nat) (bits : List Bool) (pn : PairNumber) (x : Nat)
    (hx : ValidX x) :
    (PairNumber.from_biguint n).Canonical ∧
    (PairNumber.from_bits_lsb bits).Canonical ∧
    (collatz_step pn x).next.Canonical ∧
    PairNumber.from_biguint 0 = ⟨[0], [0], 1⟩ :=
  ⟨from_biguint_canonical n, from_bits_lsb_canonical bits,
   (collatz_step_spec pn x hx).2.2.1, rfl⟩

theorem claim_c9_witness :
    ValidX 3 ∧
    ((PairNumber.from_biguint 12).Canonical ∧
      (PairNumber.from_bits_lsb [true, false, true]).Canonical ∧
      (collatz_step (PairNumber.from_biguint 7) 3).next.Canonical ∧
      PairNumber.from_biguint 0 = ⟨[0], [0], 1⟩) :=
  ⟨by decide,
   claim_c9 12 [true, false, true] (PairNumber.from_biguint 7) 3 (by decide)⟩

/-- C10: for the starting value `n = 1`, with any valid `x`, any step
budget, any supplied statistics record and any flag settings, both
`stopping_time` (via `stopping_time_with_gpk`) and
`stopping_time_u64_fast` return `some 0` immediately and leave the
statistics record unchanged. -/
theorem claim_c10 (x max_steps : Nat) (hx : ValidX x)
    (gpk_stats : Option GpkStats) (use_phase1 use_stopping_time : Bool) :
    stopping_time 1 x max_steps = some 0 ∧
    stopping_time_with_gpk 1 x max_steps gpk_stats use_stopping_time =
      (some 0, gpk_stats) ∧
    stopping_time_u64_fast 1 x max_steps gpk_stats use_phase1
      use_stopping_time = (some 0, gpk_stats) :=
  ⟨rfl, rfl, rfl⟩

theorem claim_c10_witness :
    ValidX 3 ∧
    (stopping_time 1 3 7 = some 0 ∧
      stopping_time_with_gpk 1 3 7 (some GpkStats.new) true =
        (some 0, some GpkStats.new) ∧
      stopping_time_u64_fast 1 3 7 (some GpkStats.new) true true =
        (some 0, some GpkStats.new)) :=
  ⟨by decide, claim_c10 3 7 (by decide) (some GpkStats.new) true true⟩
